import Mathlib

/-!
# RoutePlanner (Dijkstras_Algorithm.cpp): shallow embedding

The C++ class `RoutePlanner` keeps a list of location names and a dense cost
matrix, and answers shortest-path queries with an O(V²) Dijkstra loop.

Embedding conventions:
* `std::vector` is a `List`; every `operator[]` is a checked access that yields
  `Fault.outOfRange` when the index is outside the vector;
* `int` values are `Int`; the one addition of the program wraps modulo `2^32`
  (`add32`);
* the backward walk over `parent` is a `while`-style loop and takes a fuel
  argument; running out of it yields `Fault.outOfFuel`.
-/

namespace RoutePlannerModel

/-- The constant `INF_VALUE = std::numeric_limits<int>::max()`. -/
def INF_VALUE : Int := 2147483647

/-- Two's-complement wrap of an integer into the 32-bit `int` range. -/
def wrap32 (x : Int) : Int := (x + 2147483648) % 4294967296 - 2147483648

/-- The `int` addition `a + b`. -/
def add32 (a b : Int) : Int := wrap32 (a + b)

/-- Ways in which a run of the embedded code can fail to produce a value. -/
inductive Fault where
  | outOfRange
  | outOfFuel
  deriving DecidableEq, Repr

/-- Checked `v[i]` (read) with an `int` index. -/
def readAt {α : Type} (xs : List α) (i : Int) : Except Fault α :=
  if 0 ≤ i then
    match xs[i.toNat]? with
    | some x => Except.ok x
    | none => Except.error Fault.outOfRange
  else Except.error Fault.outOfRange

/-- Checked `v[i] = x` (write) with an `int` index. -/
def writeAt {α : Type} (xs : List α) (i : Int) (x : α) : Except Fault (List α) :=
  if 0 ≤ i ∧ i.toNat < xs.length then Except.ok (xs.set i.toNat x)
  else Except.error Fault.outOfRange

/-- Checked `m[i][j] = x` on a vector of vectors. -/
def writeCell (m : List (List Int)) (i j : Int) (x : Int) : Except Fault (List (List Int)) := do
  let row ← readAt m i
  let row2 ← writeAt row j x
  writeAt m i row2

/-- The two data members of the class. -/
structure RoutePlanner where
  locationList : List String
  costMatrix : List (List Int)
  deriving DecidableEq, Repr

/-- The value of `locationList.size() - 1` in `size_t` arithmetic: it wraps to
`2^64 - 1` for an empty vector. -/
def sizeMinusOne (n : Nat) : Nat := if n = 0 then 18446744073709551615 else n - 1

namespace RoutePlanner

/-- The constructor `RoutePlanner(inputLocations)`: a `size × size` matrix of
`INF_VALUE`, then the loop that zeroes the diagonal. -/
def construct (inputLocations : List String) : Except Fault RoutePlanner := do
  let size := inputLocations.length
  let m0 := List.replicate size (List.replicate size INF_VALUE)
  let m ← (List.range size).foldlM (fun m (i : Nat) => writeCell m (i : Int) (i : Int) 0) m0
  pure { locationList := inputLocations, costMatrix := m }

/-- The method `indexOfLocation`: `std::find` then the distance to `begin()`, or `-1`. -/
def indexOfLocation (rp : RoutePlanner) (name : String) : Int :=
  let i := rp.locationList.indexOf name
  if i < rp.locationList.length then (i : Int) else -1

/-- The method `connectCities`. -/
def connectCities (rp : RoutePlanner) (fromCity toCity : String) (cost : Int) :
    Except Fault RoutePlanner :=
  let fromIdx := rp.indexOfLocation fromCity
  let toIdx := rp.indexOfLocation toCity
  if fromIdx ≠ -1 ∧ toIdx ≠ -1 then do
    let m1 ← writeCell rp.costMatrix fromIdx toIdx cost
    let m2 ← writeCell m1 toIdx fromIdx cost
    pure { rp with costMatrix := m2 }
  else pure rp

/-- One round of the scan in `selectClosestUnvisited`; the accumulator is
`(minValue, minIndex)`. -/
def selectStep (distArr : List Int) (visitedArr : List Bool) (acc : Int × Int) (i : Nat) :
    Except Fault (Int × Int) := do
  let vis ← readAt visitedArr (i : Int)
  if vis then pure acc
  else do
    let di ← readAt distArr (i : Int)
    if di < acc.1 then pure (di, (i : Int)) else pure acc

/-- The method `selectClosestUnvisited`. -/
def selectClosestUnvisited (rp : RoutePlanner) (distArr : List Int) (visitedArr : List Bool) :
    Except Fault Int := do
  let r ← (List.range rp.locationList.length).foldlM (selectStep distArr visitedArr)
    (INF_VALUE, -1)
  pure r.2

/-- One round of the neighbour loop of `shortestPath` (lines 70-78); the state
is `(minDist, parent)`. The `&&` chain short-circuits. -/
def relaxStep (rp : RoutePlanner) (currentNode : Int) (explored : List Bool)
    (st : List Int × List Int) (neighbor : Nat) : Except Fault (List Int × List Int) := do
  let ex ← readAt explored (neighbor : Int)
  if ex then pure st
  else do
    let row ← readAt rp.costMatrix currentNode
    let c ← readAt row (neighbor : Int)
    if c < INF_VALUE then do
      let dc ← readAt st.1 currentNode
      let dn ← readAt st.1 (neighbor : Int)
      if add32 dc c < dn then do
        let md ← writeAt st.1 (neighbor : Int) (add32 dc c)
        let pr ← writeAt st.2 (neighbor : Int) currentNode
        pure (md, pr)
      else pure st
    else pure st

/-- The neighbour loop of `shortestPath`. -/
def relaxNeighbors (rp : RoutePlanner) (currentNode : Int) (explored : List Bool)
    (minDist parent : List Int) : Except Fault (List Int × List Int) :=
  (List.range rp.locationList.length).foldlM (relaxStep rp currentNode explored)
    (minDist, parent)

/-- The main loop of `shortestPath` (lines 63-79), run for `iters` more rounds. -/
def dijkstraLoop (rp : RoutePlanner) :
    Nat → List Int → List Int → List Bool → Except Fault (List Int × List Int × List Bool)
  | 0, minDist, parent, explored => pure (minDist, parent, explored)
  | iters + 1, minDist, parent, explored => do
    let currentNode ← rp.selectClosestUnvisited minDist explored
    if currentNode = -1 then pure (minDist, parent, explored)
    else do
      let explored2 ← writeAt explored currentNode true
      let r ← rp.relaxNeighbors currentNode explored2 minDist parent
      dijkstraLoop rp iters r.1 r.2 explored2

/-- The path-reconstruction loop (lines 82-84): `at` walks the `parent` links
until it is `-1`, pushing names. -/
def walkParents (rp : RoutePlanner) (parent : List Int) :
    Nat → Int → List String → Except Fault (List String)
  | fuel, cur, path =>
    if cur = -1 then pure path
    else
      match fuel with
      | 0 => Except.error Fault.outOfFuel
      | fuel2 + 1 => do
        let name ← readAt rp.locationList cur
        let nxt ← readAt parent cur
        walkParents rp parent fuel2 nxt (path ++ [name])

/-- The method `shortestPath`; `fuel` bounds the rounds of the reconstruction loop. -/
def shortestPath (rp : RoutePlanner) (fuel : Nat) (origin destination : String) :
    Except Fault (List String × Int) := do
  let n := rp.locationList.length
  let minDist0 := List.replicate n INF_VALUE
  let parent0 := List.replicate n (-1 : Int)
  let explored0 := List.replicate n false
  let startIdx := rp.indexOfLocation origin
  let destIdx := rp.indexOfLocation destination
  let minDist1 ← writeAt minDist0 startIdx 0
  let r ← rp.dijkstraLoop (sizeMinusOne n) minDist1 parent0 explored0
  let path ← rp.walkParents r.2.1 fuel destIdx []
  let cost ← readAt r.1 destIdx
  pure (path.reverse, cost)

end RoutePlanner

/-- A planner in a reachable state: the constructor followed by a sequence of
`connectCities (fromCity, toCity, cost)` calls. -/
def build (names : List String) (calls : List (String × String × Int)) :
    Except Fault RoutePlanner := do
  let rp ← RoutePlanner.construct names
  calls.foldlM (fun rp c => rp.connectCities c.1 c.2.1 c.2.2) rp

/-- The demo of `main`: the six locations. -/
def demoNames : List String := ["Boston", "Seattle", "Denver", "Miami", "Dallas", "Atlanta"]

/-- The demo of `main`: the nine `connectCities` calls, in order. -/
def demoCalls : List (String × String × Int) :=
  [("Boston", "Denver", 1950), ("Boston", "Miami", 1250), ("Seattle", "Denver", 1300),
   ("Seattle", "Dallas", 2100), ("Denver", "Miami", 1720), ("Denver", "Atlanta", 1400),
   ("Miami", "Dallas", 1100), ("Dallas", "Atlanta", 780), ("Seattle", "Boston", 2480)]

/-! ## Specification vocabulary -/

/-- The matrix entry `m[i][j]`, read as `INF_VALUE` outside the matrix. -/
def cellOf (m : List (List Int)) (i j : Nat) : Int := (m.getD i []).getD j INF_VALUE

/-- A matrix of `n` rows of `n` entries. -/
def Square (n : Nat) (m : List (List Int)) : Prop :=
  m.length = n ∧ ∀ i, i < n → (m.getD i []).length = n

/-- The entry `costMatrix[i][j]` of a planner. -/
def RoutePlanner.cell (rp : RoutePlanner) (i j : Nat) : Int := cellOf rp.costMatrix i j

/-- The position `std::find` stops at: the first occurrence, or the length. -/
def RoutePlanner.pos (rp : RoutePlanner) (name : String) : Nat := rp.locationList.indexOf name

/-- The cost-matrix entry for a pair of names. -/
def RoutePlanner.entry (rp : RoutePlanner) (a b : String) : Int := rp.cell (rp.pos a) (rp.pos b)

/-- A planner over `names` whose matrix has the right shape. -/
def WellFormed (names : List String) (rp : RoutePlanner) : Prop :=
  rp.locationList = names ∧ Square names.length rp.costMatrix

/-! ## The loop of `shortestPath` seen as a transition system -/

/-- The three work vectors `minDist`, `parent`, `explored` read as total functions. -/
structure View where
  d : Nat → Int
  p : Nat → Int
  e : Nat → Bool

/-- The view of three concrete vectors. -/
def viewOf (minDist parent : List Int) (explored : List Bool) : View :=
  { d := fun v => minDist.getD v INF_VALUE
    p := fun v => parent.getD v (-1)
    e := fun v => explored.getD v false }

/-- Node `u` is what `selectClosestUnvisited` returns: unvisited, of distance
below `INF_VALUE`, minimal among the unvisited, and the first such index. -/
def Picks (n : Nat) (s : View) (u : Nat) : Prop :=
  u < n ∧ s.e u = false ∧ s.d u < INF_VALUE ∧
    (∀ v, v < n → s.e v = false → s.d u ≤ s.d v) ∧
    (∀ v, v < u → s.e v = false → s.d u < s.d v)

/-- No unvisited node has a distance below `INF_VALUE`: the scan returns `-1`. -/
def Stuck (n : Nat) (s : View) : Prop :=
  ∀ v, v < n → s.e v = true ∨ INF_VALUE ≤ s.d v

/-- The test of line 71-73 succeeds for neighbour `v` when `u` is the current node. -/
def Relaxes (w : Nat → Nat → Int) (s : View) (u v : Nat) : Prop :=
  s.e v = false ∧ v ≠ u ∧ w u v < INF_VALUE ∧ add32 (s.d u) (w u v) < s.d v

/-- One round of the main loop that does not break. -/
def StepTo (n : Nat) (w : Nat → Nat → Int) (s t : View) : Prop :=
  ∃ u, Picks n s u ∧ ∀ v, v < n →
    t.e v = (if v = u then true else s.e v) ∧
    (Relaxes w s u v → t.d v = add32 (s.d u) (w u v) ∧ t.p v = (u : Int)) ∧
    (¬ Relaxes w s u v → t.d v = s.d v ∧ t.p v = s.p v)

/-- At most `k` rounds of the main loop, ending early when the scan finds nothing. -/
inductive Runs (n : Nat) (w : Nat → Nat → Int) : Nat → View → View → Prop
  | done (s : View) : Runs n w 0 s s
  | stuck (k : Nat) (s : View) : Stuck n s → Runs n w (k + 1) s s
  | step (k : Nat) (s t r : View) : StepTo n w s t → Runs n w k t r → Runs n w (k + 1) s r

/-- The test of lines 71-73 on concrete vectors, `explored` being the vector
after the current node was marked. -/
def RelaxCond (rp : RoutePlanner) (minDist : List Int) (explored : List Bool) (u v : Nat) :
    Prop :=
  explored.getD v false = false ∧ rp.cell u v < INF_VALUE ∧
    add32 (minDist.getD u INF_VALUE) (rp.cell u v) < minDist.getD v INF_VALUE

instance (w : Nat → Nat → Int) (s : View) (u v : Nat) : Decidable (Relaxes w s u v) :=
  inferInstanceAs (Decidable
    (s.e v = false ∧ v ≠ u ∧ w u v < INF_VALUE ∧ add32 (s.d u) (w u v) < s.d v))

/-- Summed edge cost of a path given as a list of node indices. -/
def pathCost (w : Nat → Nat → Int) : List Nat → Int
  | a :: b :: rest => w a b + pathCost w (b :: rest)
  | _ => 0

/-- The weights read in the opposite direction. -/
def flipW (w : Nat → Nat → Int) : Nat → Nat → Int := fun a b => w b a

/-- A weight with the entries at or above `INF_VALUE` (no edge) counted as 0. -/
def clipW (w : Nat → Nat → Int) : Nat → Nat → Int :=
  fun a b => if w a b < INF_VALUE then w a b else 0

/-- Every step of the path uses an entry below `INF_VALUE`. -/
def FiniteSteps (w : Nat → Nat → Int) (l : List Nat) : Prop :=
  List.Chain' (fun a b => w a b < INF_VALUE) l

/-- The walk of the reconstruction loop: starting at `cur` and following
`parent`, it visits exactly the nodes of the list and then meets `-1`. -/
def LinkedFrom (p : Nat → Int) : Int → List Nat → Prop
  | cur, [] => cur = -1
  | cur, v :: rest => cur = (v : Int) ∧ LinkedFrom p (p v) rest

/-- The list `l` is the chain of parents of `v` back to the source `s`: it is
what the reconstruction loop visits from `v`, its nodes are distinct, all but
`v` are explored, and each link is an edge. -/
structure GoodBack (n : Nat) (w : Nat → Nat → Int) (s : Nat) (σ : View) (v : Nat)
    (l : List Nat) : Prop where
  head : l.head? = some v
  last : l.getLast? = some s
  nodup : l.Nodup
  bound : ∀ x, x ∈ l → x < n
  expl : ∀ x, x ∈ l → x ≠ v → σ.e x = true
  linked : LinkedFrom σ.p (v : Int) l
  steps : FiniteSteps (flipW w) l

/-- The invariant of the main loop that holds for every cost matrix. -/
structure InvS (n : Nat) (w : Nat → Nat → Int) (s : Nat) (B : Nat → List Nat) (σ : View) :
    Prop where
  dle : ∀ v, v < n → σ.d v ≤ INF_VALUE
  exfin : ∀ v, v < n → σ.e v = true → σ.d v < INF_VALUE
  src : σ.d s = 0 ∧ σ.p s = -1 ∧ (σ.e s = true ∨ ∀ v, v < n → v ≠ s → σ.d v = INF_VALUE)
  unreached : ∀ v, v < n → ¬ σ.d v < INF_VALUE → σ.p v = -1
  route : ∀ v, v < n → σ.d v < INF_VALUE → GoodBack n w s σ v (B v)

/-- The part of the invariant that needs non-negative costs and no overflow. -/
structure InvM (n : Nat) (w : Nat → Nat → Int) (B : Nat → List Nat) (σ : View) : Prop where
  nonneg : ∀ v, v < n → 0 ≤ σ.d v
  mono : ∀ a b, a < n → b < n → σ.e a = true → σ.e b = false → σ.d a ≤ σ.d b
  closed : ∀ a b, a < n → b < n → σ.e a = true → w a b < INF_VALUE →
    σ.d b < INF_VALUE ∧ σ.d b ≤ σ.d a + w a b
  cost : ∀ v, v < n → σ.d v < INF_VALUE → pathCost (flipW w) (B v) = σ.d v

/-- The chains of parents after a round: a relaxed node hangs under the current node. -/
def nextBack (w : Nat → Nat → Int) (σ : View) (u : Nat) (B : Nat → List Nat) :
    Nat → List Nat :=
  fun v => if Relaxes w σ u v then v :: B u else B v

/-- Number of unexplored nodes. -/
def unexplored (n : Nat) (σ : View) : Nat :=
  ((Finset.range n).filter (fun v => σ.e v = false)).card

/-- No simple path of finite steps has a cost of `INF_VALUE` or more. -/
def SimpleBound (n : Nat) (w : Nat → Nat → Int) : Prop :=
  ∀ l : List Nat, l.Nodup → (∀ x, x ∈ l → x < n) → FiniteSteps w l → pathCost w l < INF_VALUE

/-- The work vectors before the first round (lines 54-60), as a view. -/
def initView (s : Nat) : View :=
  { d := fun v => if v = s then 0 else INF_VALUE
    p := fun _ => -1
    e := fun _ => false }

/-- The name at an index of the location list. -/
def RoutePlanner.nameAt (rp : RoutePlanner) (i : Nat) : String := rp.locationList.getD i ""

/-- A path in the graph of the planner: a list of node indices from `a` to `b`
in which every step uses a cost-matrix entry below `INF_VALUE`. -/
def RoutePlanner.IsRoute (rp : RoutePlanner) (a b : Nat) (l : List Nat) : Prop :=
  l.head? = some a ∧ l.getLast? = some b ∧ (∀ x, x ∈ l → x < rp.locationList.length) ∧
    FiniteSteps rp.cell l

/-- Location `b` is reachable from location `a` over finite-cost edges. -/
def RoutePlanner.Reachable (rp : RoutePlanner) (a b : String) : Prop :=
  ∃ l, rp.IsRoute (rp.pos a) (rp.pos b) l

/-- Summed cost-matrix entries along a list of names. -/
def RoutePlanner.namePathCost (rp : RoutePlanner) : List String → Int
  | a :: b :: rest => rp.entry a b + RoutePlanner.namePathCost rp (b :: rest)
  | _ => 0

/-- The sum of the costs passed to a sequence of `connectCities` calls. -/
def totalCost (calls : List (String × String × Int)) : Int := (calls.map (fun c => c.2.2)).sum

instance {α : Type} [DecidableEq α] : DecidableEq (Except Fault α)
  | Except.ok a, Except.ok b =>
    if h : a = b then isTrue (by rw [h]) else isFalse (fun h2 => by cases h2; exact h rfl)
  | Except.error a, Except.error b =>
    if h : a = b then isTrue (by rw [h]) else isFalse (fun h2 => by cases h2; exact h rfl)
  | Except.ok _, Except.error _ => isFalse (fun h => by cases h)
  | Except.error _, Except.ok _ => isFalse (fun h => by cases h)

/-- One round of the inner loop of `showConnections` (lines 42-46); `out` is
the sequence of pieces written to `std::cout` so far. -/
def RoutePlanner.showEntry (rp : RoutePlanner) (place : String) (out : List String) (j : Nat) :
    Except Fault (List String) := do
  let row ← readAt rp.costMatrix (rp.indexOfLocation place)
  let c ← readAt row (j : Int)
  if c < INF_VALUE then do
    let name ← readAt rp.locationList (j : Int)
    pure (out ++ [name, "(", toString c, ") "])
  else pure out

/-- One round of the outer loop of `showConnections` (lines 40-48): the line of
one location. -/
def RoutePlanner.showLine (rp : RoutePlanner) (out : List String) (place : String) :
    Except Fault (List String) := do
  let out2 ← (List.range rp.locationList.length).foldlM (rp.showEntry place)
    (out ++ [place, ": "])
  pure (out2 ++ ["\n"])

/-- The method `showConnections`; the result is the sequence of pieces written
to `std::cout`. -/
def RoutePlanner.showConnections (rp : RoutePlanner) : Except Fault (List String) := do
  let out ← rp.locationList.foldlM rp.showLine ["Travel Map Connections:\n"]
  pure (out ++ ["\n"])

/-- The entries of row `i` that are below `INF_VALUE`, in index order, each
with the name of its column. -/
def RoutePlanner.shownEntries (rp : RoutePlanner) (i : Nat) : List (String × Int) :=
  ((List.range rp.locationList.length).filter (fun j => decide (rp.cell i j < INF_VALUE))).map
    (fun j => (rp.nameAt j, rp.cell i j))

/-- The neighbours of location `i` in the words of the specification: the other
locations joined to it by an entry below `INF_VALUE`, in index order. -/
def RoutePlanner.neighboursAsClaimed (rp : RoutePlanner) (i : Nat) : List (String × Int) :=
  ((List.range rp.locationList.length).filter
    (fun j => decide (j ≠ i ∧ rp.cell i j < INF_VALUE))).map
    (fun j => (rp.nameAt j, rp.cell i j))

/-- The pieces of one printed line: the name, a colon, each entry as
`Name(cost) `, a newline. -/
def renderLine (place : String) (entries : List (String × Int)) : List String :=
  [place, ": "] ++ entries.flatMap (fun e => [e.1, "(", toString e.2, ") "]) ++ ["\n"]

/-- The whole output for given entries per location index. -/
def renderMap (rp : RoutePlanner) (entries : Nat → List (String × Int)) : List String :=
  ["Travel Map Connections:\n"] ++
    (List.range rp.locationList.length).flatMap (fun i => renderLine (rp.nameAt i) (entries i))
    ++ ["\n"]

/-! ## The query with the addition as a parameter and a log of the sums -/

/-- One round of the neighbour loop of `shortestPath` (lines 70-78), with the
addition as a parameter; the third component of the state logs the operands of
every sum `minDist[currentNode] + costMatrix[currentNode][neighbor]` evaluated. -/
def RoutePlanner.relaxStepWith (plus : Int → Int → Int) (rp : RoutePlanner) (currentNode : Int)
    (explored : List Bool) (st : List Int × List Int × List (Int × Int)) (neighbor : Nat) :
    Except Fault (List Int × List Int × List (Int × Int)) := do
  let ex ← readAt explored (neighbor : Int)
  if ex then pure st
  else do
    let row ← readAt rp.costMatrix currentNode
    let c ← readAt row (neighbor : Int)
    if c < INF_VALUE then do
      let dc ← readAt st.1 currentNode
      let dn ← readAt st.1 (neighbor : Int)
      if plus dc c < dn then do
        let md ← writeAt st.1 (neighbor : Int) (plus dc c)
        let pr ← writeAt st.2.1 (neighbor : Int) currentNode
        pure (md, pr, st.2.2 ++ [(dc, c)])
      else pure (st.1, st.2.1, st.2.2 ++ [(dc, c)])
    else pure st

/-- The neighbour loop with the addition as a parameter and the log. -/
def RoutePlanner.relaxNeighborsWith (plus : Int → Int → Int) (rp : RoutePlanner)
    (currentNode : Int) (explored : List Bool) (minDist parent : List Int)
    (log : List (Int × Int)) : Except Fault (List Int × List Int × List (Int × Int)) :=
  (List.range rp.locationList.length).foldlM (rp.relaxStepWith plus currentNode explored)
    (minDist, parent, log)

/-- The main loop with the addition as a parameter and the log. -/
def RoutePlanner.dijkstraLoopWith (plus : Int → Int → Int) (rp : RoutePlanner) :
    Nat → List Int → List Int → List Bool → List (Int × Int) →
      Except Fault (List Int × List Int × List Bool × List (Int × Int))
  | 0, minDist, parent, explored, log => pure (minDist, parent, explored, log)
  | iters + 1, minDist, parent, explored, log => do
    let currentNode ← rp.selectClosestUnvisited minDist explored
    if currentNode = -1 then pure (minDist, parent, explored, log)
    else do
      let explored2 ← writeAt explored currentNode true
      let r ← rp.relaxNeighborsWith plus currentNode explored2 minDist parent log
      RoutePlanner.dijkstraLoopWith plus rp iters r.1 r.2.1 explored2 r.2.2

/-- The method `shortestPath` with the addition as a parameter; it returns the
result and the log of the operands of every sum evaluated. -/
def RoutePlanner.shortestPathWith (plus : Int → Int → Int) (rp : RoutePlanner) (fuel : Nat)
    (origin destination : String) : Except Fault ((List String × Int) × List (Int × Int)) := do
  let n := rp.locationList.length
  let minDist0 := List.replicate n INF_VALUE
  let parent0 := List.replicate n (-1 : Int)
  let explored0 := List.replicate n false
  let startIdx := rp.indexOfLocation origin
  let destIdx := rp.indexOfLocation destination
  let minDist1 ← writeAt minDist0 startIdx 0
  let r ← rp.dijkstraLoopWith plus (sizeMinusOne n) minDist1 parent0 explored0 []
  let path ← rp.walkParents r.2.1 fuel destIdx []
  let cost ← readAt r.1 destIdx
  pure ((path.reverse, cost), r.2.2.2)

/-- The addition of unbounded integers. -/
def addZ (a b : Int) : Int := a + b

/-- The test of lines 71-73 on concrete vectors for a given addition. -/
def RelaxCondWith (plus : Int → Int → Int) (rp : RoutePlanner) (minDist : List Int)
    (explored : List Bool) (u v : Nat) : Prop :=
  explored.getD v false = false ∧ rp.cell u v < INF_VALUE ∧
    plus (minDist.getD u INF_VALUE) (rp.cell u v) < minDist.getD v INF_VALUE

/-- A logged sum that does not overflow: both operands are below `INF_VALUE`,
and the mathematical sum is non-negative and below `INF_VALUE`. -/
def GoodSum (x : Int × Int) : Prop :=
  x.1 < INF_VALUE ∧ x.2 < INF_VALUE ∧ 0 ≤ x.1 + x.2 ∧ x.1 + x.2 < INF_VALUE

/-- The pairs of indices `i < j < n`: one per undirected edge. -/
def allPairs (n : Nat) : List (Nat × Nat) :=
  (List.range n).flatMap (fun j => (List.range j).map (fun i => (i, j)))

/-- The sum of the finite edge costs of a planner, each undirected edge once. -/
def RoutePlanner.edgeSum (rp : RoutePlanner) : Int :=
  ((allPairs rp.locationList.length).map (fun p => clipW rp.cell p.1 p.2)).sum

/-- An undirected edge as the ordered pair of its ends. -/
def normEdge (a b : Nat) : Nat × Nat := (min a b, max a b)

/-- The undirected edges used by the steps of a path. -/
def edgesOf : List Nat → List (Nat × Nat)
  | a :: b :: rest => normEdge a b :: edgesOf (b :: rest)
  | _ => []

/-! ## Theorems -/

theorem getD_set_eq {α : Type} (xs : List α) (i j : Nat) (x d : α) :
    (xs.set i x).getD j d = if i = j ∧ i < xs.length then x else xs.getD j d := by
  simp only [List.getD_eq_getElem?_getD, List.getElem?_set]
  by_cases h : i = j
  · subst h
    by_cases h2 : i < xs.length
    · simp [h2]
    · simp [h2, List.getElem?_eq_none (Nat.le_of_not_lt h2)]
  · simp [h]

theorem readAt_nat {α : Type} (xs : List α) (i : Nat) (d : α) (h : i < xs.length) :
    readAt xs (i : Int) = Except.ok (xs.getD i d) := by
  simp [readAt, List.getD_eq_getElem?_getD, List.getElem?_eq_getElem h]

theorem writeAt_nat {α : Type} (xs : List α) (i : Nat) (x : α) (h : i < xs.length) :
    writeAt xs (i : Int) x = Except.ok (xs.set i x) := by
  simp [writeAt, h]

theorem readAt_neg {α : Type} (xs : List α) (i : Int) (h : i < 0) :
    readAt xs i = Except.error Fault.outOfRange := by
  simp [readAt, not_le.mpr h]

theorem writeAt_neg {α : Type} (xs : List α) (i : Int) (x : α) (h : i < 0) :
    writeAt xs i x = Except.error Fault.outOfRange := by
  simp [writeAt, not_le.mpr h]

/-- Loop rule for a `for (i = 0; i < n; ++i)` loop whose body cannot fail while
the invariant holds. -/
theorem foldlM_range_inv {β : Type} (f : β → Nat → Except Fault β) (Q : Nat → β → Prop)
    (n : Nat) (b0 : β) (h0 : Q 0 b0)
    (hstep : ∀ k b, k < n → Q k b → ∃ b2, f b k = Except.ok b2 ∧ Q (k + 1) b2) :
    ∃ b, (List.range n).foldlM f b0 = Except.ok b ∧ Q n b := by
  induction n with
  | zero => exact ⟨b0, rfl, h0⟩
  | succ m ih =>
    obtain ⟨b, hb, hq⟩ := ih (fun k b hk hQ => hstep k b (Nat.lt_succ_of_lt hk) hQ)
    obtain ⟨b2, hb2, hq2⟩ := hstep m b (Nat.lt_succ_self m) hq
    refine ⟨b2, ?_, hq2⟩
    rw [List.range_succ, List.foldlM_append, hb]
    simp [bind, Except.bind, hb2, pure, Except.pure]

theorem cellOf_set_set (m : List (List Int)) (i j a b : Nat) (x : Int)
    (hi : i < m.length) (hj : j < (m.getD i []).length) :
    cellOf (m.set i ((m.getD i []).set j x)) a b
      = if a = i ∧ b = j then x else cellOf m a b := by
  unfold cellOf
  rw [getD_set_eq]
  by_cases h : i = a
  · subst h
    rw [if_pos ⟨rfl, hi⟩, getD_set_eq]
    by_cases h2 : j = b
    · subst h2
      rw [if_pos ⟨rfl, hj⟩, if_pos ⟨rfl, rfl⟩]
    · rw [if_neg (fun h3 => h2 h3.1), if_neg (fun h3 => h2 h3.2.symm)]
  · rw [if_neg (fun h3 => h h3.1), if_neg (fun h3 => h h3.1.symm)]

theorem square_set_set (n : Nat) (m : List (List Int)) (i j : Nat) (x : Int)
    (hsq : Square n m) (hi : i < n) :
    Square n (m.set i ((m.getD i []).set j x)) := by
  obtain ⟨h1, h2⟩ := hsq
  refine ⟨by simp [h1], fun a ha => ?_⟩
  rw [getD_set_eq]
  by_cases h : i = a
  · subst h
    rw [if_pos ⟨rfl, by rw [h1]; exact hi⟩, List.length_set]
    exact h2 i hi
  · rw [if_neg (fun h3 => h h3.1)]
    exact h2 a ha

/-- A write `m[i][j] = x` inside an `n × n` matrix succeeds and changes that one entry. -/
theorem writeCell_spec (n : Nat) (m : List (List Int)) (i j : Nat) (x : Int)
    (hsq : Square n m) (hi : i < n) (hj : j < n) :
    ∃ m2, writeCell m (i : Int) (j : Int) x = Except.ok m2 ∧ Square n m2 ∧
      ∀ a b, cellOf m2 a b = if a = i ∧ b = j then x else cellOf m a b := by
  have hlen : i < m.length := by rw [hsq.1]; exact hi
  have hrow : j < (m.getD i []).length := by rw [hsq.2 i hi]; exact hj
  refine ⟨m.set i ((m.getD i []).set j x), ?_, square_set_set n m i j x hsq hi,
    fun a b => cellOf_set_set m i j a b x hlen hrow⟩
  unfold writeCell
  rw [readAt_nat m i [] hlen]
  simp only [bind, Except.bind]
  rw [writeAt_nat _ j x hrow]
  simp only []
  rw [writeAt_nat m i _ hlen]

theorem cellOf_replicate (n a b : Nat) :
    cellOf (List.replicate n (List.replicate n INF_VALUE)) a b = INF_VALUE := by
  unfold cellOf
  simp only [List.getD_eq_getElem?_getD, List.getElem?_replicate]
  by_cases h : a < n
  · by_cases h2 : b < n <;> simp [h, h2, List.getElem?_replicate]
  · simp [h]

theorem square_replicate (n : Nat) :
    Square n (List.replicate n (List.replicate n INF_VALUE)) := by
  refine ⟨by simp, fun i hi => ?_⟩
  simp [List.getD_eq_getElem?_getD, List.getElem?_replicate, hi]

/-- The constructor returns a planner over the given names whose matrix is
`n × n`, zero on the diagonal and `INF_VALUE` elsewhere. -/
theorem construct_spec (names : List String) :
    ∃ rp, RoutePlanner.construct names = Except.ok rp ∧ WellFormed names rp ∧
      ∀ a b, rp.cell a b = if a = b ∧ a < names.length then 0 else INF_VALUE := by
  obtain ⟨m, hm, hsq, hcell⟩ := foldlM_range_inv
    (fun m (i : Nat) => writeCell m (i : Int) (i : Int) 0)
    (fun k m => Square names.length m ∧
      ∀ a b, cellOf m a b = if a = b ∧ a < k then 0 else INF_VALUE)
    names.length (List.replicate names.length (List.replicate names.length INF_VALUE))
    ⟨square_replicate _, fun a b => by simp [cellOf_replicate]⟩
    (by
      intro k m hk ⟨hsq, hc⟩
      obtain ⟨m2, h1, h2, h3⟩ := writeCell_spec names.length m k k 0 hsq hk hk
      refine ⟨m2, h1, h2, fun a b => ?_⟩
      rw [h3, hc]
      by_cases hab : a = b
      · subst hab
        by_cases hak : a = k
        · subst hak; simp
        · have : a < k + 1 ↔ a < k := by omega
          simp [hak, this]
      · simp [hab]
        intro h4 h5; exact absurd (h4.trans h5.symm) hab)
  refine ⟨⟨names, m⟩, ?_, ⟨rfl, hsq⟩, hcell⟩
  unfold RoutePlanner.construct
  simp only [bind, Except.bind, hm, pure, Except.pure]

theorem indexOfLocation_mem (rp : RoutePlanner) (name : String)
    (h : name ∈ rp.locationList) :
    rp.indexOfLocation name = (rp.pos name : Int) ∧ rp.pos name < rp.locationList.length := by
  have h2 : rp.locationList.indexOf name < rp.locationList.length := List.indexOf_lt_length.mpr h
  simp [RoutePlanner.indexOfLocation, RoutePlanner.pos, h2]

theorem indexOfLocation_not_mem (rp : RoutePlanner) (name : String)
    (h : name ∉ rp.locationList) : rp.indexOfLocation name = -1 := by
  have h2 : ¬ rp.locationList.indexOf name < rp.locationList.length := by
    rw [List.indexOf_lt_length]; exact h
  simp [RoutePlanner.indexOfLocation, h2]

theorem indexOfLocation_ne_neg_one (rp : RoutePlanner) (name : String) :
    rp.indexOfLocation name ≠ -1 ↔ name ∈ rp.locationList := by
  constructor
  · intro h
    by_contra hn
    exact h (indexOfLocation_not_mem rp name hn)
  · intro h
    rw [(indexOfLocation_mem rp name h).1]
    omega

/-- A `connectCities` call with an unknown name returns the planner as it was. -/
theorem connectCities_unknown (rp : RoutePlanner) (a b : String) (c : Int)
    (h : a ∉ rp.locationList ∨ b ∉ rp.locationList) :
    rp.connectCities a b c = Except.ok rp := by
  unfold RoutePlanner.connectCities
  have : ¬ (rp.indexOfLocation a ≠ -1 ∧ rp.indexOfLocation b ≠ -1) := by
    rw [indexOfLocation_ne_neg_one, indexOfLocation_ne_neg_one]
    tauto
  simp only [this, if_false]
  rfl

/-- A `connectCities` call with two known names succeeds, keeps the names and
the shape, and writes the two mirrored entries. -/
theorem connectCities_known (names : List String) (rp : RoutePlanner) (a b : String) (c : Int)
    (hwf : WellFormed names rp) (ha : a ∈ rp.locationList) (hb : b ∈ rp.locationList) :
    ∃ rp2, rp.connectCities a b c = Except.ok rp2 ∧ WellFormed names rp2 ∧
      ∀ x y, rp2.cell x y =
        if (x = rp.pos a ∧ y = rp.pos b) ∨ (x = rp.pos b ∧ y = rp.pos a) then c
        else rp.cell x y := by
  obtain ⟨hn, hsq⟩ := hwf
  obtain ⟨hia, hla⟩ := indexOfLocation_mem rp a ha
  obtain ⟨hib, hlb⟩ := indexOfLocation_mem rp b hb
  rw [hn] at hla hlb
  obtain ⟨m1, e1, sq1, c1⟩ := writeCell_spec names.length rp.costMatrix _ _ c hsq hla hlb
  obtain ⟨m2, e2, sq2, c2⟩ := writeCell_spec names.length m1 _ _ c sq1 hlb hla
  refine ⟨{ rp with costMatrix := m2 }, ?_, ⟨hn, sq2⟩, fun x y => ?_⟩
  · unfold RoutePlanner.connectCities
    have : rp.indexOfLocation a ≠ -1 ∧ rp.indexOfLocation b ≠ -1 := by
      rw [indexOfLocation_ne_neg_one, indexOfLocation_ne_neg_one]; exact ⟨ha, hb⟩
    dsimp only
    rw [if_pos this, hia, hib, e1]
    simp only [bind, Except.bind, e2, pure, Except.pure]
  · show cellOf m2 x y = _
    rw [c2, c1]
    unfold RoutePlanner.cell
    by_cases h1 : x = rp.pos b ∧ y = rp.pos a
    · simp [h1]
    · by_cases h2 : x = rp.pos a ∧ y = rp.pos b
      · simp [h1, h2]
      · simp [h1, h2]

/-- Every `connectCities` call on a well-formed planner succeeds and keeps it well-formed. -/
theorem connectCities_total (names : List String) (rp : RoutePlanner) (a b : String) (c : Int)
    (hwf : WellFormed names rp) :
    ∃ rp2, rp.connectCities a b c = Except.ok rp2 ∧ WellFormed names rp2 := by
  by_cases h : a ∈ rp.locationList ∧ b ∈ rp.locationList
  · obtain ⟨rp2, h1, h2, _⟩ := connectCities_known names rp a b c hwf h.1 h.2
    exact ⟨rp2, h1, h2⟩
  · exact ⟨rp, connectCities_unknown rp a b c (by tauto), hwf⟩

theorem build_nil (names : List String) : build names [] = RoutePlanner.construct names := by
  unfold build
  cases RoutePlanner.construct names <;> rfl

theorem build_snoc (names : List String) (calls : List (String × String × Int))
    (c : String × String × Int) :
    build names (calls ++ [c])
      = (build names calls >>= fun rp => rp.connectCities c.1 c.2.1 c.2.2) := by
  unfold build
  cases h : RoutePlanner.construct names with
  | error e => rfl
  | ok rp =>
    simp only [bind, Except.bind]
    rw [show (List.foldlM (fun rp c => rp.connectCities c.1 c.2.1 c.2.2) rp (calls ++ [c]))
        = _ from List.foldlM_append _ _ _ _]
    simp only [bind, Except.bind, List.foldlM_cons, List.foldlM_nil]
    cases List.foldlM (fun rp c => rp.connectCities c.1 c.2.1 c.2.2) rp calls with
    | error e => rfl
    | ok rp2 =>
      simp only []
      cases rp2.connectCities c.1 c.2.1 c.2.2 <;> rfl

/-- Induction over the reachable states: a property that holds after the
constructor and is kept by every `connectCities` call holds of every built planner;
and every build succeeds. -/
theorem build_induction (names : List String)
    (P : List (String × String × Int) → RoutePlanner → Prop)
    (h0 : ∀ rp, RoutePlanner.construct names = Except.ok rp → WellFormed names rp → P [] rp)
    (hs : ∀ cs c rp rp2, P cs rp → WellFormed names rp →
      rp.connectCities c.1 c.2.1 c.2.2 = Except.ok rp2 → WellFormed names rp2 →
      P (cs ++ [c]) rp2)
    (calls : List (String × String × Int)) :
    ∃ rp, build names calls = Except.ok rp ∧ WellFormed names rp ∧ P calls rp := by
  induction calls using List.reverseRecOn with
  | nil =>
    obtain ⟨rp, h1, h2, _⟩ := construct_spec names
    exact ⟨rp, by rw [build_nil, h1], h2, h0 rp h1 h2⟩
  | append_singleton cs c ih =>
    obtain ⟨rp, h1, h2, h3⟩ := ih
    obtain ⟨rp2, h4, h5⟩ := connectCities_total names rp c.1 c.2.1 c.2.2 h2
    refine ⟨rp2, ?_, h5, hs cs c rp rp2 h3 h2 h4 h5⟩
    rw [build_snoc, h1]
    exact h4

/-- The two outcomes of a `connectCities` call on a well-formed planner. -/
theorem connectCities_cases (names : List String) (rp rp2 : RoutePlanner) (a b : String)
    (c : Int) (hwf : WellFormed names rp) (h : rp.connectCities a b c = Except.ok rp2) :
    (rp2 = rp ∧ (a ∉ rp.locationList ∨ b ∉ rp.locationList)) ∨
    (a ∈ rp.locationList ∧ b ∈ rp.locationList ∧ rp2.locationList = rp.locationList ∧
      ∀ x y, rp2.cell x y =
        if (x = rp.pos a ∧ y = rp.pos b) ∨ (x = rp.pos b ∧ y = rp.pos a) then c
        else rp.cell x y) := by
  by_cases hk : a ∈ rp.locationList ∧ b ∈ rp.locationList
  · right
    obtain ⟨rp3, h1, h2, h3⟩ := connectCities_known names rp a b c hwf hk.1 hk.2
    rw [h1] at h
    cases h
    exact ⟨hk.1, hk.2, by rw [h2.1, hwf.1], h3⟩
  · left
    have hu : a ∉ rp.locationList ∨ b ∉ rp.locationList := by tauto
    rw [connectCities_unknown rp a b c hu] at h
    cases h
    exact ⟨rfl, hu⟩

/-- Symmetry of the matrix in every reachable state. -/
theorem build_symmetric (names : List String) (calls : List (String × String × Int)) :
    ∃ rp, build names calls = Except.ok rp ∧ WellFormed names rp ∧
      ∀ i j, rp.cell i j = rp.cell j i := by
  refine build_induction names (fun _ rp => ∀ i j, rp.cell i j = rp.cell j i) ?_ ?_ calls
  · intro rp h _ i j
    obtain ⟨rp2, h1, _, h3⟩ := construct_spec names
    rw [h1] at h
    cases h
    rw [h3, h3]
    by_cases hij : i = j
    · subst hij; rfl
    · rw [if_neg (fun h => hij h.1), if_neg (fun h => hij h.1.symm)]
  · intro cs c rp rp2 hP hwf hc _ i j
    rcases connectCities_cases names rp rp2 c.1 c.2.1 c.2.2 hwf hc with ⟨h1, _⟩ | ⟨_, _, _, h4⟩
    · rw [h1]; exact hP i j
    · rw [h4, h4, hP i j]
      by_cases h5 : (i = rp.pos c.1 ∧ j = rp.pos c.2.1) ∨ (i = rp.pos c.2.1 ∧ j = rp.pos c.1)
      · rw [if_pos h5, if_pos (by tauto)]
      · rw [if_neg h5, if_neg (by tauto)]

/-- C10: in every reachable state (the constructor followed by any sequence of
`connectCities` calls, with known or unknown names and any costs) the build
succeeds, the matrix has `N` rows of `N` entries and
`costMatrix[i][j] = costMatrix[j][i]` for all `i` and `j`. -/
theorem costMatrix_symmetric (names : List String) (calls : List (String × String × Int)) :
    ∃ rp, build names calls = Except.ok rp ∧ Square names.length rp.costMatrix ∧
      ∀ i j, rp.cell i j = rp.cell j i := by
  obtain ⟨rp, h1, h2, h3⟩ := build_symmetric names calls
  exact ⟨rp, h1, h2.2, h3⟩

/-- C9: a `connectCities` call in which `fromCity` or `toCity` is not in the
location list completes without a fault and returns the planner unchanged
(same location list, same matrix). -/
theorem connectCities_unknown_noop (rp : RoutePlanner) (fromCity toCity : String) (cost : Int)
    (h : fromCity ∉ rp.locationList ∨ toCity ∉ rp.locationList) :
    rp.connectCities fromCity toCity cost = Except.ok rp :=
  connectCities_unknown rp fromCity toCity cost h

theorem connectCities_unknown_noop_witness :
    (RoutePlanner.mk ["a", "b"] [[0, 7], [7, 0]]).connectCities "a" "z" 5
      = Except.ok (RoutePlanner.mk ["a", "b"] [[0, 7], [7, 0]]) :=
  connectCities_unknown_noop _ "a" "z" 5 (Or.inr (by decide))

/-- After `connectCities a b c1` and then a second call on the same pair, the
two mirrored entries hold the second cost. -/
theorem connect_twice (names : List String) (rp : RoutePlanner) (a b : String) (c1 c2 : Int)
    (hwf : WellFormed names rp) (ha : a ∈ names) (hb : b ∈ names) :
    ∃ rp1 rp2 rp3, rp.connectCities a b c1 = Except.ok rp1 ∧
      rp1.connectCities a b c2 = Except.ok rp2 ∧ rp1.connectCities b a c2 = Except.ok rp3 ∧
      rp2.entry a b = c2 ∧ rp2.entry b a = c2 ∧ rp3.entry a b = c2 ∧ rp3.entry b a = c2 := by
  have ha0 : a ∈ rp.locationList := by rw [hwf.1]; exact ha
  have hb0 : b ∈ rp.locationList := by rw [hwf.1]; exact hb
  obtain ⟨rp1, e1, wf1, _⟩ := connectCities_known names rp a b c1 hwf ha0 hb0
  have ha1 : a ∈ rp1.locationList := by rw [wf1.1]; exact ha
  have hb1 : b ∈ rp1.locationList := by rw [wf1.1]; exact hb
  obtain ⟨rp2, e2, wf2, k2⟩ := connectCities_known names rp1 a b c2 wf1 ha1 hb1
  obtain ⟨rp3, e3, wf3, k3⟩ := connectCities_known names rp1 b a c2 wf1 hb1 ha1
  have p2 : ∀ x, rp2.pos x = rp1.pos x := fun x => by
    unfold RoutePlanner.pos; rw [wf2.1, wf1.1]
  have p3 : ∀ x, rp3.pos x = rp1.pos x := fun x => by
    unfold RoutePlanner.pos; rw [wf3.1, wf1.1]
  refine ⟨rp1, rp2, rp3, e1, e2, e3, ?_, ?_, ?_, ?_⟩
  · unfold RoutePlanner.entry; rw [k2, p2, p2, if_pos (Or.inl ⟨rfl, rfl⟩)]
  · unfold RoutePlanner.entry; rw [k2, p2, p2, if_pos (Or.inr ⟨rfl, rfl⟩)]
  · unfold RoutePlanner.entry; rw [k3, p3, p3, if_pos (Or.inr ⟨rfl, rfl⟩)]
  · unfold RoutePlanner.entry; rw [k3, p3, p3, if_pos (Or.inl ⟨rfl, rfl⟩)]

/-- C8: on every reachable planner and for every two names `a`, `b` of the
location list and costs `c1`, `c2`: `connectCities(a, b, c1)` followed by
`connectCities(a, b, c2)` (state `rp2`) or by `connectCities(b, a, c2)` (state
`rp3`) all succeed, and the entries for `(a, b)` and `(b, a)` then both equal
`c2`: the later call overwrites. -/
theorem connectCities_last_write_wins (names : List String)
    (calls : List (String × String × Int)) (a b : String) (c1 c2 : Int)
    (ha : a ∈ names) (hb : b ∈ names) :
    ∃ rp rp1 rp2 rp3, build names calls = Except.ok rp ∧
      rp.connectCities a b c1 = Except.ok rp1 ∧
      rp1.connectCities a b c2 = Except.ok rp2 ∧ rp1.connectCities b a c2 = Except.ok rp3 ∧
      rp2.entry a b = c2 ∧ rp2.entry b a = c2 ∧ rp3.entry a b = c2 ∧ rp3.entry b a = c2 := by
  obtain ⟨rp, h1, h2, _⟩ := build_symmetric names calls
  obtain ⟨rp1, rp2, rp3, h⟩ := connect_twice names rp a b c1 c2 h2 ha hb
  exact ⟨rp, rp1, rp2, rp3, h1, h⟩

theorem connectCities_last_write_wins_witness :
    ∃ rp rp1 rp2 rp3, build ["a", "b", "c"] [("a", "c", 4)] = Except.ok rp ∧
      rp.connectCities "a" "b" 5 = Except.ok rp1 ∧
      rp1.connectCities "a" "b" 9 = Except.ok rp2 ∧
      rp1.connectCities "b" "a" 9 = Except.ok rp3 ∧
      rp2.entry "a" "b" = 9 ∧ rp2.entry "b" "a" = 9 ∧
      rp3.entry "a" "b" = 9 ∧ rp3.entry "b" "a" = 9 :=
  connectCities_last_write_wins ["a", "b", "c"] [("a", "c", 4)] "a" "b" 5 9
    (by decide) (by decide)

/-- The scan of `selectClosestUnvisited` on vectors of the right length returns
`-1` when stuck and the picked node otherwise. -/
theorem selectClosestUnvisited_spec (rp : RoutePlanner) (md par : List Int) (ex : List Bool)
    (hmd : md.length = rp.locationList.length) (hex : ex.length = rp.locationList.length) :
    ∃ r, rp.selectClosestUnvisited md ex = Except.ok r ∧
      ((r = -1 ∧ Stuck rp.locationList.length (viewOf md par ex)) ∨
       (∃ u : Nat, r = (u : Int) ∧ Picks rp.locationList.length (viewOf md par ex) u)) := by
  obtain ⟨acc, hacc, hq⟩ := foldlM_range_inv (RoutePlanner.selectStep md ex)
    (fun k acc =>
      (acc.2 = -1 ∧ acc.1 = INF_VALUE ∧
        ∀ v, v < k → ex.getD v false = true ∨ INF_VALUE ≤ md.getD v INF_VALUE) ∨
      (∃ u : Nat, u < k ∧ acc.2 = (u : Int) ∧ acc.1 = md.getD u INF_VALUE ∧
        ex.getD u false = false ∧ md.getD u INF_VALUE < INF_VALUE ∧
        (∀ v, v < k → ex.getD v false = false → md.getD u INF_VALUE ≤ md.getD v INF_VALUE) ∧
        (∀ v, v < u → ex.getD v false = false → md.getD u INF_VALUE < md.getD v INF_VALUE)))
    rp.locationList.length (INF_VALUE, -1)
    (Or.inl ⟨rfl, rfl, fun v hv => absurd hv (Nat.not_lt_zero v)⟩)
    (by
      intro k acc hk hQ
      have hk1 : k < ex.length := by rw [hex]; exact hk
      have hk2 : k < md.length := by rw [hmd]; exact hk
      unfold RoutePlanner.selectStep
      rw [readAt_nat ex k false hk1]
      simp only [bind, Except.bind]
      by_cases hvis : ex.getD k false = true
      · rw [if_pos hvis]
        refine ⟨acc, rfl, ?_⟩
        rcases hQ with ⟨h1, h2, h3⟩ | ⟨u, h1, h2, h3, h4, h5, h6, h7⟩
        · left
          refine ⟨h1, h2, fun v hv => ?_⟩
          rcases Nat.lt_succ_iff_lt_or_eq.mp hv with h | h
          · exact h3 v h
          · left; rw [h]; exact hvis
        · right
          refine ⟨u, Nat.lt_succ_of_lt h1, h2, h3, h4, h5, fun v hv hf => ?_, h7⟩
          rcases Nat.lt_succ_iff_lt_or_eq.mp hv with h | h
          · exact h6 v h hf
          · rw [h] at hf; rw [hf] at hvis; exact absurd hvis (by decide)
      · rw [if_neg hvis, readAt_nat md k INF_VALUE hk2]
        have hvf : ex.getD k false = false := by
          cases h : ex.getD k false
          · rfl
          · exact absurd h hvis
        simp only []
        by_cases hlt : md.getD k INF_VALUE < acc.1
        · rw [if_pos hlt]
          refine ⟨(md.getD k INF_VALUE, (k : Int)), rfl, Or.inr ⟨k, Nat.lt_succ_self k, rfl, rfl,
            hvf, ?_, ?_, ?_⟩⟩
          · rcases hQ with ⟨_, h2, _⟩ | ⟨u, _, _, h3, _, h5, _, _⟩
            · rw [h2] at hlt; exact hlt
            · rw [h3] at hlt; exact lt_trans hlt h5
          · intro v hv hf
            rcases Nat.lt_succ_iff_lt_or_eq.mp hv with h | h
            · rcases hQ with ⟨_, h2, h3⟩ | ⟨u, _, _, h3, _, _, h6, _⟩
              · rcases h3 v h with h4 | h4
                · rw [hf] at h4; exact absurd h4 (by decide)
                · rw [h2] at hlt; exact le_of_lt (lt_of_lt_of_le hlt h4)
              · rw [h3] at hlt; exact le_of_lt (lt_of_lt_of_le hlt (h6 v h hf))
            · rw [h]
          · intro v hv hf
            rcases hQ with ⟨_, h2, h3⟩ | ⟨u, _, _, h3, _, _, h6, _⟩
            · rcases h3 v hv with h4 | h4
              · rw [hf] at h4; exact absurd h4 (by decide)
              · rw [h2] at hlt; exact lt_of_lt_of_le hlt h4
            · rw [h3] at hlt; exact lt_of_lt_of_le hlt (h6 v hv hf)
        · rw [if_neg hlt]
          refine ⟨acc, rfl, ?_⟩
          rcases hQ with ⟨h1, h2, h3⟩ | ⟨u, h1, h2, h3, h4, h5, h6, h7⟩
          · left
            refine ⟨h1, h2, fun v hv => ?_⟩
            rcases Nat.lt_succ_iff_lt_or_eq.mp hv with h | h
            · exact h3 v h
            · right
              rw [h]
              have h5 := not_lt.mp hlt
              rw [h2] at h5
              exact h5
          · right
            refine ⟨u, Nat.lt_succ_of_lt h1, h2, h3, h4, h5, fun v hv hf => ?_, h7⟩
            rcases Nat.lt_succ_iff_lt_or_eq.mp hv with h | h
            · exact h6 v h hf
            · rw [h]
              have h8 := not_lt.mp hlt
              rw [h3] at h8
              exact h8)
  refine ⟨acc.2, ?_, ?_⟩
  · unfold RoutePlanner.selectClosestUnvisited
    rw [hacc]; rfl
  · rcases hq with ⟨h1, _, h3⟩ | ⟨u, h1, h2, _, h4, h5, h6, h7⟩
    · exact Or.inl ⟨h1, h3⟩
    · exact Or.inr ⟨u, h2, h1, h4, h5, h6, h7⟩

/-- The neighbour loop on vectors of the right length cannot fault; it rewrites
exactly the entries whose test succeeds. -/
theorem relaxNeighbors_spec (rp : RoutePlanner) (md par : List Int) (ex : List Bool) (u : Nat)
    (hsq : Square rp.locationList.length rp.costMatrix)
    (hmd : md.length = rp.locationList.length) (hpar : par.length = rp.locationList.length)
    (hex : ex.length = rp.locationList.length) (hu : u < rp.locationList.length)
    (hexu : ex.getD u false = true) :
    ∃ md2 par2, rp.relaxNeighbors (u : Int) ex md par = Except.ok (md2, par2) ∧
      md2.length = rp.locationList.length ∧ par2.length = rp.locationList.length ∧
      ∀ v, v < rp.locationList.length →
        (RelaxCond rp md ex u v →
          md2.getD v INF_VALUE = add32 (md.getD u INF_VALUE) (rp.cell u v) ∧
          par2.getD v (-1) = (u : Int)) ∧
        (¬ RelaxCond rp md ex u v →
          md2.getD v INF_VALUE = md.getD v INF_VALUE ∧ par2.getD v (-1) = par.getD v (-1)) := by
  have hnu : ¬ RelaxCond rp md ex u u := by
    intro h; rw [h.1] at hexu; exact absurd hexu (by decide)
  obtain ⟨st, hst, h1, h2, h3⟩ := foldlM_range_inv (RoutePlanner.relaxStep rp (u : Int) ex)
    (fun k st => st.1.length = rp.locationList.length ∧ st.2.length = rp.locationList.length ∧
      ∀ v, v < rp.locationList.length →
        (v < k ∧ RelaxCond rp md ex u v →
          st.1.getD v INF_VALUE = add32 (md.getD u INF_VALUE) (rp.cell u v) ∧
          st.2.getD v (-1) = (u : Int)) ∧
        (¬ (v < k ∧ RelaxCond rp md ex u v) →
          st.1.getD v INF_VALUE = md.getD v INF_VALUE ∧ st.2.getD v (-1) = par.getD v (-1)))
    rp.locationList.length (md, par)
    ⟨hmd, hpar, fun v _ => ⟨fun h => absurd h.1 (Nat.not_lt_zero v), fun _ => ⟨rfl, rfl⟩⟩⟩
    (by
      intro k st hk ⟨hl1, hl2, hQ⟩
      -- the round leaves the state alone when the test fails
      have keep : ¬ RelaxCond rp md ex u k →
          (fun k st => st.1.length = rp.locationList.length ∧
            st.2.length = rp.locationList.length ∧
            ∀ v, v < rp.locationList.length →
              (v < k ∧ RelaxCond rp md ex u v →
                st.1.getD v INF_VALUE = add32 (md.getD u INF_VALUE) (rp.cell u v) ∧
                st.2.getD v (-1) = (u : Int)) ∧
              (¬ (v < k ∧ RelaxCond rp md ex u v) →
                st.1.getD v INF_VALUE = md.getD v INF_VALUE ∧
                st.2.getD v (-1) = par.getD v (-1))) (k + 1) st := by
        intro hC
        refine ⟨hl1, hl2, fun v hv => ⟨fun h => ?_, fun h => ?_⟩⟩
        · have hvk : v ≠ k := fun e => hC (e ▸ h.2)
          exact (hQ v hv).1 ⟨by omega, h.2⟩
        · exact (hQ v hv).2 (fun h4 => h ⟨by omega, h4.2⟩)
      have hk1 : k < ex.length := by rw [hex]; exact hk
      have hrowlen : k < (rp.costMatrix.getD u []).length := by rw [hsq.2 u hu]; exact hk
      have hul : u < rp.costMatrix.length := by rw [hsq.1]; exact hu
      have hdu : st.1.getD u INF_VALUE = md.getD u INF_VALUE :=
        ((hQ u hu).2 (fun h => hnu h.2)).1
      have hdk : st.1.getD k INF_VALUE = md.getD k INF_VALUE :=
        ((hQ k hk).2 (fun h => absurd h.1 (Nat.lt_irrefl k))).1
      unfold RoutePlanner.relaxStep
      rw [readAt_nat ex k false hk1]
      simp only [bind, Except.bind]
      by_cases hvis : ex.getD k false = true
      · rw [if_pos hvis]
        exact ⟨st, rfl, keep (fun h => by rw [h.1] at hvis; exact absurd hvis (by decide))⟩
      · rw [if_neg hvis, readAt_nat rp.costMatrix u [] hul]
        simp only []
        rw [readAt_nat _ k INF_VALUE hrowlen]
        simp only []
        have hcell : (rp.costMatrix.getD u []).getD k INF_VALUE = rp.cell u k := rfl
        rw [hcell]
        by_cases hfin : rp.cell u k < INF_VALUE
        · rw [if_pos hfin, readAt_nat st.1 u INF_VALUE (by rw [hl1]; exact hu)]
          simp only []
          rw [readAt_nat st.1 k INF_VALUE (by rw [hl1]; exact hk)]
          simp only []
          rw [hdu, hdk]
          by_cases hlt : add32 (md.getD u INF_VALUE) (rp.cell u k) < md.getD k INF_VALUE
          · rw [if_pos hlt, writeAt_nat st.1 k _ (by rw [hl1]; exact hk)]
            simp only []
            rw [writeAt_nat st.2 k _ (by rw [hl2]; exact hk)]
            have hvf : ex.getD k false = false := by
              cases h : ex.getD k false
              · rfl
              · exact absurd h hvis
            have hC : RelaxCond rp md ex u k := ⟨hvf, hfin, hlt⟩
            refine ⟨_, rfl, by simp [hl1], by simp [hl2], fun v hv => ⟨fun h => ?_, fun h => ?_⟩⟩
            · show (st.1.set k _).getD v INF_VALUE = _ ∧ (st.2.set k _).getD v (-1) = _
              rw [getD_set_eq, getD_set_eq]
              by_cases hvk : k = v
              · subst hvk
                rw [if_pos ⟨rfl, by rw [hl1]; exact hk⟩, if_pos ⟨rfl, by rw [hl2]; exact hk⟩]
                exact ⟨rfl, rfl⟩
              · rw [if_neg (fun h5 => hvk h5.1), if_neg (fun h5 => hvk h5.1)]
                exact (hQ v hv).1 ⟨by omega, h.2⟩
            · show (st.1.set k _).getD v INF_VALUE = _ ∧ (st.2.set k _).getD v (-1) = _
              rw [getD_set_eq, getD_set_eq]
              have hvk : ¬ k = v := fun e => h ⟨by omega, e ▸ hC⟩
              rw [if_neg (fun h5 => hvk h5.1), if_neg (fun h5 => hvk h5.1)]
              exact (hQ v hv).2 (fun h4 => h ⟨by omega, h4.2⟩)
          · rw [if_neg hlt]
            exact ⟨st, rfl, keep (fun h => hlt h.2.2)⟩
        · rw [if_neg hfin]
          exact ⟨st, rfl, keep (fun h => hfin h.2.1)⟩)
  refine ⟨st.1, st.2, hst, h1, h2, fun v hv => ⟨fun h => (h3 v hv).1 ⟨hv, h⟩, fun h => ?_⟩⟩
  exact (h3 v hv).2 (fun h4 => h h4.2)

theorem bool_eq_false_of_ne_true {b : Bool} (h : ¬ b = true) : b = false := by
  cases b
  · rfl
  · exact absurd rfl h

/-- The main loop on vectors of the right length cannot fault, keeps the
lengths, and its effect is a run of the transition system. -/
theorem dijkstraLoop_exec (rp : RoutePlanner)
    (hsq : Square rp.locationList.length rp.costMatrix) (k : Nat) :
    ∀ (md par : List Int) (ex : List Bool),
      md.length = rp.locationList.length → par.length = rp.locationList.length →
      ex.length = rp.locationList.length →
      ∃ md2 par2 ex2, rp.dijkstraLoop k md par ex = Except.ok (md2, par2, ex2) ∧
        md2.length = rp.locationList.length ∧ par2.length = rp.locationList.length ∧
        ex2.length = rp.locationList.length ∧
        Runs rp.locationList.length rp.cell k (viewOf md par ex) (viewOf md2 par2 ex2) := by
  induction k with
  | zero =>
    intro md par ex h1 h2 h3
    exact ⟨md, par, ex, rfl, h1, h2, h3, Runs.done _⟩
  | succ k ih =>
    intro md par ex h1 h2 h3
    obtain ⟨r, hr, hcase⟩ := selectClosestUnvisited_spec rp md par ex h1 h3
    rcases hcase with ⟨hr1, hstuck⟩ | ⟨u, hru, hpick⟩
    · refine ⟨md, par, ex, ?_, h1, h2, h3, Runs.stuck k _ hstuck⟩
      unfold RoutePlanner.dijkstraLoop
      rw [hr]
      simp only [bind, Except.bind]
      rw [if_pos hr1]
      rfl
    · have hu : u < rp.locationList.length := hpick.1
      have hexu : (ex.set u true).getD u false = true := by
        rw [getD_set_eq, if_pos ⟨rfl, by rw [h3]; exact hu⟩]
      obtain ⟨md2, par2, hrel, l1, l2, hv⟩ := relaxNeighbors_spec rp md par (ex.set u true) u
        hsq h1 h2 (by rw [List.length_set]; exact h3) hu hexu
      obtain ⟨md3, par3, ex3, hloop, m1, m2, m3, hruns⟩ :=
        ih md2 par2 (ex.set u true) l1 l2 (by rw [List.length_set]; exact h3)
      refine ⟨md3, par3, ex3, ?_, m1, m2, m3, Runs.step k _ _ _ ⟨u, hpick, ?_⟩ hruns⟩
      · unfold RoutePlanner.dijkstraLoop
        rw [hr]
        simp only [bind, Except.bind]
        rw [if_neg (by rw [hru]; omega), hru, writeAt_nat ex u true (by rw [h3]; exact hu)]
        simp only []
        rw [hrel]
        exact hloop
      · intro v hvn
        have hiff : RelaxCond rp md (ex.set u true) u v ↔
            Relaxes rp.cell (viewOf md par ex) u v := by
          unfold RelaxCond Relaxes viewOf
          simp only []
          rw [getD_set_eq]
          by_cases hvu : u = v
          · subst hvu
            rw [if_pos ⟨rfl, by rw [h3]; exact hu⟩]
            constructor
            · intro h; exact absurd h.1 (by decide)
            · intro h; exact absurd rfl h.2.1
          · rw [if_neg (fun h => hvu h.1)]
            constructor
            · intro h; exact ⟨h.1, fun e => hvu e.symm, h.2.1, h.2.2⟩
            · intro h; exact ⟨h.1, h.2.2.1, h.2.2.2⟩
        refine ⟨?_, fun h => (hv v hvn).1 (hiff.mpr h), fun h => (hv v hvn).2 (fun h2 => h (hiff.mp h2))⟩
        show (ex.set u true).getD v false = _
        rw [getD_set_eq]
        by_cases hvu : u = v
        · subst hvu
          rw [if_pos ⟨rfl, by rw [h3]; exact hu⟩, if_pos rfl]
        · rw [if_neg (fun h => hvu h.1), if_neg (fun e => hvu e.symm)]
          rfl

theorem linkedFrom_congr (p q : Nat → Int) (l : List Nat) :
    ∀ cur, (∀ x, x ∈ l → q x = p x) → LinkedFrom p cur l → LinkedFrom q cur l := by
  induction l with
  | nil => intro cur _ h; exact h
  | cons v rest ih =>
    intro cur hq h
    refine ⟨h.1, ?_⟩
    rw [hq v (List.mem_cons_self v rest)]
    exact ih (p v) (fun x hx => hq x (List.mem_cons_of_mem v hx)) h.2

/-- In a round, a node that is explored or is the current node is not relaxed. -/
theorem not_relaxes_of_explored (w : Nat → Nat → Int) (σ : View) (u x : Nat)
    (h : x = u ∨ σ.e x = true) : ¬ Relaxes w σ u x := by
  intro hr
  rcases h with h | h
  · exact hr.2.1 h
  · rw [hr.1] at h; exact absurd h (by decide)

/-- A chain of parents stays one across a round that does not relax its head. -/
theorem goodBack_keep (n : Nat) (w : Nat → Nat → Int) (s : Nat) (σ τ : View) (u v : Nat)
    (l : List Nat)
    (hstep : ∀ x, x < n →
      τ.e x = (if x = u then true else σ.e x) ∧
      (Relaxes w σ u x → τ.d x = add32 (σ.d u) (w u x) ∧ τ.p x = (u : Int)) ∧
      (¬ Relaxes w σ u x → τ.d x = σ.d x ∧ τ.p x = σ.p x))
    (hv : ¬ Relaxes w σ u v) (hg : GoodBack n w s σ v l) : GoodBack n w s τ v l := by
  have hp : ∀ x, x ∈ l → τ.p x = σ.p x := by
    intro x hx
    by_cases hxv : x = v
    · rw [hxv]; exact ((hstep v (hxv ▸ hg.bound x hx)).2.2 hv).2
    · exact ((hstep x (hg.bound x hx)).2.2
        (not_relaxes_of_explored w σ u x (Or.inr (hg.expl x hx hxv)))).2
  refine ⟨hg.head, hg.last, hg.nodup, hg.bound, fun x hx hxv => ?_, ?_, hg.steps⟩
  · rw [(hstep x (hg.bound x hx)).1]
    by_cases hxu : x = u
    · rw [if_pos hxu]
    · rw [if_neg hxu]; exact hg.expl x hx hxv
  · exact linkedFrom_congr σ.p τ.p l _ hp hg.linked

/-- A relaxed node gets the chain of the current node with itself in front. -/
theorem goodBack_extend (n : Nat) (w : Nat → Nat → Int) (s : Nat) (σ τ : View) (u v : Nat)
    (l : List Nat)
    (hstep : ∀ x, x < n →
      τ.e x = (if x = u then true else σ.e x) ∧
      (Relaxes w σ u x → τ.d x = add32 (σ.d u) (w u x) ∧ τ.p x = (u : Int)) ∧
      (¬ Relaxes w σ u x → τ.d x = σ.d x ∧ τ.p x = σ.p x))
    (hvn : v < n) (hv : Relaxes w σ u v) (hg : GoodBack n w s σ u l) :
    GoodBack n w s τ v (v :: l) := by
  have hnotin : v ∉ l := by
    intro hx
    have := hg.expl v hx hv.2.1
    rw [hv.1] at this
    exact absurd this (by decide)
  have hp : ∀ x, x ∈ l → τ.p x = σ.p x := by
    intro x hx
    by_cases hxu : x = u
    · exact ((hstep x (hg.bound x hx)).2.2 (not_relaxes_of_explored w σ u x (Or.inl hxu))).2
    · exact ((hstep x (hg.bound x hx)).2.2
        (not_relaxes_of_explored w σ u x (Or.inr (hg.expl x hx hxu)))).2
  obtain ⟨tl, htl⟩ : ∃ tl, l = u :: tl := by
    cases l with
    | nil => exact absurd hg.head (by simp)
    | cons a tl =>
      have := hg.head
      simp only [List.head?_cons, Option.some.injEq] at this
      exact ⟨tl, by rw [this]⟩
  refine ⟨rfl, ?_, List.nodup_cons.mpr ⟨hnotin, hg.nodup⟩, ?_, ?_, ?_, ?_⟩
  · rw [htl, List.getLast?_cons_cons, ← htl]; exact hg.last
  · intro x hx
    rcases List.mem_cons.mp hx with h | h
    · rw [h]; exact hvn
    · exact hg.bound x h
  · intro x hx hxv
    rcases List.mem_cons.mp hx with h | h
    · exact absurd h hxv
    · rw [(hstep x (hg.bound x h)).1]
      by_cases hxu : x = u
      · rw [if_pos hxu]
      · rw [if_neg hxu]; exact hg.expl x h hxu
  · refine ⟨rfl, ?_⟩
    rw [((hstep v hvn).2.1 hv).2]
    exact linkedFrom_congr σ.p τ.p l _ hp hg.linked
  · rw [htl]
    refine List.Chain'.cons ?_ (htl ▸ hg.steps)
    exact hv.2.2.1

/-- The cost-independent invariant is kept by a round of the main loop. -/
theorem invS_step (n : Nat) (w : Nat → Nat → Int) (s : Nat) (B : Nat → List Nat) (σ τ : View)
    (u : Nat) (hs : s < n) (hpick : Picks n σ u)
    (hstep : ∀ x, x < n →
      τ.e x = (if x = u then true else σ.e x) ∧
      (Relaxes w σ u x → τ.d x = add32 (σ.d u) (w u x) ∧ τ.p x = (u : Int)) ∧
      (¬ Relaxes w σ u x → τ.d x = σ.d x ∧ τ.p x = σ.p x))
    (hI : InvS n w s B σ) : InvS n w s (nextBack w σ u B) τ := by
  obtain ⟨hun, heu, hdu, hmin, _⟩ := hpick
  have hlt : ∀ v, v < n → Relaxes w σ u v → τ.d v < INF_VALUE := by
    intro v hv hr
    rw [((hstep v hv).2.1 hr).1]
    exact lt_of_lt_of_le hr.2.2.2 (hI.dle v hv)
  refine ⟨fun v hv => ?_, fun v hv he => ?_, ?_, fun v hv hd => ?_, fun v hv hd => ?_⟩
  · by_cases hr : Relaxes w σ u v
    · exact le_of_lt (hlt v hv hr)
    · rw [((hstep v hv).2.2 hr).1]; exact hI.dle v hv
  · rw [(hstep v hv).1] at he
    by_cases hvu : v = u
    · rw [((hstep v hv).2.2 (not_relaxes_of_explored w σ u v (Or.inl hvu))).1, hvu]
      exact hdu
    · rw [if_neg hvu] at he
      rw [((hstep v hv).2.2 (not_relaxes_of_explored w σ u v (Or.inr he))).1]
      exact hI.exfin v hv he
  · obtain ⟨h1, h2, h3⟩ := hI.src
    have hus : σ.e s = false → u = s := by
      intro hf
      by_contra hne
      rcases h3 with h3 | h3
      · rw [hf] at h3; exact absurd h3 (by decide)
      · rw [h3 u hun hne] at hdu; exact lt_irrefl _ hdu
    have hnr : ¬ Relaxes w σ u s := by
      intro hr
      exact hr.2.1 (hus hr.1).symm
    refine ⟨by rw [((hstep s hs).2.2 hnr).1]; exact h1,
      by rw [((hstep s hs).2.2 hnr).2]; exact h2, Or.inl ?_⟩
    rw [(hstep s hs).1]
    by_cases hsu : s = u
    · rw [if_pos hsu]
    · rw [if_neg hsu]
      cases hes : σ.e s
      · exact absurd (hus hes).symm hsu
      · rfl
  · by_cases hr : Relaxes w σ u v
    · exact absurd (hlt v hv hr) hd
    · rw [((hstep v hv).2.2 hr).2]
      rw [((hstep v hv).2.2 hr).1] at hd
      exact hI.unreached v hv hd
  · unfold nextBack
    by_cases hr : Relaxes w σ u v
    · rw [if_pos hr]
      exact goodBack_extend n w s σ τ u v (B u) hstep hv hr (hI.route u hun hdu)
    · rw [if_neg hr]
      rw [((hstep v hv).2.2 hr).1] at hd
      exact goodBack_keep n w s σ τ u v (B v) hstep hr (hI.route v hv hd)

theorem add32_exact (a b : Int) (h0 : 0 ≤ a + b) (h1 : a + b < INF_VALUE) :
    add32 a b = a + b := by
  unfold add32 wrap32
  unfold INF_VALUE at h1
  omega

/-- With non-negative costs and no simple path reaching `INF_VALUE`, the sum
formed for an unexplored neighbour of the current node does not overflow. -/
theorem relax_sum_exact (n : Nat) (w : Nat → Nat → Int) (s : Nat) (B : Nat → List Nat)
    (σ : View) (u v : Nat)
    (hw0 : ∀ a b, a < n → b < n → 0 ≤ w a b) (hT : SimpleBound n (flipW w))
    (hS : InvS n w s B σ) (hM : InvM n w B σ)
    (hun : u < n) (hdu : σ.d u < INF_VALUE) (hvn : v < n)
    (hev : σ.e v = false) (hvu : v ≠ u) (hfin : w u v < INF_VALUE) :
    0 ≤ σ.d u + w u v ∧ σ.d u + w u v < INF_VALUE ∧
      add32 (σ.d u) (w u v) = σ.d u + w u v ∧
      pathCost (flipW w) (v :: B u) = σ.d u + w u v := by
  have hg := hS.route u hun hdu
  obtain ⟨tl, htl⟩ : ∃ tl, B u = u :: tl := by
    cases h : B u with
    | nil => have := hg.head; rw [h] at this; exact absurd this (by simp)
    | cons a tl =>
      have := hg.head
      rw [h] at this
      simp only [List.head?_cons, Option.some.injEq] at this
      exact ⟨tl, by rw [this]⟩
  have hcost : pathCost (flipW w) (v :: B u) = σ.d u + w u v := by
    rw [htl]
    show flipW w v u + pathCost (flipW w) (u :: tl) = _
    rw [← htl, hM.cost u hun hdu]
    unfold flipW
    ring
  have hnotin : v ∉ B u := by
    intro hx
    have := hg.expl v hx hvu
    rw [hev] at this
    exact absurd this (by decide)
  have hb : pathCost (flipW w) (v :: B u) < INF_VALUE := by
    apply hT
    · exact List.nodup_cons.mpr ⟨hnotin, hg.nodup⟩
    · intro x hx
      rcases List.mem_cons.mp hx with h | h
      · rw [h]; exact hvn
      · exact hg.bound x h
    · unfold FiniteSteps
      rw [htl]
      exact List.Chain'.cons hfin (htl ▸ hg.steps)
  rw [hcost] at hb
  have h0 : 0 ≤ σ.d u + w u v := add_nonneg (hM.nonneg u hun) (hw0 u v hun hvn)
  exact ⟨h0, hb, add32_exact _ _ h0 hb, hcost⟩

/-- The metric invariant is kept by a round of the main loop. -/
theorem invM_step (n : Nat) (w : Nat → Nat → Int) (s : Nat) (B : Nat → List Nat) (σ τ : View)
    (u : Nat) (hw0 : ∀ a b, a < n → b < n → 0 ≤ w a b) (hT : SimpleBound n (flipW w))
    (hpick : Picks n σ u)
    (hstep : ∀ x, x < n →
      τ.e x = (if x = u then true else σ.e x) ∧
      (Relaxes w σ u x → τ.d x = add32 (σ.d u) (w u x) ∧ τ.p x = (u : Int)) ∧
      (¬ Relaxes w σ u x → τ.d x = σ.d x ∧ τ.p x = σ.p x))
    (hS : InvS n w s B σ) (hM : InvM n w B σ) : InvM n w (nextBack w σ u B) τ := by
  obtain ⟨hun, heu, hdu, hmin, _⟩ := hpick
  have hK := fun v hvn hev hvu hfin =>
    relax_sum_exact n w s B σ u v hw0 hT hS hM hun hdu hvn hev hvu hfin
  -- the new distance of a relaxed node
  have hnew : ∀ v, v < n → Relaxes w σ u v → τ.d v = σ.d u + w u v := by
    intro v hv hr
    rw [((hstep v hv).2.1 hr).1]
    exact (hK v hv hr.1 hr.2.1 hr.2.2.1).2.2.1
  -- distances never grow
  have hdec : ∀ v, v < n → τ.d v ≤ σ.d v := by
    intro v hv
    by_cases hr : Relaxes w σ u v
    · rw [((hstep v hv).2.1 hr).1]; exact le_of_lt hr.2.2.2
    · rw [((hstep v hv).2.2 hr).1]
  -- explored nodes of the new state keep their distance
  have hfix : ∀ a, a < n → τ.e a = true → τ.d a = σ.d a ∧ (a = u ∨ σ.e a = true) := by
    intro a ha he
    rw [(hstep a ha).1] at he
    by_cases hau : a = u
    · exact ⟨((hstep a ha).2.2 (not_relaxes_of_explored w σ u a (Or.inl hau))).1, Or.inl hau⟩
    · rw [if_neg hau] at he
      exact ⟨((hstep a ha).2.2 (not_relaxes_of_explored w σ u a (Or.inr he))).1, Or.inr he⟩
  -- unexplored nodes of the new state were unexplored and are not the current node
  have hunex : ∀ b, b < n → τ.e b = false → σ.e b = false ∧ b ≠ u := by
    intro b hb he
    rw [(hstep b hb).1] at he
    by_cases hbu : b = u
    · rw [if_pos hbu] at he; exact absurd he (by decide)
    · rw [if_neg hbu] at he; exact ⟨he, hbu⟩
  -- every explored node of the new state is at most as far as the current node
  have hle_u : ∀ a, a < n → (a = u ∨ σ.e a = true) → σ.d a ≤ σ.d u := by
    intro a ha h
    rcases h with h | h
    · rw [h]
    · exact hM.mono a u ha hun h heu
  refine ⟨fun v hv => ?_, fun a b ha hb hea heb => ?_, fun a b ha hb hea hfin => ?_,
    fun v hv hd => ?_⟩
  · by_cases hr : Relaxes w σ u v
    · rw [hnew v hv hr]; exact (hK v hv hr.1 hr.2.1 hr.2.2.1).1
    · rw [((hstep v hv).2.2 hr).1]; exact hM.nonneg v hv
  · obtain ⟨hda, hae⟩ := hfix a ha hea
    obtain ⟨hbe, hbu⟩ := hunex b hb heb
    rw [hda]
    by_cases hr : Relaxes w σ u b
    · rw [hnew b hb hr]
      have := hle_u a ha hae
      have := hw0 u b hun hb
      linarith
    · rw [((hstep b hb).2.2 hr).1]
      rcases hae with h | h
      · rw [h]; exact hmin b hb hbe
      · exact hM.mono a b ha hb h hbe
  · obtain ⟨hda, hae⟩ := hfix a ha hea
    rw [hda]
    rcases hae with h | h
    · subst h
      by_cases hbe : σ.e b = true
      · have hnr := not_relaxes_of_explored w σ a b (Or.inr hbe)
        rw [((hstep b hb).2.2 hnr).1]
        refine ⟨hS.exfin b hb hbe, ?_⟩
        have := hM.mono b a hb ha hbe heu
        have := hw0 a b ha hb
        linarith
      · have hbf := bool_eq_false_of_ne_true hbe
        by_cases hba : b = a
        · have hnr := not_relaxes_of_explored w σ a b (Or.inl hba)
          rw [((hstep b hb).2.2 hnr).1, hba]
          refine ⟨hdu, ?_⟩
          have := hw0 a a ha ha
          linarith
        · obtain ⟨_, k2, k3, _⟩ := hK b hb hbf hba hfin
          by_cases hr : Relaxes w σ a b
          · rw [hnew b hb hr]; exact ⟨k2, le_refl _⟩
          · rw [((hstep b hb).2.2 hr).1]
            have hge : σ.d b ≤ σ.d a + w a b := by
              have : ¬ add32 (σ.d a) (w a b) < σ.d b := fun h => hr ⟨hbf, hba, hfin, h⟩
              rw [k3] at this
              exact not_lt.mp this
            exact ⟨lt_of_le_of_lt hge k2, hge⟩
    · obtain ⟨c1, c2⟩ := hM.closed a b ha hb h hfin
      have := hdec b hb
      exact ⟨lt_of_le_of_lt this c1, le_trans this c2⟩
  · unfold nextBack
    by_cases hr : Relaxes w σ u v
    · rw [if_pos hr, hnew v hv hr]
      exact (hK v hv hr.1 hr.2.1 hr.2.2.1).2.2.2
    · rw [if_neg hr, ((hstep v hv).2.2 hr).1]
      rw [((hstep v hv).2.2 hr).1] at hd
      exact hM.cost v hv hd

/-- A round of the main loop explores one more node. -/
theorem unexplored_step (n : Nat) (σ τ : View) (u : Nat) (hpick : Picks n σ u)
    (he : ∀ x, x < n → τ.e x = (if x = u then true else σ.e x)) :
    unexplored n τ + 1 ≤ unexplored n σ := by
  unfold unexplored
  have hu : u ∈ (Finset.range n).filter (fun v => σ.e v = false) :=
    Finset.mem_filter.mpr ⟨Finset.mem_range.mpr hpick.1, hpick.2.1⟩
  have hsub : (Finset.range n).filter (fun v => τ.e v = false)
      ⊆ ((Finset.range n).filter (fun v => σ.e v = false)).erase u := by
    intro x hx
    obtain ⟨hx1, hx2⟩ := Finset.mem_filter.mp hx
    have hxn := Finset.mem_range.mp hx1
    rw [he x hxn] at hx2
    by_cases hxu : x = u
    · rw [if_pos hxu] at hx2; exact absurd hx2 (by decide)
    · rw [if_neg hxu] at hx2
      exact Finset.mem_erase.mpr ⟨hxu, Finset.mem_filter.mpr ⟨hx1, hx2⟩⟩
  have h1 := Finset.card_le_card hsub
  rw [Finset.card_erase_of_mem hu] at h1
  have h2 : 0 < ((Finset.range n).filter (fun v => σ.e v = false)).card :=
    Finset.card_pos.mpr ⟨u, hu⟩
  omega

/-- The cost-independent invariant holds after any run of the main loop. -/
theorem runs_invS (n : Nat) (w : Nat → Nat → Int) (s : Nat) (hs : s < n) (k : Nat)
    (σ τ : View) (hr : Runs n w k σ τ) :
    ∀ B, InvS n w s B σ → ∃ B2, InvS n w s B2 τ := by
  induction hr with
  | done σ => intro B h; exact ⟨B, h⟩
  | stuck k σ _ => intro B h; exact ⟨B, h⟩
  | step k σ τ ρ hstep _ ih =>
    intro B h
    obtain ⟨u, hpick, hfun⟩ := hstep
    exact ih _ (invS_step n w s B σ τ u hs hpick hfun h)

/-- Both invariants hold after a run of the main loop, and the run ends either
stuck or with at most one node unexplored. -/
theorem runs_invM (n : Nat) (w : Nat → Nat → Int) (s : Nat) (hs : s < n)
    (hw0 : ∀ a b, a < n → b < n → 0 ≤ w a b) (hT : SimpleBound n (flipW w)) (k : Nat)
    (σ τ : View) (hr : Runs n w k σ τ) :
    ∀ B, InvS n w s B σ → InvM n w B σ → unexplored n σ ≤ k + 1 →
      ∃ B2, InvS n w s B2 τ ∧ InvM n w B2 τ ∧ (Stuck n τ ∨ unexplored n τ ≤ 1) := by
  induction hr with
  | done σ => intro B h1 h2 h3; exact ⟨B, h1, h2, Or.inr h3⟩
  | stuck k σ hst => intro B h1 h2 _; exact ⟨B, h1, h2, Or.inl hst⟩
  | step k σ τ ρ hstep _ ih =>
    intro B h1 h2 h3
    obtain ⟨u, hpick, hfun⟩ := hstep
    have h4 := unexplored_step n σ τ u hpick (fun x hx => (hfun x hx).1)
    exact ih _ (invS_step n w s B σ τ u hs hpick hfun h1)
      (invM_step n w s B σ τ u hw0 hT hpick hfun h1 h2) (by omega)

/-- At the end of the loop every finite edge out of a reached node is relaxed. -/
theorem final_closed (n : Nat) (w : Nat → Nat → Int) (s : Nat) (B : Nat → List Nat) (τ : View)
    (hw0 : ∀ a b, a < n → b < n → 0 ≤ w a b)
    (hS : InvS n w s B τ) (hM : InvM n w B τ) (hend : Stuck n τ ∨ unexplored n τ ≤ 1)
    (a b : Nat) (ha : a < n) (hb : b < n) (hda : τ.d a < INF_VALUE)
    (hfin : w a b < INF_VALUE) : τ.d b < INF_VALUE ∧ τ.d b ≤ τ.d a + w a b := by
  by_cases hea : τ.e a = true
  · exact hM.closed a b ha hb hea hfin
  · have heaf := bool_eq_false_of_ne_true hea
    rcases hend with hst | hone
    · rcases hst a ha with h | h
      · exact absurd h hea
      · exact absurd hda (not_lt.mpr h)
    · by_cases hba : b = a
      · rw [hba]
        refine ⟨hda, ?_⟩
        have := hw0 a a ha ha
        linarith
      · have heb : τ.e b = true := by
          by_contra hne
          have hbf := bool_eq_false_of_ne_true hne
          unfold unexplored at hone
          exact hba (Finset.card_le_one.mp hone b
            (Finset.mem_filter.mpr ⟨Finset.mem_range.mpr hb, hbf⟩) a
            (Finset.mem_filter.mpr ⟨Finset.mem_range.mpr ha, heaf⟩))
        refine ⟨hS.exfin b hb heb, ?_⟩
        have := hM.mono b a hb ha heb heaf
        have := hw0 a b ha hb
        linarith

/-- When every finite edge out of a reached node is relaxed, the distance of
the end of any path is at most the distance of its start plus the path cost. -/
theorem closed_path_le (n : Nat) (w : Nat → Nat → Int) (d : Nat → Int)
    (hcl : ∀ a b, a < n → b < n → d a < INF_VALUE → w a b < INF_VALUE →
      d b < INF_VALUE ∧ d b ≤ d a + w a b) :
    ∀ (l : List Nat) (a b : Nat), l.head? = some a → l.getLast? = some b →
      (∀ x, x ∈ l → x < n) → FiniteSteps w l → d a < INF_VALUE →
      d b < INF_VALUE ∧ d b ≤ d a + pathCost w l := by
  intro l
  induction l with
  | nil => intro a b h; exact absurd h (by simp)
  | cons x rest ih =>
    intro a b hh hl hbd hfs hda
    simp only [List.head?_cons, Option.some.injEq] at hh
    subst hh
    cases rest with
    | nil =>
      simp only [List.getLast?_singleton, Option.some.injEq] at hl
      subst hl
      exact ⟨hda, by simp [pathCost]⟩
    | cons y rest2 =>
      have hxy : w x y < INF_VALUE := (List.chain'_cons.mp hfs).1
      have hx := hbd x (List.mem_cons_self _ _)
      have hy := hbd y (List.mem_cons_of_mem _ (List.mem_cons_self _ _))
      obtain ⟨c1, c2⟩ := hcl x y hx hy hda hxy
      rw [List.getLast?_cons_cons] at hl
      obtain ⟨r1, r2⟩ := ih y b rfl hl (fun z hz => hbd z (List.mem_cons_of_mem _ hz))
        (List.chain'_cons.mp hfs).2 c1
      refine ⟨r1, ?_⟩
      show d b ≤ d x + (w x y + pathCost w (y :: rest2))
      linarith

theorem getD_replicate_self {α : Type} (n v : Nat) (a : α) :
    (List.replicate n a).getD v a = a := by
  simp only [List.getD_eq_getElem?_getD, List.getElem?_replicate]
  by_cases h : v < n
  · rw [if_pos h]; rfl
  · rw [if_neg h]; rfl

theorem viewOf_init (n s : Nat) (hs : s < n) :
    viewOf ((List.replicate n INF_VALUE).set s 0) (List.replicate n (-1))
      (List.replicate n false) = initView s := by
  unfold viewOf initView
  congr 1
  · funext v
    rw [getD_set_eq, getD_replicate_self]
    by_cases h : s = v
    · subst h
      rw [if_pos ⟨rfl, by rw [List.length_replicate]; exact hs⟩, if_pos rfl]
    · rw [if_neg (fun h2 => h h2.1), if_neg (fun h2 => h h2.symm)]
  · funext v
    exact getD_replicate_self n v (-1)
  · funext v
    exact getD_replicate_self n v false

theorem init_invS (n : Nat) (w : Nat → Nat → Int) (s : Nat) (hs : s < n) :
    InvS n w s (fun _ => [s]) (initView s) := by
  refine ⟨fun v _ => ?_, fun v _ he => absurd he (by simp [initView]), ?_, fun v _ _ => rfl,
    fun v _ hd => ?_⟩
  · show (if v = s then 0 else INF_VALUE) ≤ INF_VALUE
    split
    · unfold INF_VALUE; omega
    · exact le_refl _
  · refine ⟨by simp [initView], rfl, Or.inr (fun v _ hvs => ?_)⟩
    show (if v = s then 0 else INF_VALUE) = INF_VALUE
    rw [if_neg hvs]
  · have hvs : v = s := by
      by_contra hne
      have : (if v = s then 0 else INF_VALUE) < INF_VALUE := hd
      rw [if_neg hne] at this
      exact lt_irrefl _ this
    subst hvs
    refine ⟨rfl, rfl, List.nodup_singleton v, fun x hx => ?_, fun x hx hxv => ?_, ⟨rfl, rfl⟩,
      List.chain'_singleton v⟩
    · rw [List.mem_singleton.mp hx]; exact hs
    · exact absurd (List.mem_singleton.mp hx) hxv

theorem init_invM (n : Nat) (w : Nat → Nat → Int) (s : Nat) :
    InvM n w (fun _ => [s]) (initView s) := by
  refine ⟨fun v _ => ?_, fun a b _ _ he _ => absurd he (by simp [initView]),
    fun a b _ _ he _ => absurd he (by simp [initView]), fun v _ hd => ?_⟩
  · show 0 ≤ (if v = s then 0 else INF_VALUE)
    split
    · exact le_refl _
    · unfold INF_VALUE; omega
  · have hvs : v = s := by
      by_contra hne
      have : (if v = s then 0 else INF_VALUE) < INF_VALUE := hd
      rw [if_neg hne] at this
      exact lt_irrefl _ this
    subst hvs
    show (0 : Int) = if v = v then 0 else INF_VALUE
    rw [if_pos rfl]

theorem unexplored_init (n s : Nat) : unexplored n (initView s) = n := by
  unfold unexplored initView
  simp

theorem sizeMinusOne_succ (n : Nat) (h : 0 < n) : sizeMinusOne n + 1 = n := by
  unfold sizeMinusOne
  rw [if_neg (by omega)]
  omega

/-- The reconstruction loop, started at the head of a chain of parents and
given fuel for each node of it, pushes the names of the chain in order. -/
theorem walkParents_linked (rp : RoutePlanner) (par : List Int)
    (hpar : par.length = rp.locationList.length) (l : List Nat) :
    ∀ (cur : Int) (acc : List String) (fuel : Nat), l.length ≤ fuel →
      (∀ x, x ∈ l → x < rp.locationList.length) →
      LinkedFrom (fun v => par.getD v (-1)) cur l →
      rp.walkParents par fuel cur acc = Except.ok (acc ++ l.map rp.nameAt) := by
  induction l with
  | nil =>
    intro cur acc fuel _ _ hl
    have hc : cur = -1 := hl
    unfold RoutePlanner.walkParents
    rw [if_pos hc]
    simp [pure, Except.pure]
  | cons v rest ih =>
    intro cur acc fuel hf hb hl
    obtain ⟨hc, hrest⟩ := hl
    have hv := hb v (List.mem_cons_self _ _)
    obtain ⟨f, rfl⟩ : ∃ f, fuel = f + 1 := ⟨fuel - 1, by simp at hf; omega⟩
    unfold RoutePlanner.walkParents
    rw [if_neg (by rw [hc]; omega), hc]
    simp only []
    rw [readAt_nat rp.locationList v "" hv]
    simp only [bind, Except.bind]
    rw [readAt_nat par v (-1) (by rw [hpar]; exact hv)]
    simp only []
    rw [ih (par.getD v (-1)) (acc ++ [rp.locationList.getD v ""]) f
      (by simp at hf; omega) (fun x hx => hb x (List.mem_cons_of_mem _ hx)) hrest]
    simp [RoutePlanner.nameAt]

/-- On a well-formed planner and two known names, `shortestPath` runs the main
loop from the initial vectors without a fault, and its result is the
reconstruction walk over the final `parent` paired with the final
`minDist[destIdx]`. -/
theorem shortestPath_run (names : List String) (rp : RoutePlanner) (origin destination : String)
    (hwf : WellFormed names rp) (ho : origin ∈ names) (hd : destination ∈ names) :
    rp.pos origin < rp.locationList.length ∧ rp.pos destination < rp.locationList.length ∧
    ∃ md par ex, md.length = rp.locationList.length ∧ par.length = rp.locationList.length ∧
      Runs rp.locationList.length rp.cell (sizeMinusOne rp.locationList.length)
        (initView (rp.pos origin)) (viewOf md par ex) ∧
      rp.dijkstraLoop (sizeMinusOne rp.locationList.length)
        ((List.replicate rp.locationList.length INF_VALUE).set (rp.pos origin) 0)
        (List.replicate rp.locationList.length (-1))
        (List.replicate rp.locationList.length false) = Except.ok (md, par, ex) ∧
      ∀ fuel, rp.shortestPath fuel origin destination =
        (rp.walkParents par fuel (rp.pos destination : Int) [] >>= fun path =>
          Except.ok (path.reverse, md.getD (rp.pos destination) INF_VALUE)) := by
  obtain ⟨hn, hsq⟩ := hwf
  rw [← hn] at hsq ho hd
  obtain ⟨hio, hlo⟩ := indexOfLocation_mem rp origin ho
  obtain ⟨hid, hld⟩ := indexOfLocation_mem rp destination hd
  obtain ⟨md, par, ex, hloop, l1, l2, _, hruns⟩ := dijkstraLoop_exec rp hsq
    (sizeMinusOne rp.locationList.length)
    ((List.replicate rp.locationList.length INF_VALUE).set (rp.pos origin) 0)
    (List.replicate rp.locationList.length (-1))
    (List.replicate rp.locationList.length false) (by simp) (by simp) (by simp)
  rw [viewOf_init _ _ hlo] at hruns
  refine ⟨hlo, hld, md, par, ex, l1, l2, hruns, hloop, fun fuel => ?_⟩
  unfold RoutePlanner.shortestPath
  simp only []
  rw [hio, hid, writeAt_nat _ _ _ (by rw [List.length_replicate]; exact hlo)]
  simp only [bind, Except.bind]
  rw [hloop]
  simp only []
  cases rp.walkParents par fuel (rp.pos destination : Int) [] with
  | error e => rfl
  | ok path =>
    simp only []
    rw [readAt_nat md _ INF_VALUE (by rw [l1]; exact hld)]
    rfl

theorem pathCost_congr (w1 w2 : Nat → Nat → Int) :
    ∀ l : List Nat, (∀ x y, x ∈ l → y ∈ l → w2 x y = w1 x y) → pathCost w2 l = pathCost w1 l := by
  intro l
  induction l with
  | nil => intro _; rfl
  | cons a rest ih =>
    intro h
    cases rest with
    | nil => rfl
    | cons b rest2 =>
      show w2 a b + pathCost w2 (b :: rest2) = w1 a b + pathCost w1 (b :: rest2)
      rw [h a b (List.mem_cons_self _ _) (List.mem_cons_of_mem _ (List.mem_cons_self _ _)),
        ih (fun x y hx hy => h x y (List.mem_cons_of_mem _ hx) (List.mem_cons_of_mem _ hy))]

theorem pathCost_snoc (w : Nat → Nat → Int) (b : Nat) :
    ∀ (l : List Nat) (a : Nat), l.getLast? = some a →
      pathCost w (l ++ [b]) = pathCost w l + w a b := by
  intro l
  induction l with
  | nil => intro a h; exact absurd h (by simp)
  | cons x rest ih =>
    intro a h
    cases rest with
    | nil =>
      simp only [List.getLast?_singleton, Option.some.injEq] at h
      subst h
      simp [pathCost]
    | cons y rest2 =>
      rw [List.getLast?_cons_cons] at h
      show w x y + pathCost w ((y :: rest2) ++ [b]) = w x y + pathCost w (y :: rest2) + w a b
      rw [ih a h]
      ring

theorem pathCost_reverse (w : Nat → Nat → Int) :
    ∀ l : List Nat, pathCost w l.reverse = pathCost (flipW w) l := by
  intro l
  induction l with
  | nil => rfl
  | cons x rest ih =>
    cases rest with
    | nil => rfl
    | cons y rest2 =>
      rw [List.reverse_cons, pathCost_snoc w x (y :: rest2).reverse y
        (by rw [List.getLast?_reverse]; rfl), ih]
      show pathCost (flipW w) (y :: rest2) + w y x = flipW w x y + pathCost (flipW w) (y :: rest2)
      unfold flipW
      ring

theorem finiteSteps_reverse (w : Nat → Nat → Int) (l : List Nat) :
    FiniteSteps w l.reverse ↔ FiniteSteps (flipW w) l := by
  unfold FiniteSteps
  rw [List.chain'_reverse]
  rfl

theorem flipW_of_symm (w : Nat → Nat → Int) (h : ∀ i j, w i j = w j i) : flipW w = w := by
  funext a b
  exact h b a

theorem pathCost_clip (w : Nat → Nat → Int) :
    ∀ l : List Nat, FiniteSteps w l → pathCost (clipW w) l = pathCost w l := by
  intro l
  induction l with
  | nil => intro _; rfl
  | cons a rest ih =>
    intro h
    cases rest with
    | nil => rfl
    | cons b rest2 =>
      have h1 := List.chain'_cons.mp h
      show clipW w a b + pathCost (clipW w) (b :: rest2) = w a b + pathCost w (b :: rest2)
      rw [ih h1.2]
      unfold clipW
      rw [if_pos h1.1]

theorem pathCost_zero (w : Nat → Nat → Int) (h : ∀ a b, w a b = 0) :
    ∀ l : List Nat, pathCost w l = 0 := by
  intro l
  induction l with
  | nil => rfl
  | cons a rest ih =>
    cases rest with
    | nil => rfl
    | cons b rest2 =>
      show w a b + pathCost w (b :: rest2) = 0
      rw [h a b, ih]
      rfl

/-- Writing cost `c ≥ 0` on one undirected edge raises the clipped cost of a
simple path by at most `c`: the path uses that edge at most once. -/
theorem pathCost_update_le (w w2 : Nat → Nat → Int) (i j : Nat) (c : Int) (hc : 0 ≤ c)
    (hw : ∀ x y, 0 ≤ w x y)
    (h2 : ∀ x y, w2 x y = if (x = i ∧ y = j) ∨ (x = j ∧ y = i) then c else w x y) :
    ∀ l : List Nat, l.Nodup → pathCost (clipW w2) l ≤ pathCost (clipW w) l + c := by
  have hclip0 : ∀ x y, 0 ≤ clipW w x y := by
    intro x y
    unfold clipW
    split
    · exact hw x y
    · exact le_refl _
  intro l
  induction l with
  | nil => intro _; simpa [pathCost] using hc
  | cons a rest ih =>
    intro hnd
    cases rest with
    | nil => simpa [pathCost] using hc
    | cons b rest2 =>
      have hnd2 := List.nodup_cons.mp hnd
      show clipW w2 a b + pathCost (clipW w2) (b :: rest2)
        ≤ clipW w a b + pathCost (clipW w) (b :: rest2) + c
      by_cases hcond : (a = i ∧ b = j) ∨ (a = j ∧ b = i)
      · have hle : clipW w2 a b ≤ c := by
          unfold clipW
          rw [h2 a b, if_pos hcond]
          split
          · exact le_refl _
          · exact hc
        have hsame : pathCost (clipW w2) (b :: rest2) = pathCost (clipW w) (b :: rest2) := by
          apply pathCost_congr
          intro x y hx hy
          have hxa : x ≠ a := fun e => hnd2.1 (e ▸ hx)
          have hya : y ≠ a := fun e => hnd2.1 (e ▸ hy)
          unfold clipW
          rw [h2 x y]
          have : ¬ ((x = i ∧ y = j) ∨ (x = j ∧ y = i)) := by
            rintro (⟨e1, e2⟩ | ⟨e1, e2⟩)
            · rcases hcond with ⟨e3, _⟩ | ⟨e3, _⟩
              · exact hxa (e1.trans e3.symm)
              · exact hya (e2.trans e3.symm)
            · rcases hcond with ⟨e3, _⟩ | ⟨e3, _⟩
              · exact hya (e2.trans e3.symm)
              · exact hxa (e1.trans e3.symm)
          rw [if_neg this]
        rw [hsame]
        have := hclip0 a b
        linarith
      · have heq : clipW w2 a b = clipW w a b := by
          unfold clipW
          rw [h2 a b, if_neg hcond]
        rw [heq]
        have := ih hnd2.2
        linarith

theorem totalCost_snoc (cs : List (String × String × Int)) (c : String × String × Int) :
    totalCost (cs ++ [c]) = totalCost cs + c.2.2 := by
  unfold totalCost
  simp

/-- With non-negative costs, every entry of a built matrix is non-negative and
no simple path costs more than the sum of all costs passed to `connectCities`
(entries of `INF_VALUE` counted as 0). -/
theorem build_bound (names : List String) (calls : List (String × String × Int)) :
    ∃ rp, build names calls = Except.ok rp ∧ WellFormed names rp ∧
      ((∀ c, c ∈ calls → 0 ≤ c.2.2) →
        (∀ i j, 0 ≤ rp.cell i j) ∧
        ∀ l : List Nat, l.Nodup → pathCost (clipW rp.cell) l ≤ totalCost calls) := by
  refine build_induction names (fun cs rp => (∀ c, c ∈ cs → 0 ≤ c.2.2) →
        (∀ i j, 0 ≤ rp.cell i j) ∧
        ∀ l : List Nat, l.Nodup → pathCost (clipW rp.cell) l ≤ totalCost cs) ?_ ?_ calls
  · intro rp h _ _
    obtain ⟨rp2, h1, _, h3⟩ := construct_spec names
    rw [h1] at h
    cases h
    refine ⟨fun i j => ?_, fun l _ => ?_⟩
    · rw [h3]
      split
      · exact le_refl _
      · unfold INF_VALUE; omega
    · rw [pathCost_zero]
      · exact le_refl _
      · intro a b
        unfold clipW
        rw [h3]
        by_cases hab : a = b ∧ a < names.length
        · rw [if_pos hab]; simp
        · rw [if_neg hab]; simp
  · intro cs c rp rp2 hP hwf hc _ hnn
    have hnn1 : ∀ c2, c2 ∈ cs → 0 ≤ c2.2.2 := fun c2 h => hnn c2 (List.mem_append_left _ h)
    have hc0 : 0 ≤ c.2.2 := hnn c (List.mem_append_right _ (List.mem_singleton_self c))
    obtain ⟨p1, p2⟩ := hP hnn1
    rw [totalCost_snoc]
    rcases connectCities_cases names rp rp2 c.1 c.2.1 c.2.2 hwf hc with ⟨h1, _⟩ | ⟨_, _, _, h4⟩
    · rw [h1]
      refine ⟨p1, fun l hl => ?_⟩
      have := p2 l hl
      linarith
    · refine ⟨fun i j => ?_, fun l hl => ?_⟩
      · rw [h4]
        split
        · exact hc0
        · exact p1 i j
      · have := pathCost_update_le rp.cell rp2.cell _ _ c.2.2 hc0 p1 h4 l hl
        have := p2 l hl
        linarith

/-- What is known of a planner returned by `build`. -/
theorem build_facts (names : List String) (calls : List (String × String × Int))
    (rp : RoutePlanner) (hb : build names calls = Except.ok rp) :
    WellFormed names rp ∧ (∀ i j, rp.cell i j = rp.cell j i) ∧
      ((∀ c, c ∈ calls → 0 ≤ c.2.2) →
        (∀ i j, 0 ≤ rp.cell i j) ∧
        ∀ l : List Nat, l.Nodup → pathCost (clipW rp.cell) l ≤ totalCost calls) := by
  obtain ⟨rp1, h1, h2, h3⟩ := build_bound names calls
  obtain ⟨rp2, h4, _, h6⟩ := build_symmetric names calls
  rw [hb] at h1 h4
  cases h1
  cases h4
  exact ⟨h2, h6, h3⟩

/-- A built planner with non-negative costs of total below `INF_VALUE` has no
simple path of finite steps that costs `INF_VALUE` or more. -/
theorem build_simpleBound (names : List String) (calls : List (String × String × Int))
    (rp : RoutePlanner) (hb : build names calls = Except.ok rp)
    (hnn : ∀ c, c ∈ calls → 0 ≤ c.2.2) (htot : totalCost calls < INF_VALUE) :
    SimpleBound rp.locationList.length (flipW rp.cell) := by
  obtain ⟨_, hsym, h3⟩ := build_facts names calls rp hb
  rw [flipW_of_symm rp.cell hsym]
  intro l hnd _ hfs
  rw [← pathCost_clip rp.cell l hfs]
  exact lt_of_le_of_lt ((h3 hnn).2 l hnd) htot

theorem nameAt_pos (rp : RoutePlanner) (x : String) (h : x ∈ rp.locationList) :
    rp.nameAt (rp.pos x) = x := by
  have hlt : rp.locationList.indexOf x < rp.locationList.length := List.indexOf_lt_length.mpr h
  unfold RoutePlanner.nameAt RoutePlanner.pos
  rw [List.getD_eq_getElem _ _ hlt]
  exact List.getElem_indexOf hlt

theorem pos_nameAt (rp : RoutePlanner) (i : Nat) (hnd : rp.locationList.Nodup)
    (h : i < rp.locationList.length) : rp.pos (rp.nameAt i) = i := by
  unfold RoutePlanner.nameAt RoutePlanner.pos
  rw [List.getD_eq_getElem _ _ h]
  exact List.indexOf_getElem hnd i h

theorem nodup_bounded_length (l : List Nat) (n : Nat) (hnd : l.Nodup)
    (hb : ∀ x, x ∈ l → x < n) : l.length ≤ n := by
  have hsub : l.toFinset ⊆ Finset.range n := by
    intro x hx
    exact Finset.mem_range.mpr (hb x (List.mem_toFinset.mp hx))
  have h1 := Finset.card_le_card hsub
  rw [List.toFinset_card_of_nodup hnd, Finset.card_range] at h1
  exact h1

/-- The chain of parents of a reached node, read backwards, is a simple path
from the source to the node. -/
theorem goodBack_route (rp : RoutePlanner) (s t : Nat) (σ : View) (l : List Nat)
    (hg : GoodBack rp.locationList.length rp.cell s σ t l) :
    rp.IsRoute s t l.reverse ∧ l.reverse.Nodup := by
  refine ⟨⟨?_, ?_, ?_, ?_⟩, List.nodup_reverse.mpr hg.nodup⟩
  · rw [List.head?_reverse]; exact hg.last
  · rw [List.getLast?_reverse]; exact hg.head
  · intro x hx; exact hg.bound x (List.mem_reverse.mp hx)
  · exact (finiteSteps_reverse rp.cell l).mpr hg.steps

/-- The reconstruction loop started at a node whose parent is `-1` returns its name. -/
theorem walkParents_single (rp : RoutePlanner) (par : List Int)
    (hpar : par.length = rp.locationList.length) (t fuel : Nat)
    (ht : t < rp.locationList.length) (hp : par.getD t (-1) = -1) (hf : 1 ≤ fuel) :
    rp.walkParents par fuel (t : Int) [] = Except.ok [rp.nameAt t] := by
  have := walkParents_linked rp par hpar [t] (t : Int) [] fuel (by simpa using hf)
    (fun x hx => by rw [List.mem_singleton.mp hx]; exact ht) ⟨rfl, hp⟩
  simpa using this

/-- What `shortestPath` returns, read off the invariant of the final vectors:
`[destination]` with `INF_VALUE` for a node that was never reached, and the
reversed chain of parents with the final distance for a reached one. -/
theorem results_of_invS (rp : RoutePlanner) (origin destination : String)
    (hd : destination ∈ rp.locationList)
    (md par : List Int) (ex : List Bool) (B : Nat → List Nat)
    (hpar : par.length = rp.locationList.length)
    (hS : InvS rp.locationList.length rp.cell (rp.pos origin) B (viewOf md par ex))
    (hrun : ∀ fuel, rp.shortestPath fuel origin destination =
        (rp.walkParents par fuel (rp.pos destination : Int) [] >>= fun path =>
          Except.ok (path.reverse, md.getD (rp.pos destination) INF_VALUE))) :
    (¬ (viewOf md par ex).d (rp.pos destination) < INF_VALUE →
      ∀ fuel, 1 ≤ fuel →
        rp.shortestPath fuel origin destination = Except.ok ([destination], INF_VALUE)) ∧
    ((viewOf md par ex).d (rp.pos destination) < INF_VALUE →
      ∀ fuel, rp.locationList.length ≤ fuel →
        rp.shortestPath fuel origin destination =
          Except.ok ((B (rp.pos destination)).reverse.map rp.nameAt,
            (viewOf md par ex).d (rp.pos destination))) ∧
    (origin = destination → ∀ fuel, 1 ≤ fuel →
      rp.shortestPath fuel origin destination = Except.ok ([destination], 0)) := by
  have ht : rp.pos destination < rp.locationList.length := List.indexOf_lt_length.mpr hd
  refine ⟨fun hnd fuel hf => ?_, fun hlt fuel hf => ?_, fun hod fuel hf => ?_⟩
  · have hp : par.getD (rp.pos destination) (-1) = -1 := hS.unreached _ ht hnd
    have hdv : md.getD (rp.pos destination) INF_VALUE = INF_VALUE :=
      le_antisymm (hS.dle _ ht) (not_lt.mp hnd)
    rw [hrun fuel, walkParents_single rp par hpar _ fuel ht hp hf, hdv]
    simp only [bind, Except.bind, List.reverse_singleton]
    rw [nameAt_pos rp destination hd]
  · have hg := hS.route _ ht hlt
    have hlen : (B (rp.pos destination)).length ≤ fuel :=
      le_trans (nodup_bounded_length _ _ hg.nodup hg.bound) hf
    rw [hrun fuel, walkParents_linked rp par hpar (B (rp.pos destination)) _ [] fuel hlen
      hg.bound hg.linked]
    simp only [bind, Except.bind, List.nil_append, List.map_reverse]
    rfl
  · subst hod
    obtain ⟨h1, h2, _⟩ := hS.src
    have hp : par.getD (rp.pos origin) (-1) = -1 := h2
    have hdv : md.getD (rp.pos origin) INF_VALUE = 0 := h1
    rw [hrun fuel, walkParents_single rp par hpar _ fuel ht hp hf, hdv]
    simp only [bind, Except.bind, List.reverse_singleton]
    rw [nameAt_pos rp origin hd]

/-- Outcome of `shortestPath` on any well-formed planner (any costs). -/
theorem shortestPath_any (names : List String) (rp : RoutePlanner) (origin destination : String)
    (hwf : WellFormed names rp) (ho : origin ∈ names) (hd : destination ∈ names) :
    ∃ (τ : View) (B : Nat → List Nat),
      InvS rp.locationList.length rp.cell (rp.pos origin) B τ ∧
      (¬ τ.d (rp.pos destination) < INF_VALUE → ∀ fuel, 1 ≤ fuel →
        rp.shortestPath fuel origin destination = Except.ok ([destination], INF_VALUE)) ∧
      (τ.d (rp.pos destination) < INF_VALUE → ∀ fuel, rp.locationList.length ≤ fuel →
        rp.shortestPath fuel origin destination =
          Except.ok ((B (rp.pos destination)).reverse.map rp.nameAt,
            τ.d (rp.pos destination))) ∧
      (origin = destination → ∀ fuel, 1 ≤ fuel →
        rp.shortestPath fuel origin destination = Except.ok ([destination], 0)) := by
  obtain ⟨hs, _, md, par, ex, _, l2, hruns, _, hrun⟩ :=
    shortestPath_run names rp origin destination hwf ho hd
  obtain ⟨B, hS⟩ := runs_invS rp.locationList.length rp.cell (rp.pos origin) hs _ _ _ hruns _
    (init_invS rp.locationList.length rp.cell (rp.pos origin) hs)
  have hd2 : destination ∈ rp.locationList := by rw [hwf.1]; exact hd
  exact ⟨viewOf md par ex, B, hS,
    results_of_invS rp origin destination hd2 md par ex B l2 hS hrun⟩

/-- Outcome of `shortestPath` on a planner built with non-negative costs whose
total is below `INF_VALUE`. -/
theorem shortestPath_metric (names : List String) (calls : List (String × String × Int))
    (rp : RoutePlanner) (origin destination : String)
    (hb : build names calls = Except.ok rp)
    (hnn : ∀ c, c ∈ calls → 0 ≤ c.2.2) (htot : totalCost calls < INF_VALUE)
    (ho : origin ∈ names) (hd : destination ∈ names) :
    ∃ (τ : View) (B : Nat → List Nat),
      InvS rp.locationList.length rp.cell (rp.pos origin) B τ ∧
      InvM rp.locationList.length rp.cell B τ ∧
      (∀ a b, a < rp.locationList.length → b < rp.locationList.length →
        τ.d a < INF_VALUE → rp.cell a b < INF_VALUE →
        τ.d b < INF_VALUE ∧ τ.d b ≤ τ.d a + rp.cell a b) ∧
      (¬ τ.d (rp.pos destination) < INF_VALUE → ∀ fuel, 1 ≤ fuel →
        rp.shortestPath fuel origin destination = Except.ok ([destination], INF_VALUE)) ∧
      (τ.d (rp.pos destination) < INF_VALUE → ∀ fuel, rp.locationList.length ≤ fuel →
        rp.shortestPath fuel origin destination =
          Except.ok ((B (rp.pos destination)).reverse.map rp.nameAt,
            τ.d (rp.pos destination))) := by
  obtain ⟨hwf, _, h3⟩ := build_facts names calls rp hb
  have hw0 : ∀ a b, a < rp.locationList.length → b < rp.locationList.length → 0 ≤ rp.cell a b :=
    fun a b _ _ => (h3 hnn).1 a b
  have hT := build_simpleBound names calls rp hb hnn htot
  obtain ⟨hs, _, md, par, ex, _, l2, hruns, _, hrun⟩ :=
    shortestPath_run names rp origin destination hwf ho hd
  obtain ⟨B, hS, hM, hend⟩ := runs_invM rp.locationList.length rp.cell (rp.pos origin) hs
    hw0 hT _ _ _ hruns _
    (init_invS rp.locationList.length rp.cell (rp.pos origin) hs)
    (init_invM rp.locationList.length rp.cell (rp.pos origin))
    (by rw [unexplored_init, sizeMinusOne_succ _ (by omega)])
  have hd2 : destination ∈ rp.locationList := by rw [hwf.1]; exact hd
  obtain ⟨r1, r2, _⟩ := results_of_invS rp origin destination hd2 md par ex B l2 hS hrun
  exact ⟨viewOf md par ex, B, hS, hM,
    fun a b ha hb hda hfin => final_closed _ _ _ B _ hw0 hS hM hend a b ha hb hda hfin, r1, r2⟩

/-- More fuel does not change a result of the reconstruction loop. -/
theorem walkParents_mono (rp : RoutePlanner) (par : List Int) (k : Nat) :
    ∀ (f : Nat) (cur : Int) (acc r : List String),
      rp.walkParents par f cur acc = Except.ok r →
      rp.walkParents par (f + k) cur acc = Except.ok r := by
  intro f
  induction f with
  | zero =>
    intro cur acc r h
    unfold RoutePlanner.walkParents at h ⊢
    by_cases hc : cur = -1
    · rw [if_pos hc] at h ⊢; exact h
    · rw [if_neg hc] at h; cases h
  | succ f ih =>
    intro cur acc r h
    rw [show f + 1 + k = (f + k) + 1 by omega]
    unfold RoutePlanner.walkParents at h ⊢
    by_cases hc : cur = -1
    · rw [if_pos hc] at h ⊢; exact h
    · rw [if_neg hc] at h ⊢
      simp only [bind, Except.bind] at h ⊢
      cases h1 : readAt rp.locationList cur with
      | error e => rw [h1] at h; cases h
      | ok name =>
        rw [h1] at h
        simp only [] at h ⊢
        cases h2 : readAt par cur with
        | error e => rw [h2] at h; cases h
        | ok nxt =>
          rw [h2] at h
          simp only [] at h ⊢
          exact ih nxt _ r h

/-- More fuel does not change a result of `shortestPath`. -/
theorem shortestPath_mono (rp : RoutePlanner) (origin destination : String) (f k : Nat)
    (r : List String × Int) (h : rp.shortestPath f origin destination = Except.ok r) :
    rp.shortestPath (f + k) origin destination = Except.ok r := by
  unfold RoutePlanner.shortestPath at h ⊢
  simp only [bind, Except.bind] at h ⊢
  cases h1 : writeAt (List.replicate rp.locationList.length INF_VALUE)
      (rp.indexOfLocation origin) 0 with
  | error e => rw [h1] at h; cases h
  | ok md1 =>
    rw [h1] at h
    simp only [] at h ⊢
    cases h2 : rp.dijkstraLoop (sizeMinusOne rp.locationList.length) md1
        (List.replicate rp.locationList.length (-1))
        (List.replicate rp.locationList.length false) with
    | error e => rw [h2] at h; cases h
    | ok st =>
      rw [h2] at h
      simp only [] at h ⊢
      cases h3 : rp.walkParents st.2.1 f (rp.indexOfLocation destination) [] with
      | error e => rw [h3] at h; cases h
      | ok path =>
        rw [h3] at h
        rw [walkParents_mono rp st.2.1 k f _ _ path h3]
        exact h

/-- The contract of `shortestPath` on a planner built with non-negative costs
whose total is below `INF_VALUE`: it returns; the cost is at most `INF_VALUE`,
is a lower bound of the cost of every path, is finite when a path exists, and a
finite cost is the cost of the simple path whose names are returned. -/
theorem shortestPath_spec (names : List String) (calls : List (String × String × Int))
    (rp : RoutePlanner) (origin destination : String)
    (hb : build names calls = Except.ok rp)
    (hnn : ∀ c, c ∈ calls → 0 ≤ c.2.2) (htot : totalCost calls < INF_VALUE)
    (ho : origin ∈ names) (hd : destination ∈ names) (fuel : Nat)
    (hf : names.length ≤ fuel) :
    ∃ path cost, rp.shortestPath fuel origin destination = Except.ok (path, cost) ∧
      cost ≤ INF_VALUE ∧
      (∀ l, rp.IsRoute (rp.pos origin) (rp.pos destination) l →
        cost < INF_VALUE ∧ cost ≤ pathCost rp.cell l) ∧
      (cost < INF_VALUE → ∃ l, l.Nodup ∧ rp.IsRoute (rp.pos origin) (rp.pos destination) l ∧
        pathCost rp.cell l = cost ∧ path = l.map rp.nameAt) := by
  obtain ⟨hwf, _, _⟩ := build_facts names calls rp hb
  have hlen : rp.locationList.length = names.length := by rw [hwf.1]
  have ho2 : origin ∈ rp.locationList := by rw [hwf.1]; exact ho
  have hd2 : destination ∈ rp.locationList := by rw [hwf.1]; exact hd
  have hs : rp.pos origin < rp.locationList.length := List.indexOf_lt_length.mpr ho2
  have ht : rp.pos destination < rp.locationList.length := List.indexOf_lt_length.mpr hd2
  obtain ⟨τ, B, hS, hM, hcl, r1, r2⟩ :=
    shortestPath_metric names calls rp origin destination hb hnn htot ho hd
  have hs0 : τ.d (rp.pos origin) < INF_VALUE := by
    rw [hS.src.1]; unfold INF_VALUE; omega
  have hroute : ∀ l, rp.IsRoute (rp.pos origin) (rp.pos destination) l →
      τ.d (rp.pos destination) < INF_VALUE ∧ τ.d (rp.pos destination) ≤ pathCost rp.cell l := by
    intro l hl
    obtain ⟨c1, c2⟩ := closed_path_le rp.locationList.length rp.cell τ.d hcl l _ _
      hl.1 hl.2.1 hl.2.2.1 hl.2.2.2 hs0
    rw [hS.src.1] at c2
    exact ⟨c1, by linarith⟩
  by_cases hlt : τ.d (rp.pos destination) < INF_VALUE
  · refine ⟨_, _, r2 hlt fuel (by rw [hlen]; exact hf), le_of_lt hlt, hroute, fun _ => ?_⟩
    have hg := hS.route _ ht hlt
    obtain ⟨g1, g2⟩ := goodBack_route rp _ _ τ _ hg
    refine ⟨_, g2, g1, ?_, rfl⟩
    rw [pathCost_reverse]
    exact hM.cost _ ht hlt
  · have h1 : 1 ≤ fuel := by
      have : 0 < names.length := by rw [← hlen]; omega
      omega
    refine ⟨_, _, r1 hlt fuel h1, le_refl _, fun l hl => absurd (hroute l hl).1 hlt,
      fun h => absurd h (lt_irrefl _)⟩

/-- A path read backwards is a path of the same cost when the matrix is symmetric. -/
theorem isRoute_reverse (rp : RoutePlanner) (hsym : ∀ i j, rp.cell i j = rp.cell j i)
    (a b : Nat) (l : List Nat) (h : rp.IsRoute a b l) :
    rp.IsRoute b a l.reverse ∧ pathCost rp.cell l.reverse = pathCost rp.cell l := by
  refine ⟨⟨?_, ?_, ?_, ?_⟩, ?_⟩
  · rw [List.head?_reverse]; exact h.2.1
  · rw [List.getLast?_reverse]; exact h.1
  · intro x hx; exact h.2.2.1 x (List.mem_reverse.mp hx)
  · rw [finiteSteps_reverse, flipW_of_symm rp.cell hsym]; exact h.2.2.2
  · rw [pathCost_reverse, flipW_of_symm rp.cell hsym]

/-- With distinct names, the names of a path of indices form a chain of
finite entries of the same summed cost. -/
theorem names_of_route (rp : RoutePlanner) (hnd : rp.locationList.Nodup) :
    ∀ l : List Nat, (∀ x, x ∈ l → x < rp.locationList.length) → FiniteSteps rp.cell l →
      List.Chain' (fun a b => rp.entry a b < INF_VALUE) (l.map rp.nameAt) ∧
      rp.namePathCost (l.map rp.nameAt) = pathCost rp.cell l := by
  intro l
  induction l with
  | nil => intro _ _; exact ⟨List.chain'_nil, rfl⟩
  | cons a rest ih =>
    intro hb hfs
    cases rest with
    | nil => exact ⟨List.chain'_singleton _, rfl⟩
    | cons b rest2 =>
      have h1 := List.chain'_cons.mp hfs
      have ha := hb a (List.mem_cons_self _ _)
      have hbb := hb b (List.mem_cons_of_mem _ (List.mem_cons_self _ _))
      obtain ⟨i1, i2⟩ := ih (fun x hx => hb x (List.mem_cons_of_mem _ hx)) h1.2
      have hent : rp.entry (rp.nameAt a) (rp.nameAt b) = rp.cell a b := by
        unfold RoutePlanner.entry
        rw [pos_nameAt rp a hnd ha, pos_nameAt rp b hnd hbb]
      refine ⟨?_, ?_⟩
      · show List.Chain' _ (rp.nameAt a :: rp.nameAt b :: rest2.map rp.nameAt)
        refine List.chain'_cons.mpr ⟨?_, i1⟩
        rw [hent]; exact h1.1
      · show rp.entry (rp.nameAt a) (rp.nameAt b) +
            rp.namePathCost ((b :: rest2).map rp.nameAt) = rp.cell a b + pathCost rp.cell (b :: rest2)
        rw [hent, i2]

/-- C1: on every planner built by the constructor and `connectCities` calls with
non-negative costs whose total is below `INF_VALUE` (the names need not even
be distinct), for every origin and destination of the location list and
enough fuel for the reconstruction loop, `shortestPath` returns, and the
returned cost is at most the summed edge cost of every path from origin to
destination whose steps use cost-matrix entries below `INF_VALUE`. -/
theorem shortestPath_cost_le_every_path (names : List String)
    (calls : List (String × String × Int)) (origin destination : String) (fuel : Nat)
    (hnn : ∀ c, c ∈ calls → 0 ≤ c.2.2) (htot : totalCost calls < INF_VALUE)
    (ho : origin ∈ names) (hd : destination ∈ names) (hf : names.length ≤ fuel) :
    ∃ rp path cost, build names calls = Except.ok rp ∧
      rp.shortestPath fuel origin destination = Except.ok (path, cost) ∧
      ∀ l, rp.IsRoute (rp.pos origin) (rp.pos destination) l → cost ≤ pathCost rp.cell l := by
  obtain ⟨rp, hb, _, _⟩ := build_bound names calls
  obtain ⟨path, cost, h1, _, h3, _⟩ :=
    shortestPath_spec names calls rp origin destination hb hnn htot ho hd fuel hf
  exact ⟨rp, path, cost, hb, h1, fun l hl => (h3 l hl).2⟩

/-- C2: on a planner built from distinct names and `connectCities` calls with
non-negative costs whose total is below `INF_VALUE`, when the destination is
reachable from the origin over finite-cost edges, `shortestPath` returns a path
that starts with the origin, ends with the destination, whose consecutive names
all have a cost-matrix entry below `INF_VALUE`, and whose summed entries equal
the returned cost. -/
theorem shortestPath_path_valid (names : List String) (calls : List (String × String × Int))
    (rp : RoutePlanner) (origin destination : String) (fuel : Nat)
    (hb : build names calls = Except.ok rp) (hnd : names.Nodup)
    (hnn : ∀ c, c ∈ calls → 0 ≤ c.2.2) (htot : totalCost calls < INF_VALUE)
    (ho : origin ∈ names) (hd : destination ∈ names)
    (hreach : rp.Reachable origin destination) (hf : names.length ≤ fuel) :
    ∃ path cost, rp.shortestPath fuel origin destination = Except.ok (path, cost) ∧
      path.head? = some origin ∧ path.getLast? = some destination ∧
      List.Chain' (fun a b => rp.entry a b < INF_VALUE) path ∧
      rp.namePathCost path = cost := by
  obtain ⟨hwf, _, _⟩ := build_facts names calls rp hb
  have hnd2 : rp.locationList.Nodup := by rw [hwf.1]; exact hnd
  have ho2 : origin ∈ rp.locationList := by rw [hwf.1]; exact ho
  have hd2 : destination ∈ rp.locationList := by rw [hwf.1]; exact hd
  obtain ⟨path, cost, h1, _, h3, h4⟩ :=
    shortestPath_spec names calls rp origin destination hb hnn htot ho hd fuel hf
  obtain ⟨l0, hl0⟩ := hreach
  obtain ⟨l, _, hl, hc, hp⟩ := h4 (h3 l0 hl0).1
  obtain ⟨n1, n2⟩ := names_of_route rp hnd2 l hl.2.2.1 hl.2.2.2
  refine ⟨path, cost, h1, ?_, ?_, ?_, ?_⟩
  · rw [hp, List.head?_map, hl.1]
    show some (rp.nameAt (rp.pos origin)) = _
    rw [nameAt_pos rp origin ho2]
  · rw [hp, List.getLast?_map, hl.2.1]
    show some (rp.nameAt (rp.pos destination)) = _
    rw [nameAt_pos rp destination hd2]
  · rw [hp]; exact n1
  · rw [hp, n2, hc]

/-- C4: on every reachable planner (any names, any calls, any costs) and every
name `x` of the location list, `shortestPath(x, x)` returns the path `[x]` and
the cost 0 (one round of fuel is enough). -/
theorem shortestPath_self (names : List String) (calls : List (String × String × Int))
    (x : String) (fuel : Nat) (hx : x ∈ names) (hf : 1 ≤ fuel) :
    ∃ rp, build names calls = Except.ok rp ∧
      rp.shortestPath fuel x x = Except.ok ([x], 0) := by
  obtain ⟨rp, hb, hwf, _⟩ := build_bound names calls
  obtain ⟨_, _, _, _, _, h4⟩ := shortestPath_any names rp x x hwf hx hx
  exact ⟨rp, hb, h4 rfl fuel hf⟩

/-- C5: on every planner built from `connectCities` calls with non-negative
costs whose total is below `INF_VALUE`, and for every two names `a`, `b` of the
location list, `shortestPath(a, b)` and `shortestPath(b, a)` both return, with
the same cost. -/
theorem shortestPath_cost_symmetric (names : List String)
    (calls : List (String × String × Int)) (a b : String) (fuel : Nat)
    (hnn : ∀ c, c ∈ calls → 0 ≤ c.2.2) (htot : totalCost calls < INF_VALUE)
    (ha : a ∈ names) (hb : b ∈ names) (hf : names.length ≤ fuel) :
    ∃ rp p1 p2 cost, build names calls = Except.ok rp ∧
      rp.shortestPath fuel a b = Except.ok (p1, cost) ∧
      rp.shortestPath fuel b a = Except.ok (p2, cost) := by
  obtain ⟨rp, hbd, _, _⟩ := build_bound names calls
  obtain ⟨_, hsym, _⟩ := build_facts names calls rp hbd
  obtain ⟨p1, c1, e1, le1, lo1, ex1⟩ :=
    shortestPath_spec names calls rp a b hbd hnn htot ha hb fuel hf
  obtain ⟨p2, c2, e2, le2, lo2, ex2⟩ :=
    shortestPath_spec names calls rp b a hbd hnn htot hb ha fuel hf
  have h12 : c1 < INF_VALUE → c2 ≤ c1 := by
    intro h
    obtain ⟨l, _, hl, hc, _⟩ := ex1 h
    obtain ⟨r1, r2⟩ := isRoute_reverse rp hsym _ _ l hl
    have := (lo2 _ r1).2
    rw [r2, hc] at this
    exact this
  have h21 : c2 < INF_VALUE → c1 ≤ c2 := by
    intro h
    obtain ⟨l, _, hl, hc, _⟩ := ex2 h
    obtain ⟨r1, r2⟩ := isRoute_reverse rp hsym _ _ l hl
    have := (lo1 _ r1).2
    rw [r2, hc] at this
    exact this
  have heq : c1 = c2 := by
    by_cases h1 : c1 < INF_VALUE
    · have := h12 h1
      have := h21 (lt_of_le_of_lt this h1)
      linarith
    · by_cases h2 : c2 < INF_VALUE
      · have := h21 h2
        exact absurd (lt_of_le_of_lt this h2) h1
      · linarith [not_lt.mp h1, not_lt.mp h2]
  refine ⟨rp, p1, p2, c1, hbd, e1, ?_⟩
  rw [heq]; exact e2

/-- C6: on every built planner (whatever the costs), when no path of
finite-cost edges joins origin to destination, `shortestPath` returns the cost
`INF_VALUE`, which is strictly positive. -/
theorem shortestPath_unreachable_cost (names : List String)
    (calls : List (String × String × Int)) (rp : RoutePlanner) (origin destination : String)
    (fuel : Nat) (hb : build names calls = Except.ok rp)
    (ho : origin ∈ names) (hd : destination ∈ names)
    (hun : ¬ rp.Reachable origin destination) (hf : 1 ≤ fuel) :
    ∃ path, rp.shortestPath fuel origin destination = Except.ok (path, INF_VALUE) ∧
      0 < INF_VALUE := by
  obtain ⟨hwf, _, _⟩ := build_facts names calls rp hb
  have hd2 : destination ∈ rp.locationList := by rw [hwf.1]; exact hd
  obtain ⟨τ, B, hS, h1, _, _⟩ := shortestPath_any names rp origin destination hwf ho hd
  have hnlt : ¬ τ.d (rp.pos destination) < INF_VALUE := by
    intro hlt
    have hg := hS.route _ (List.indexOf_lt_length.mpr hd2) hlt
    exact hun ⟨_, (goodBack_route rp _ _ τ _ hg).1⟩
  exact ⟨[destination], h1 hnlt fuel hf, by unfold INF_VALUE; omega⟩

/-- C7: on every built planner (whatever the costs), when the destination is
not reachable from the origin over finite-cost edges, the path returned by
`shortestPath` is exactly `[destination]`: it is not empty and does not contain
the origin. -/
theorem shortestPath_unreachable_path (names : List String)
    (calls : List (String × String × Int)) (rp : RoutePlanner) (origin destination : String)
    (fuel : Nat) (hb : build names calls = Except.ok rp)
    (ho : origin ∈ names) (hd : destination ∈ names)
    (hun : ¬ rp.Reachable origin destination) (hf : 1 ≤ fuel) :
    ∃ cost, rp.shortestPath fuel origin destination = Except.ok ([destination], cost) ∧
      origin ∉ [destination] := by
  obtain ⟨hwf, _, _⟩ := build_facts names calls rp hb
  have ho2 : origin ∈ rp.locationList := by rw [hwf.1]; exact ho
  have hd2 : destination ∈ rp.locationList := by rw [hwf.1]; exact hd
  obtain ⟨τ, B, hS, h1, _, _⟩ := shortestPath_any names rp origin destination hwf ho hd
  have hnlt : ¬ τ.d (rp.pos destination) < INF_VALUE := by
    intro hlt
    have hg := hS.route _ (List.indexOf_lt_length.mpr hd2) hlt
    exact hun ⟨_, (goodBack_route rp _ _ τ _ hg).1⟩
  refine ⟨INF_VALUE, h1 hnlt fuel hf, fun hmem => hun ?_⟩
  have heq : origin = destination := List.mem_singleton.mp hmem
  subst heq
  exact ⟨[rp.pos origin], rfl, rfl,
    fun x hx => by rw [List.mem_singleton.mp hx]; exact List.indexOf_lt_length.mpr ho2,
    List.chain'_singleton _⟩

/-- A set of nodes closed under finite-cost steps contains the end of every
path that starts in it. -/
theorem route_stays (rp : RoutePlanner) (P : Nat → Prop)
    (hP : ∀ x y, P x → y < rp.locationList.length → rp.cell x y < INF_VALUE → P y) :
    ∀ (l : List Nat) (a b : Nat), rp.IsRoute a b l → P a → P b := by
  intro l
  induction l with
  | nil => intro a b h; exact absurd h.1 (by simp)
  | cons x rest ih =>
    intro a b h hPa
    obtain ⟨h1, h2, h3, h4⟩ := h
    simp only [List.head?_cons, Option.some.injEq] at h1
    subst h1
    cases rest with
    | nil =>
      simp only [List.getLast?_singleton, Option.some.injEq] at h2
      subst h2
      exact hPa
    | cons y rest2 =>
      have hc := List.chain'_cons.mp h4
      rw [List.getLast?_cons_cons] at h2
      have hy := h3 y (List.mem_cons_of_mem _ (List.mem_cons_self _ _))
      exact ih y b ⟨rfl, h2, fun z hz => h3 z (List.mem_cons_of_mem _ hz), hc.2⟩
        (hP x y hPa hy hc.1)

/-- The result of the demo query, computed. -/
theorem demo_eval :
    (build demoNames demoCalls >>= fun rp => rp.shortestPath 4 "Boston" "Atlanta")
      = Except.ok (["Boston", "Miami", "Dallas", "Atlanta"], 3130) := by
  decide!

/-- C3: on the demo graph of `main`, `shortestPath("Boston", "Atlanta")` returns
the path Boston, Miami, Dallas, Atlanta and the cost 3130 (for any fuel of at
least 4); every path from Boston to Atlanta costs at least 3130, and a simple
path of cost 3130 exists, so 3130 is the minimum over the simple paths. -/
theorem demo_boston_atlanta (fuel : Nat) (hf : 4 ≤ fuel) :
    ∃ rp, build demoNames demoCalls = Except.ok rp ∧
      rp.shortestPath fuel "Boston" "Atlanta"
        = Except.ok (["Boston", "Miami", "Dallas", "Atlanta"], 3130) ∧
      (∀ l, rp.IsRoute (rp.pos "Boston") (rp.pos "Atlanta") l → 3130 ≤ pathCost rp.cell l) ∧
      ∃ l, l.Nodup ∧ rp.IsRoute (rp.pos "Boston") (rp.pos "Atlanta") l ∧
        pathCost rp.cell l = 3130 := by
  obtain ⟨rp, hb, _, _⟩ := build_bound demoNames demoCalls
  have hev := demo_eval
  rw [hb] at hev
  have hev4 : rp.shortestPath 4 "Boston" "Atlanta"
      = Except.ok (["Boston", "Miami", "Dallas", "Atlanta"], 3130) := hev
  have hmono : ∀ k, rp.shortestPath (4 + k) "Boston" "Atlanta"
      = Except.ok (["Boston", "Miami", "Dallas", "Atlanta"], 3130) :=
    fun k => shortestPath_mono rp _ _ 4 k _ hev4
  obtain ⟨path, cost, h1, _, h3, h4⟩ := shortestPath_spec demoNames demoCalls rp
    "Boston" "Atlanta" hb (by decide) (by decide) (by decide) (by decide) 6 (by decide)
  have h6 := hmono 2
  rw [h1] at h6
  have hc : cost = 3130 := by
    have := Except.ok.inj h6
    exact (Prod.mk.inj this).2
  subst hc
  refine ⟨rp, hb, ?_, fun l hl => (h3 l hl).2, ?_⟩
  · obtain ⟨k, rfl⟩ := Nat.exists_eq_add_of_le hf
    exact hmono k
  · obtain ⟨l, g1, g2, g3, _⟩ := h4 (by unfold INF_VALUE; omega)
    exact ⟨l, g1, g2, g3⟩

theorem demo_boston_atlanta_witness :
    ∃ rp, build demoNames demoCalls = Except.ok rp ∧
      rp.shortestPath 4 "Boston" "Atlanta"
        = Except.ok (["Boston", "Miami", "Dallas", "Atlanta"], 3130) ∧
      (∀ l, rp.IsRoute (rp.pos "Boston") (rp.pos "Atlanta") l → 3130 ≤ pathCost rp.cell l) ∧
      ∃ l, l.Nodup ∧ rp.IsRoute (rp.pos "Boston") (rp.pos "Atlanta") l ∧
        pathCost rp.cell l = 3130 :=
  demo_boston_atlanta 4 (by decide)

theorem shortestPath_cost_le_every_path_witness :
    (∀ c, c ∈ [("a", "b", (3 : Int)), ("b", "c", 4), ("a", "c", 9)] → 0 ≤ c.2.2) ∧
    totalCost [("a", "b", 3), ("b", "c", 4), ("a", "c", 9)] < INF_VALUE ∧
    ∃ rp path cost,
      build ["a", "b", "c"] [("a", "b", 3), ("b", "c", 4), ("a", "c", 9)] = Except.ok rp ∧
      rp.shortestPath 3 "a" "c" = Except.ok (path, cost) ∧
      ∀ l, rp.IsRoute (rp.pos "a") (rp.pos "c") l → cost ≤ pathCost rp.cell l :=
  ⟨by decide, by decide,
    shortestPath_cost_le_every_path ["a", "b", "c"] [("a", "b", 3), ("b", "c", 4), ("a", "c", 9)]
      "a" "c" 3 (by decide) (by decide) (by decide) (by decide) (by decide)⟩

theorem shortestPath_path_valid_witness :
    build ["a", "b", "c"] [("a", "b", 3), ("b", "c", 4), ("a", "c", 9)]
      = Except.ok (RoutePlanner.mk ["a", "b", "c"] [[0, 3, 9], [3, 0, 4], [9, 4, 0]]) ∧
    (RoutePlanner.mk ["a", "b", "c"] [[0, 3, 9], [3, 0, 4], [9, 4, 0]]).Reachable "a" "c" ∧
    ∃ path cost,
      (RoutePlanner.mk ["a", "b", "c"] [[0, 3, 9], [3, 0, 4], [9, 4, 0]]).shortestPath 3 "a" "c"
        = Except.ok (path, cost) ∧
      path.head? = some "a" ∧ path.getLast? = some "c" ∧
      List.Chain' (fun x y =>
        (RoutePlanner.mk ["a", "b", "c"] [[0, 3, 9], [3, 0, 4], [9, 4, 0]]).entry x y
          < INF_VALUE) path ∧
      (RoutePlanner.mk ["a", "b", "c"] [[0, 3, 9], [3, 0, 4], [9, 4, 0]]).namePathCost path
        = cost :=
  ⟨by decide, ⟨[0, 2], by decide, by decide, by decide,
      List.chain'_cons.mpr ⟨by decide, List.chain'_singleton _⟩⟩,
    shortestPath_path_valid ["a", "b", "c"] [("a", "b", 3), ("b", "c", 4), ("a", "c", 9)]
      (RoutePlanner.mk ["a", "b", "c"] [[0, 3, 9], [3, 0, 4], [9, 4, 0]]) "a" "c" 3
      (by decide) (by decide) (by decide) (by decide) (by decide) (by decide)
      ⟨[0, 2], by decide, by decide, by decide,
      List.chain'_cons.mpr ⟨by decide, List.chain'_singleton _⟩⟩ (by decide)⟩

theorem shortestPath_self_witness :
    ∃ rp, build ["a", "b"] [("a", "b", -5)] = Except.ok rp ∧
      rp.shortestPath 1 "a" "a" = Except.ok (["a"], 0) :=
  shortestPath_self ["a", "b"] [("a", "b", -5)] "a" 1 (by decide) (by decide)

theorem shortestPath_cost_symmetric_witness :
    ∃ rp p1 p2 cost,
      build ["a", "b", "c"] [("a", "b", 3), ("b", "c", 4), ("a", "c", 9)] = Except.ok rp ∧
      rp.shortestPath 3 "a" "c" = Except.ok (p1, cost) ∧
      rp.shortestPath 3 "c" "a" = Except.ok (p2, cost) :=
  shortestPath_cost_symmetric ["a", "b", "c"] [("a", "b", 3), ("b", "c", 4), ("a", "c", 9)]
    "a" "c" 3 (by decide) (by decide) (by decide) (by decide) (by decide)

/-- In the planner over `a`, `b`, `c` with the single edge `a - b`, node `c`
is not reachable from `a`. -/
theorem unreachable_example :
    ¬ (RoutePlanner.mk ["a", "b", "c"]
        [[0, 3, INF_VALUE], [3, 0, INF_VALUE], [INF_VALUE, INF_VALUE, 0]]).Reachable "a" "c" := by
  rintro ⟨l, hl⟩
  have h := route_stays _ (fun x => x = 0 ∨ x = 1) (by
    intro x y hx hy hc
    have hy3 : y < 3 := hy
    rcases hx with rfl | rfl <;> interval_cases y <;> first | exact Or.inl rfl | exact Or.inr rfl | exact absurd hc (by decide)) l _ _ hl (Or.inl (by decide))
  have h2 : (RoutePlanner.mk ["a", "b", "c"]
        [[0, 3, INF_VALUE], [3, 0, INF_VALUE], [INF_VALUE, INF_VALUE, 0]]).pos "c" = 2 := by
    decide
  rw [h2] at h
  omega

theorem shortestPath_unreachable_cost_witness :
    ∃ path, (RoutePlanner.mk ["a", "b", "c"]
        [[0, 3, INF_VALUE], [3, 0, INF_VALUE], [INF_VALUE, INF_VALUE, 0]]).shortestPath 1 "a" "c"
      = Except.ok (path, INF_VALUE) ∧ 0 < INF_VALUE :=
  shortestPath_unreachable_cost ["a", "b", "c"] [("a", "b", 3)] _ "a" "c" 1
    (by decide) (by decide) (by decide) unreachable_example (by decide)

theorem shortestPath_unreachable_path_witness :
    ∃ cost, (RoutePlanner.mk ["a", "b", "c"]
        [[0, 3, INF_VALUE], [3, 0, INF_VALUE], [INF_VALUE, INF_VALUE, 0]]).shortestPath 1 "a" "c"
      = Except.ok (["c"], cost) ∧ "a" ∉ ["c"] :=
  shortestPath_unreachable_path ["a", "b", "c"] [("a", "b", 3)] _ "a" "c" 1
    (by decide) (by decide) (by decide) unreachable_example (by decide)

/-- C11 (evaluation at the failing input): after the constructor on `a`, `b`
and the call `connectCities("a", "a", 5)`, which names the same location twice,
the diagonal entry `costMatrix[0][0]` is 5, not 0. -/
theorem diagonal_overwritten_by_self_connect :
    ∃ rp, build ["a", "b"] [("a", "a", 5)] = Except.ok rp ∧ rp.cell 0 0 = 5 ∧
      rp.costMatrix = [[5, INF_VALUE], [INF_VALUE, 0]] :=
  ⟨RoutePlanner.mk ["a", "b"] [[5, INF_VALUE], [INF_VALUE, 0]], by decide, by decide, rfl⟩

theorem square_rows (n : Nat) (m : List (List Int)) (h : Square n m) :
    ∀ row, row ∈ m → row.length = n := by
  intro row hrow
  obtain ⟨i, hi, rfl⟩ := List.getElem_of_mem hrow
  have := h.2 i (by rw [← h.1]; exact hi)
  rw [List.getD_eq_getElem _ _ hi] at this
  exact this

/-- C12: for every list of `N` names the constructor returns a planner whose
location list is the input list, whose matrix has exactly `N` rows of exactly
`N` entries, with 0 at every diagonal entry and `INF_VALUE` at every other. -/
theorem construct_matrix (names : List String) :
    ∃ rp, RoutePlanner.construct names = Except.ok rp ∧ rp.locationList = names ∧
      rp.costMatrix.length = names.length ∧
      (∀ row, row ∈ rp.costMatrix → row.length = names.length) ∧
      ∀ i j, i < names.length → j < names.length →
        rp.cell i j = if i = j then 0 else INF_VALUE := by
  obtain ⟨rp, h1, h2, h3⟩ := construct_spec names
  refine ⟨rp, h1, h2.1, h2.2.1, square_rows _ _ h2.2, fun i j hi _ => ?_⟩
  rw [h3]
  by_cases hij : i = j
  · rw [if_pos ⟨hij, hi⟩, if_pos hij]
  · rw [if_neg (fun h => hij h.1), if_neg hij]

/-- The index `std::find` stops at is the first occurrence of the name. -/
theorem pos_first (l : List String) (name : String) (h : name ∈ l) :
    l.indexOf name < l.length ∧ l.getD (l.indexOf name) "" = name ∧
      ∀ j, j < l.indexOf name → l.getD j "" ≠ name := by
  have hlt : l.indexOf name < l.length := List.indexOf_lt_length.mpr h
  refine ⟨hlt, ?_, ?_⟩
  · rw [List.getD_eq_getElem _ _ hlt]
    exact List.getElem_indexOf hlt
  · intro j hj
    induction l generalizing j with
    | nil => exact absurd h (List.not_mem_nil _)
    | cons x rest ih =>
      by_cases hx : x = name
      · subst hx
        rw [List.indexOf_cons_self] at hj
        exact absurd hj (Nat.not_lt_zero j)
      · have hne : ¬ name = x := fun e => hx e.symm
        rw [List.indexOf_cons_ne _ hx] at hj
        cases j with
        | zero => simpa using hx
        | succ j2 =>
          have hmem : name ∈ rest := by
            rcases List.mem_cons.mp h with h1 | h1
            · exact absurd h1 hne
            · exact h1
          have := ih hmem (List.indexOf_lt_length.mpr hmem) j2 (by omega)
          simpa using this

/-- The index of a known name is not the index of a later duplicate. -/
theorem pos_ne_later_duplicate (rp : RoutePlanner) (a : String) (k : Nat)
    (ha : a ∈ rp.locationList) (hk : ∃ j, j < k ∧ rp.nameAt j = rp.nameAt k) :
    rp.pos a ≠ k := by
  intro h
  obtain ⟨j, hj, hjk⟩ := hk
  obtain ⟨_, h2, h3⟩ := pos_first rp.locationList a ha
  have hj2 : j < rp.locationList.indexOf a := by
    have : rp.locationList.indexOf a = k := h
    omega
  apply h3 j hj2
  have e1 : rp.locationList.getD j "" = rp.nameAt k := hjk
  rw [e1, ← h]
  exact h2

/-- C13: for every location list (duplicates allowed), every reachable planner
over it and every name, `indexOfLocation` returns the smallest index holding
the name when the name occurs, and `-1` exactly when it occurs nowhere;
and every `connectCities` call leaves the row and the column of a later
duplicate (an index whose name already occurs at a smaller index) unwritten. -/
theorem indexOfLocation_first_occurrence (names : List String)
    (calls : List (String × String × Int)) (name a b : String) (c : Int) :
    ∃ rp, build names calls = Except.ok rp ∧
      (name ∈ names → ∃ i : Nat, rp.indexOfLocation name = (i : Int) ∧ i < names.length ∧
        rp.nameAt i = name ∧ ∀ j, j < i → rp.nameAt j ≠ name) ∧
      (rp.indexOfLocation name = -1 ↔ name ∉ names) ∧
      ∃ rp2, rp.connectCities a b c = Except.ok rp2 ∧
        ∀ k, k < names.length → (∃ j, j < k ∧ rp.nameAt j = rp.nameAt k) →
          ∀ y, rp2.cell k y = rp.cell k y ∧ rp2.cell y k = rp.cell y k := by
  obtain ⟨rp, hb, hwf, _⟩ := build_symmetric names calls
  have hn := hwf.1
  refine ⟨rp, hb, fun hmem => ?_, ?_, ?_⟩
  · have hmem2 : name ∈ rp.locationList := by rw [hn]; exact hmem
    obtain ⟨p1, p2, p3⟩ := pos_first rp.locationList name hmem2
    refine ⟨rp.pos name, (indexOfLocation_mem rp name hmem2).1, by rw [← hn]; exact p1, p2, p3⟩
  · constructor
    · intro h hmem
      have hmem2 : name ∈ rp.locationList := by rw [hn]; exact hmem
      exact (indexOfLocation_ne_neg_one rp name).mpr hmem2 h
    · intro h
      exact indexOfLocation_not_mem rp name (by rw [hn]; exact h)
  · obtain ⟨rp2, hc, _⟩ := connectCities_total names rp a b c hwf
    refine ⟨rp2, hc, fun k _ hdup y => ?_⟩
    rcases connectCities_cases names rp rp2 a b c hwf hc with ⟨h1, _⟩ | ⟨ha, hbm, _, h4⟩
    · rw [h1]; exact ⟨rfl, rfl⟩
    · have ka := pos_ne_later_duplicate rp a k ha hdup
      have kb := pos_ne_later_duplicate rp b k hbm hdup
      rw [h4, h4]
      constructor
      · rw [if_neg]
        rintro (⟨e, _⟩ | ⟨e, _⟩)
        · exact ka e.symm
        · exact kb e.symm
      · rw [if_neg]
        rintro (⟨_, e⟩ | ⟨_, e⟩)
        · exact kb e.symm
        · exact ka e.symm

/-- C16: on every reachable planner, a `connectCities(a, b, cost)` call with
both names in the location list succeeds and leaves the location list, the
shape of the matrix (`N` rows of `N` entries) and every entry other than
`[idx a][idx b]` and `[idx b][idx a]` unchanged. -/
theorem connectCities_frame (names : List String) (calls : List (String × String × Int))
    (a b : String) (cost : Int) (ha : a ∈ names) (hb : b ∈ names) :
    ∃ rp rp2, build names calls = Except.ok rp ∧
      rp.connectCities a b cost = Except.ok rp2 ∧
      rp2.locationList = rp.locationList ∧
      rp2.costMatrix.length = names.length ∧
      (∀ row, row ∈ rp2.costMatrix → row.length = names.length) ∧
      ∀ x y, ¬ ((x = rp.pos a ∧ y = rp.pos b) ∨ (x = rp.pos b ∧ y = rp.pos a)) →
        rp2.cell x y = rp.cell x y := by
  obtain ⟨rp, hbd, hwf, _⟩ := build_symmetric names calls
  obtain ⟨rp2, h1, h2, h3⟩ := connectCities_known names rp a b cost hwf
    (by rw [hwf.1]; exact ha) (by rw [hwf.1]; exact hb)
  refine ⟨rp, rp2, hbd, h1, by rw [h2.1, hwf.1], h2.2.1, square_rows _ _ h2.2,
    fun x y hxy => ?_⟩
  rw [h3, if_neg hxy]

theorem connectCities_frame_witness :
    ∃ rp rp2, build ["a", "b", "c"] [("a", "c", 4)] = Except.ok rp ∧
      rp.connectCities "a" "b" 7 = Except.ok rp2 ∧
      rp2.locationList = rp.locationList ∧
      rp2.costMatrix.length = ["a", "b", "c"].length ∧
      (∀ row, row ∈ rp2.costMatrix → row.length = ["a", "b", "c"].length) ∧
      ∀ x y, ¬ ((x = rp.pos "a" ∧ y = rp.pos "b") ∨ (x = rp.pos "b" ∧ y = rp.pos "a")) →
        rp2.cell x y = rp.cell x y :=
  connectCities_frame ["a", "b", "c"] [("a", "c", 4)] "a" "b" 7 (by decide) (by decide)

/-- C17: for every distance array and visited array of length `N` (the
distances being `int` values, so at most `INF_VALUE`), `selectClosestUnvisited`
returns; it returns `-1` exactly when every unvisited index has distance
`INF_VALUE` (in particular when no index is unvisited); otherwise it returns an
unvisited index whose distance is minimal among the unvisited indices, and the
lowest of the unvisited indices with that distance. -/
theorem selectClosestUnvisited_correct (rp : RoutePlanner) (distArr : List Int)
    (visitedArr : List Bool)
    (hd : distArr.length = rp.locationList.length)
    (hv : visitedArr.length = rp.locationList.length)
    (hr : ∀ x, x ∈ distArr → x ≤ INF_VALUE) :
    ∃ r, rp.selectClosestUnvisited distArr visitedArr = Except.ok r ∧
      (r = -1 ↔ ∀ i, i < rp.locationList.length → visitedArr.getD i false = false →
        distArr.getD i INF_VALUE = INF_VALUE) ∧
      (r ≠ -1 → ∃ u : Nat, r = (u : Int) ∧ u < rp.locationList.length ∧
        visitedArr.getD u false = false ∧
        (∀ v, v < rp.locationList.length → visitedArr.getD v false = false →
          distArr.getD u INF_VALUE ≤ distArr.getD v INF_VALUE) ∧
        (∀ v, v < rp.locationList.length → visitedArr.getD v false = false →
          distArr.getD v INF_VALUE = distArr.getD u INF_VALUE → u ≤ v)) := by
  have hle : ∀ i, i < rp.locationList.length → distArr.getD i INF_VALUE ≤ INF_VALUE := by
    intro i hi
    have hi2 : i < distArr.length := by rw [hd]; exact hi
    rw [List.getD_eq_getElem _ _ hi2]
    exact hr _ (List.getElem_mem hi2)
  obtain ⟨r, h1, h2⟩ := selectClosestUnvisited_spec rp distArr [] visitedArr hd hv
  refine ⟨r, h1, ?_, ?_⟩
  · rcases h2 with ⟨hr1, hst⟩ | ⟨u, hru, hp⟩
    · refine ⟨fun _ i hi hvis => ?_, fun _ => hr1⟩
      rcases hst i hi with h | h
      · have h3 : visitedArr.getD i false = true := h
        rw [hvis] at h3
        exact absurd h3 (by decide)
      · exact le_antisymm (hle i hi) h
    · constructor
      · intro h
        rw [hru] at h
        omega
      · intro h
        have h3 := h u hp.1 hp.2.1
        have h4 : distArr.getD u INF_VALUE < INF_VALUE := hp.2.2.1
        rw [h3] at h4
        exact absurd h4 (lt_irrefl _)
  · intro hne
    rcases h2 with ⟨hr1, _⟩ | ⟨u, hru, hp⟩
    · exact absurd hr1 hne
    · refine ⟨u, hru, hp.1, hp.2.1, hp.2.2.2.1, fun v _ hvis heq => ?_⟩
      by_contra hlt
      have h5 := hp.2.2.2.2 v (by omega) hvis
      have h6 : distArr.getD u INF_VALUE < distArr.getD v INF_VALUE := h5
      rw [heq] at h6
      exact lt_irrefl _ h6

theorem selectClosestUnvisited_correct_witness :
    ∃ r, (RoutePlanner.mk ["a", "b", "c"] []).selectClosestUnvisited [7, 4, 4]
        [false, false, false] = Except.ok r ∧
      (r = -1 ↔ ∀ i, i < (RoutePlanner.mk ["a", "b", "c"] []).locationList.length →
        [false, false, false].getD i false = false →
        ([7, 4, 4] : List Int).getD i INF_VALUE = INF_VALUE) ∧
      (r ≠ -1 → ∃ u : Nat, r = (u : Int) ∧
        u < (RoutePlanner.mk ["a", "b", "c"] []).locationList.length ∧
        [false, false, false].getD u false = false ∧
        (∀ v, v < (RoutePlanner.mk ["a", "b", "c"] []).locationList.length →
          [false, false, false].getD v false = false →
          ([7, 4, 4] : List Int).getD u INF_VALUE ≤ ([7, 4, 4] : List Int).getD v INF_VALUE) ∧
        (∀ v, v < (RoutePlanner.mk ["a", "b", "c"] []).locationList.length →
          [false, false, false].getD v false = false →
          ([7, 4, 4] : List Int).getD v INF_VALUE = ([7, 4, 4] : List Int).getD u INF_VALUE →
          u ≤ v)) :=
  selectClosestUnvisited_correct (RoutePlanner.mk ["a", "b", "c"] []) [7, 4, 4]
    [false, false, false] (by decide) (by decide) (by decide)

/-- The reconstruction loop started at `-1` pushes nothing, whatever the fuel. -/
theorem walkParents_stop (rp : RoutePlanner) (par : List Int) (fuel : Nat)
    (acc : List String) : rp.walkParents par fuel (-1) acc = Except.ok acc := by
  unfold RoutePlanner.walkParents
  rw [if_pos rfl]
  rfl

/-- With less fuel than the chain of parents is long, the reconstruction loop
stops for lack of fuel, not for an index out of range. -/
theorem walkParents_linked_short (rp : RoutePlanner) (par : List Int)
    (hpar : par.length = rp.locationList.length) (l : List Nat) :
    ∀ (cur : Int) (acc : List String) (fuel : Nat), fuel < l.length →
      (∀ x, x ∈ l → x < rp.locationList.length) →
      LinkedFrom (fun v => par.getD v (-1)) cur l →
      rp.walkParents par fuel cur acc = Except.error Fault.outOfFuel := by
  induction l with
  | nil => intro cur acc fuel hf; exact absurd hf (Nat.not_lt_zero _)
  | cons v rest ih =>
    intro cur acc fuel hf hb hl
    obtain ⟨hc, hrest⟩ := hl
    have hv := hb v (List.mem_cons_self _ _)
    unfold RoutePlanner.walkParents
    rw [if_neg (by rw [hc]; omega), hc]
    cases fuel with
    | zero => rfl
    | succ f =>
      simp only []
      rw [readAt_nat rp.locationList v "" hv]
      simp only [bind, Except.bind]
      rw [readAt_nat par v (-1) (by rw [hpar]; exact hv)]
      simp only []
      exact ih (par.getD v (-1)) _ f (by simp at hf; omega)
        (fun x hx => hb x (List.mem_cons_of_mem _ hx)) hrest

/-- After the main loop the parents of the destination form a chain without
repetition that ends at the `-1` marker. -/
theorem final_chain (n : Nat) (w : Nat → Nat → Int) (s t : Nat) (B : Nat → List Nat) (τ : View)
    (ht : t < n) (hS : InvS n w s B τ) :
    ∃ l : List Nat, LinkedFrom τ.p (t : Int) l ∧ l.Nodup ∧ (∀ x, x ∈ l → x < n) ∧
      l.head? = some t ∧ 1 ≤ l.length ∧ l.length ≤ n := by
  by_cases hlt : τ.d t < INF_VALUE
  · have hg := hS.route t ht hlt
    refine ⟨B t, hg.linked, hg.nodup, hg.bound, hg.head, ?_,
      nodup_bounded_length _ _ hg.nodup hg.bound⟩
    cases h : B t with
    | nil => have := hg.head; rw [h] at this; exact absurd this (by simp)
    | cons a tl => simp
  · refine ⟨[t], ⟨rfl, hS.unreached t ht hlt⟩, List.nodup_singleton t, fun x hx => ?_, rfl,
      by simp, by simp; omega⟩
    rw [List.mem_singleton.mp hx]; exact ht

/-- C14: on every reachable planner (the empty location list included), a call
of `shortestPath` whose origin or destination is not in the location list
gets `-1` from the lookup of that name, and the checked accesses
`minDist[-1] = 0` (unknown origin) and `minDist[-1]` (unknown destination) are
out of range; so the call yields the out-of-range fault, for any fuel. -/
theorem shortestPath_unknown_faults (names : List String)
    (calls : List (String × String × Int)) (origin destination : String) (fuel : Nat)
    (h : origin ∉ names ∨ destination ∉ names) :
    ∃ rp, build names calls = Except.ok rp ∧
      (origin ∉ names → rp.indexOfLocation origin = -1 ∧
        ∀ md : List Int, writeAt md (rp.indexOfLocation origin) 0
          = Except.error Fault.outOfRange) ∧
      (destination ∉ names → rp.indexOfLocation destination = -1 ∧
        ∀ md : List Int, readAt md (rp.indexOfLocation destination)
          = Except.error Fault.outOfRange) ∧
      rp.shortestPath fuel origin destination = Except.error Fault.outOfRange := by
  obtain ⟨rp, hb, hwf, _⟩ := build_symmetric names calls
  have hn := hwf.1
  have ho1 : origin ∉ names → rp.indexOfLocation origin = -1 :=
    fun ho => indexOfLocation_not_mem rp origin (by rw [hn]; exact ho)
  have hd1 : destination ∉ names → rp.indexOfLocation destination = -1 :=
    fun hd => indexOfLocation_not_mem rp destination (by rw [hn]; exact hd)
  refine ⟨rp, hb, fun ho => ⟨ho1 ho, fun md => ?_⟩, fun hd => ⟨hd1 hd, fun md => ?_⟩, ?_⟩
  · rw [ho1 ho]; exact writeAt_neg md (-1) 0 (by omega)
  · rw [hd1 hd]; exact readAt_neg md (-1) (by omega)
  · by_cases ho : origin ∈ names
    · have hd : destination ∉ names := by
        rcases h with h | h
        · exact absurd ho h
        · exact h
      have ho2 : origin ∈ rp.locationList := by rw [hn]; exact ho
      obtain ⟨hio, hlo⟩ := indexOfLocation_mem rp origin ho2
      have hsq : Square rp.locationList.length rp.costMatrix := by rw [hn]; exact hwf.2
      obtain ⟨md, par, ex, hloop, _, _, _, _⟩ := dijkstraLoop_exec rp hsq
        (sizeMinusOne rp.locationList.length)
        ((List.replicate rp.locationList.length INF_VALUE).set (rp.pos origin) 0)
        (List.replicate rp.locationList.length (-1))
        (List.replicate rp.locationList.length false) (by simp) (by simp) (by simp)
      unfold RoutePlanner.shortestPath
      simp only []
      rw [hio, hd1 hd, writeAt_nat _ _ _ (by rw [List.length_replicate]; exact hlo)]
      simp only [bind, Except.bind]
      rw [hloop]
      simp only []
      rw [walkParents_stop]
      simp only []
      rw [readAt_neg md (-1) (by omega)]
    · unfold RoutePlanner.shortestPath
      simp only []
      rw [ho1 ho, writeAt_neg _ (-1) 0 (by omega)]
      rfl

theorem shortestPath_unknown_faults_witness :
    ∃ rp, build ["a", "b"] [("a", "b", 3)] = Except.ok rp ∧
      ("a" ∉ ["a", "b"] → rp.indexOfLocation "a" = -1 ∧
        ∀ md : List Int, writeAt md (rp.indexOfLocation "a") 0
          = Except.error Fault.outOfRange) ∧
      ("z" ∉ ["a", "b"] → rp.indexOfLocation "z" = -1 ∧
        ∀ md : List Int, readAt md (rp.indexOfLocation "z")
          = Except.error Fault.outOfRange) ∧
      rp.shortestPath 5 "a" "z" = Except.error Fault.outOfRange :=
  shortestPath_unknown_faults ["a", "b"] [("a", "b", 3)] "a" "z" 5 (Or.inr (by decide))

/-- C18: on every reachable planner (any costs) and for every origin and
destination of the location list, no checked access made by `shortestPath` is
out of range: for any fuel the call does not yield the out-of-range fault, and
with fuel for `N` rounds of the reconstruction loop it returns a result. -/
theorem shortestPath_indices_in_range (names : List String)
    (calls : List (String × String × Int)) (origin destination : String) (fuel : Nat)
    (ho : origin ∈ names) (hd : destination ∈ names) :
    ∃ rp, build names calls = Except.ok rp ∧
      rp.shortestPath fuel origin destination ≠ Except.error Fault.outOfRange ∧
      (names.length ≤ fuel → ∃ r, rp.shortestPath fuel origin destination = Except.ok r) := by
  obtain ⟨rp, hb, hwf, _⟩ := build_symmetric names calls
  obtain ⟨hs, ht, md, par, ex, _, l2, hruns, _, hrun⟩ :=
    shortestPath_run names rp origin destination hwf ho hd
  obtain ⟨B, hS⟩ := runs_invS rp.locationList.length rp.cell (rp.pos origin) hs _ _ _ hruns _
    (init_invS rp.locationList.length rp.cell (rp.pos origin) hs)
  obtain ⟨l, c1, _, c3, _, _, c6⟩ := final_chain _ _ _ _ B _ ht hS
  have hok : l.length ≤ fuel → ∃ r, rp.shortestPath fuel origin destination = Except.ok r := by
    intro hf
    rw [hrun fuel, walkParents_linked rp par l2 l _ [] fuel hf c3 c1]
    exact ⟨_, rfl⟩
  refine ⟨rp, hb, ?_, fun hf => hok (le_trans c6 (by rw [hwf.1]; exact hf))⟩
  by_cases hf : l.length ≤ fuel
  · obtain ⟨r, hr⟩ := hok hf
    rw [hr]
    intro h; cases h
  · rw [hrun fuel, walkParents_linked_short rp par l2 l _ [] fuel (by omega) c3 c1]
    intro h; cases h

theorem shortestPath_indices_in_range_witness :
    ∃ rp, build ["a", "b", "c"] [("a", "b", -3), ("b", "c", 4)] = Except.ok rp ∧
      rp.shortestPath 3 "a" "c" ≠ Except.error Fault.outOfRange ∧
      (["a", "b", "c"].length ≤ 3 → ∃ r, rp.shortestPath 3 "a" "c" = Except.ok r) :=
  shortestPath_indices_in_range ["a", "b", "c"] [("a", "b", -3), ("b", "c", 4)] "a" "c" 3
    (by decide) (by decide)

/-- C19: on every reachable planner (any costs, negative ones included) and for
every origin and destination of the location list, the main loop returns
vectors in which the parents of the destination form a chain `l` without
repetition that meets the `-1` marker after at most `N` nodes; so with fuel for
`N` rounds the reconstruction terminates, and the returned path has between 1
and `N` names, one per node of the chain. -/
theorem parent_links_acyclic (names : List String) (calls : List (String × String × Int))
    (origin destination : String) (ho : origin ∈ names) (hd : destination ∈ names) :
    ∃ rp md par ex l path cost, build names calls = Except.ok rp ∧
      rp.dijkstraLoop (sizeMinusOne names.length)
        ((List.replicate names.length INF_VALUE).set (rp.pos origin) 0)
        (List.replicate names.length (-1)) (List.replicate names.length false)
        = Except.ok (md, par, ex) ∧
      LinkedFrom (fun v => par.getD v (-1)) (rp.pos destination : Int) l ∧
      l.Nodup ∧ (∀ x, x ∈ l → x < names.length) ∧ l.length ≤ names.length ∧
      path = l.reverse.map rp.nameAt ∧ 1 ≤ path.length ∧ path.length ≤ names.length ∧
      ∀ fuel, names.length ≤ fuel →
        rp.shortestPath fuel origin destination = Except.ok (path, cost) := by
  obtain ⟨rp, hb, hwf, _⟩ := build_symmetric names calls
  have hn := hwf.1
  obtain ⟨hs, ht, md, par, ex, _, l2, hruns, hloop, hrun⟩ :=
    shortestPath_run names rp origin destination hwf ho hd
  obtain ⟨B, hS⟩ := runs_invS rp.locationList.length rp.cell (rp.pos origin) hs _ _ _ hruns _
    (init_invS rp.locationList.length rp.cell (rp.pos origin) hs)
  obtain ⟨l, c1, c2, c3, _, c5, c6⟩ := final_chain _ _ _ _ B _ ht hS
  rw [hn] at hloop c3 c6
  refine ⟨rp, md, par, ex, l, l.reverse.map rp.nameAt,
    md.getD (rp.pos destination) INF_VALUE, hb, hloop, c1, c2, c3, c6, rfl,
    by simpa using c5, by simpa using c6, fun fuel hf => ?_⟩
  rw [hrun fuel, walkParents_linked rp par l2 l _ [] fuel (le_trans c6 hf)
    (by rw [hn]; exact c3) c1]
  simp only [bind, Except.bind, List.nil_append, List.map_reverse]

theorem parent_links_acyclic_witness :
    ∃ rp md par ex l path cost,
      build ["a", "b", "c"] [("a", "b", -3), ("b", "c", 4)] = Except.ok rp ∧
      rp.dijkstraLoop (sizeMinusOne ["a", "b", "c"].length)
        ((List.replicate ["a", "b", "c"].length INF_VALUE).set (rp.pos "a") 0)
        (List.replicate ["a", "b", "c"].length (-1))
        (List.replicate ["a", "b", "c"].length false)
        = Except.ok (md, par, ex) ∧
      LinkedFrom (fun v => par.getD v (-1)) (rp.pos "c" : Int) l ∧
      l.Nodup ∧ (∀ x, x ∈ l → x < ["a", "b", "c"].length) ∧
      l.length ≤ ["a", "b", "c"].length ∧
      path = l.reverse.map rp.nameAt ∧ 1 ≤ path.length ∧
      path.length ≤ ["a", "b", "c"].length ∧
      ∀ fuel, ["a", "b", "c"].length ≤ fuel →
        rp.shortestPath fuel "a" "c" = Except.ok (path, cost) :=
  parent_links_acyclic ["a", "b", "c"] [("a", "b", -3), ("b", "c", 4)] "a" "c"
    (by decide) (by decide)

theorem list_eq_map_range (l : List String) :
    l = (List.range l.length).map (fun i => l.getD i "") := by
  apply List.ext_getElem
  · simp
  · intro n h1 h2
    rw [List.getElem_map, List.getElem_range, List.getD_eq_getElem _ _ h1]

theorem flatMap_congr_mem {α β : Type} (l : List α) (f g : α → List β)
    (h : ∀ x, x ∈ l → f x = g x) : l.flatMap f = l.flatMap g := by
  induction l with
  | nil => rfl
  | cons a rest ih =>
    rw [List.flatMap_cons, List.flatMap_cons, h a (List.mem_cons_self _ _),
      ih (fun x hx => h x (List.mem_cons_of_mem _ hx))]

/-- Loop rule for a loop over the elements of a vector whose body appends to
the output. -/
theorem foldlM_append_out {α : Type} (f : List String → α → Except Fault (List String))
    (g : α → List String) :
    ∀ (l : List α) (out : List String),
      (∀ x, x ∈ l → ∀ o, f o x = Except.ok (o ++ g x)) →
      l.foldlM f out = Except.ok (out ++ l.flatMap g) := by
  intro l
  induction l with
  | nil => intro out _; simp [pure, Except.pure]
  | cons a rest ih =>
    intro out h
    rw [List.foldlM_cons, h a (List.mem_cons_self _ _) out]
    simp only [bind, Except.bind]
    rw [ih _ (fun x hx => h x (List.mem_cons_of_mem _ hx)), List.flatMap_cons,
      List.append_assoc]

/-- One line of `showConnections` for a known location: its name, then every
entry of its row that is below `INF_VALUE`, in index order. -/
theorem showLine_spec (rp : RoutePlanner) (place : String) (out : List String)
    (hsq : Square rp.locationList.length rp.costMatrix) (hp : place ∈ rp.locationList) :
    rp.showLine out place
      = Except.ok (out ++ renderLine place (rp.shownEntries (rp.pos place))) := by
  obtain ⟨hi, hlt⟩ := indexOfLocation_mem rp place hp
  have hrow : ∀ j, j < rp.locationList.length →
      j < (rp.costMatrix.getD (rp.pos place) []).length := by
    intro j hj; rw [hsq.2 _ hlt]; exact hj
  obtain ⟨o2, ho2, hq⟩ := foldlM_range_inv (rp.showEntry place)
    (fun k o => o = out ++ [place, ": "] ++
      (((List.range k).filter (fun j => decide (rp.cell (rp.pos place) j < INF_VALUE))).map
        (fun j => (rp.nameAt j, rp.cell (rp.pos place) j))).flatMap
        (fun e => [e.1, "(", toString e.2, ") "]))
    rp.locationList.length (out ++ [place, ": "]) (by simp)
    (by
      intro k o hk ho
      unfold RoutePlanner.showEntry
      rw [hi, readAt_nat rp.costMatrix _ [] (by rw [hsq.1]; exact hlt)]
      simp only [bind, Except.bind]
      rw [readAt_nat _ k INF_VALUE (hrow k hk)]
      simp only []
      have hcell : (rp.costMatrix.getD (rp.pos place) []).getD k INF_VALUE
          = rp.cell (rp.pos place) k := rfl
      rw [hcell]
      by_cases hfin : rp.cell (rp.pos place) k < INF_VALUE
      · rw [if_pos hfin, readAt_nat rp.locationList k "" hk]
        refine ⟨_, rfl, ?_⟩
        rw [ho, List.range_succ, List.filter_append, List.map_append, List.flatMap_append]
        simp [hfin, RoutePlanner.nameAt]
      · rw [if_neg hfin]
        refine ⟨o, rfl, ?_⟩
        rw [ho, List.range_succ, List.filter_append, List.map_append, List.flatMap_append]
        simp [hfin])
  unfold RoutePlanner.showLine
  rw [ho2, hq]
  simp [bind, Except.bind, pure, Except.pure, renderLine, RoutePlanner.shownEntries]

/-- The output of `showConnections` on a well-formed planner with distinct names. -/
theorem showConnections_spec (names : List String) (rp : RoutePlanner)
    (hwf : WellFormed names rp) (hnd : names.Nodup) :
    rp.showConnections = Except.ok (renderMap rp rp.shownEntries) := by
  have hn := hwf.1
  have hsq : Square rp.locationList.length rp.costMatrix := by rw [hn]; exact hwf.2
  have hnd2 : rp.locationList.Nodup := by rw [hn]; exact hnd
  unfold RoutePlanner.showConnections
  rw [foldlM_append_out rp.showLine
    (fun place => renderLine place (rp.shownEntries (rp.pos place))) rp.locationList _
    (fun x hx o => showLine_spec rp x o hsq hx)]
  simp only [bind, Except.bind, pure, Except.pure, renderMap]
  congr 3
  have h1 : rp.locationList.flatMap
      (fun place => renderLine place (rp.shownEntries (rp.pos place)))
      = ((List.range rp.locationList.length).map rp.nameAt).flatMap
        (fun place => renderLine place (rp.shownEntries (rp.pos place))) := by
    congr 1
    exact list_eq_map_range rp.locationList
  rw [h1, List.flatMap_map]
  apply flatMap_congr_mem
  intro i hi
  show renderLine (rp.nameAt i) (rp.shownEntries (rp.pos (rp.nameAt i))) = _
  rw [pos_nameAt rp i hnd2 (List.mem_range.mp hi)]

/-- C15 (counterexample): on the planner over `a`, `b` with the edge `a - b` of
cost 3, the line of `a` printed by `showConnections` lists `a(0)` before
`b(3)`: the output is not the one in which each line lists only the other
locations with an entry below `INF_VALUE`. -/
theorem showConnections_lists_location_itself :
    ∃ rp, build ["a", "b"] [("a", "b", 3)] = Except.ok rp ∧
      rp.showConnections = Except.ok ["Travel Map Connections:\n",
        "a", ": ", "a", "(", "0", ") ", "b", "(", "3", ") ", "\n",
        "b", ": ", "a", "(", "3", ") ", "b", "(", "0", ") ", "\n", "\n"] ∧
      rp.showConnections ≠ Except.ok (renderMap rp rp.neighboursAsClaimed) :=
  ⟨RoutePlanner.mk ["a", "b"] [[0, 3], [3, 0]], by decide!, by decide!, by decide!⟩

/-- C15 (amended): on every planner built from distinct names `showConnections`
returns, and writes the header, then one line per location in insertion order,
then an empty line; the line of a location lists, in index order, exactly the
locations whose entry in that location's row is below `INF_VALUE` (the location
itself included, through its diagonal entry), each with that entry as cost. -/
theorem showConnections_output (names : List String) (calls : List (String × String × Int))
    (hnd : names.Nodup) :
    ∃ rp, build names calls = Except.ok rp ∧
      rp.showConnections = Except.ok (renderMap rp rp.shownEntries) ∧
      ∀ i j, i < names.length → j < names.length →
        ((rp.nameAt j, rp.cell i j) ∈ rp.shownEntries i ↔ rp.cell i j < INF_VALUE) := by
  obtain ⟨rp, hb, hwf, _⟩ := build_symmetric names calls
  have hnd2 : rp.locationList.Nodup := by rw [hwf.1]; exact hnd
  refine ⟨rp, hb, showConnections_spec names rp hwf hnd, fun i j _ hj => ?_⟩
  have hj2 : j < rp.locationList.length := by rw [hwf.1]; exact hj
  unfold RoutePlanner.shownEntries
  rw [List.mem_map]
  constructor
  · rintro ⟨k, hk, hkeq⟩
    have hk2 := List.mem_filter.mp hk
    have hkn := List.mem_range.mp hk2.1
    have e1 : rp.nameAt k = rp.nameAt j := (Prod.mk.inj hkeq).1
    have e2 : k = j := by
      rw [← pos_nameAt rp k hnd2 hkn, ← pos_nameAt rp j hnd2 hj2, e1]
    rw [← e2]
    exact of_decide_eq_true hk2.2
  · intro h
    exact ⟨j, List.mem_filter.mpr ⟨List.mem_range.mpr hj2, decide_eq_true h⟩, rfl⟩

theorem showConnections_output_witness :
    ∃ rp, build ["a", "b", "c"] [("a", "b", 3)] = Except.ok rp ∧
      rp.showConnections = Except.ok (renderMap rp rp.shownEntries) ∧
      ∀ i j, i < ["a", "b", "c"].length → j < ["a", "b", "c"].length →
        ((rp.nameAt j, rp.cell i j) ∈ rp.shownEntries i ↔ rp.cell i j < INF_VALUE) :=
  showConnections_output ["a", "b", "c"] [("a", "b", 3)] (by decide)

/-- Forgetting the log, a round of the logged neighbour loop with the 32-bit
addition is a round of the neighbour loop. -/
theorem relaxStepWith_forget (rp : RoutePlanner) (cur : Int) (ex : List Bool)
    (st : List Int × List Int × List (Int × Int)) (k : Nat) :
    Except.map (fun r => (r.1, r.2.1)) (rp.relaxStepWith add32 cur ex st k)
      = rp.relaxStep cur ex (st.1, st.2.1) k := by
  unfold RoutePlanner.relaxStepWith RoutePlanner.relaxStep
  simp only [bind, Except.bind, pure, Except.pure]
  cases readAt ex (k : Int) with
  | error e => rfl
  | ok b =>
    simp only []
    cases b with
    | true => rfl
    | false =>
      simp only [Bool.false_eq_true, if_false]
      cases readAt rp.costMatrix cur with
      | error e => rfl
      | ok row =>
        simp only []
        cases readAt row (k : Int) with
        | error e => rfl
        | ok c =>
          simp only []
          by_cases hc : c < INF_VALUE
          · simp only [hc, if_true]
            cases readAt st.1 cur with
            | error e => rfl
            | ok dc =>
              simp only []
              cases readAt st.1 (k : Int) with
              | error e => rfl
              | ok dn =>
                simp only []
                by_cases hlt : add32 dc c < dn
                · simp only [hlt, if_true]
                  cases writeAt st.1 (k : Int) (add32 dc c) with
                  | error e => rfl
                  | ok md =>
                    simp only []
                    cases writeAt st.2.1 (k : Int) cur with
                    | error e => rfl
                    | ok pr => rfl
                · simp only [hlt, if_false]
                  rfl
          · simp only [hc, if_false]
            rfl

/-- A loop over a list run on a state with an extra component agrees, once the
extra component is forgotten, with the loop on the plain state. -/
theorem foldlM_forget {α β γ : Type} (π : γ → β) (f : β → α → Except Fault β)
    (g : γ → α → Except Fault γ) (h : ∀ c x, Except.map π (g c x) = f (π c) x) :
    ∀ (l : List α) (c : γ), Except.map π (l.foldlM g c) = l.foldlM f (π c) := by
  intro l
  induction l with
  | nil => intro c; rfl
  | cons x rest ih =>
    intro c
    rw [List.foldlM_cons, List.foldlM_cons, ← h c x]
    cases g c x with
    | error e => rfl
    | ok c2 =>
      simp only [bind, Except.bind, Except.map]
      exact ih c2

theorem relaxNeighborsWith_forget (rp : RoutePlanner) (cur : Int) (ex : List Bool)
    (md par : List Int) (log : List (Int × Int)) :
    Except.map (fun r => (r.1, r.2.1)) (rp.relaxNeighborsWith add32 cur ex md par log)
      = rp.relaxNeighbors cur ex md par := by
  unfold RoutePlanner.relaxNeighborsWith RoutePlanner.relaxNeighbors
  exact foldlM_forget (fun r : List Int × List Int × List (Int × Int) => (r.1, r.2.1))
    (rp.relaxStep cur ex) (rp.relaxStepWith add32 cur ex)
    (fun c x => relaxStepWith_forget rp cur ex c x) _ (md, par, log)

theorem dijkstraLoopWith_forget (rp : RoutePlanner) (k : Nat) :
    ∀ (md par : List Int) (ex : List Bool) (log : List (Int × Int)),
      Except.map (fun r => (r.1, r.2.1, r.2.2.1)) (rp.dijkstraLoopWith add32 k md par ex log)
        = rp.dijkstraLoop k md par ex := by
  induction k with
  | zero => intro md par ex log; rfl
  | succ k ih =>
    intro md par ex log
    unfold RoutePlanner.dijkstraLoopWith RoutePlanner.dijkstraLoop
    simp only [bind, Except.bind, pure, Except.pure]
    cases rp.selectClosestUnvisited md ex with
    | error e => rfl
    | ok cur =>
      simp only []
      by_cases hc : cur = -1
      · simp only [hc, if_true]
        rfl
      · simp only [hc, if_false]
        cases writeAt ex cur true with
        | error e => rfl
        | ok ex2 =>
          simp only []
          rw [← relaxNeighborsWith_forget rp cur ex2 md par log]
          cases rp.relaxNeighborsWith add32 cur ex2 md par log with
          | error e => rfl
          | ok r =>
            simp only [Except.map]
            exact ih r.1 r.2.1 ex2 r.2.2

/-- Forgetting the log, the logged query with the 32-bit addition is
`shortestPath`, on every planner and input. -/
theorem shortestPathWith_forget (rp : RoutePlanner) (fuel : Nat) (origin destination : String) :
    Except.map Prod.fst (rp.shortestPathWith add32 fuel origin destination)
      = rp.shortestPath fuel origin destination := by
  unfold RoutePlanner.shortestPathWith RoutePlanner.shortestPath
  simp only [bind, Except.bind, pure, Except.pure]
  cases writeAt (List.replicate rp.locationList.length INF_VALUE)
      (rp.indexOfLocation origin) 0 with
  | error e => rfl
  | ok md1 =>
    simp only []
    rw [← dijkstraLoopWith_forget rp (sizeMinusOne rp.locationList.length) md1
      (List.replicate rp.locationList.length (-1))
      (List.replicate rp.locationList.length false) []]
    cases rp.dijkstraLoopWith add32 (sizeMinusOne rp.locationList.length) md1
      (List.replicate rp.locationList.length (-1))
      (List.replicate rp.locationList.length false) [] with
    | error e => rfl
    | ok r =>
      simp only [Except.map]
      cases rp.walkParents r.2.1 fuel (rp.indexOfLocation destination) [] with
      | error e => rfl
      | ok path =>
        simp only []
        cases readAt r.1 (rp.indexOfLocation destination) with
        | error e => rfl
        | ok cost => rfl

/-- The logged neighbour loop, for any addition, on vectors of the right length:
it cannot fault, rewrites exactly the entries whose test succeeds, and logs
only sums formed for unexplored neighbours joined by a finite entry. -/
theorem relaxNeighborsWith_spec (plus : Int → Int → Int) (rp : RoutePlanner)
    (md par : List Int) (ex : List Bool) (log : List (Int × Int)) (u : Nat)
    (hsq : Square rp.locationList.length rp.costMatrix)
    (hmd : md.length = rp.locationList.length) (hpar : par.length = rp.locationList.length)
    (hex : ex.length = rp.locationList.length) (hu : u < rp.locationList.length)
    (hexu : ex.getD u false = true) :
    ∃ md2 par2 log2, rp.relaxNeighborsWith plus (u : Int) ex md par log
        = Except.ok (md2, par2, log2) ∧
      md2.length = rp.locationList.length ∧ par2.length = rp.locationList.length ∧
      (∀ v, v < rp.locationList.length →
        (RelaxCondWith plus rp md ex u v →
          md2.getD v INF_VALUE = plus (md.getD u INF_VALUE) (rp.cell u v) ∧
          par2.getD v (-1) = (u : Int)) ∧
        (¬ RelaxCondWith plus rp md ex u v →
          md2.getD v INF_VALUE = md.getD v INF_VALUE ∧
          par2.getD v (-1) = par.getD v (-1))) ∧
      ∀ x, x ∈ log2 → x ∈ log ∨ ∃ v, v < rp.locationList.length ∧
        ex.getD v false = false ∧ rp.cell u v < INF_VALUE ∧
        x = (md.getD u INF_VALUE, rp.cell u v) := by
  have hnu : ¬ RelaxCondWith plus rp md ex u u := by
    intro h; rw [h.1] at hexu; exact absurd hexu (by decide)
  obtain ⟨st, hst, h1, h2, h3, h4⟩ := foldlM_range_inv
    (RoutePlanner.relaxStepWith plus rp (u : Int) ex)
    (fun k st => st.1.length = rp.locationList.length ∧
      st.2.1.length = rp.locationList.length ∧
      (∀ v, v < rp.locationList.length →
        (v < k ∧ RelaxCondWith plus rp md ex u v →
          st.1.getD v INF_VALUE = plus (md.getD u INF_VALUE) (rp.cell u v) ∧
          st.2.1.getD v (-1) = (u : Int)) ∧
        (¬ (v < k ∧ RelaxCondWith plus rp md ex u v) →
          st.1.getD v INF_VALUE = md.getD v INF_VALUE ∧
          st.2.1.getD v (-1) = par.getD v (-1))) ∧
      ∀ x, x ∈ st.2.2 → x ∈ log ∨ ∃ v, v < rp.locationList.length ∧
        ex.getD v false = false ∧ rp.cell u v < INF_VALUE ∧
        x = (md.getD u INF_VALUE, rp.cell u v))
    rp.locationList.length (md, par, log)
    ⟨hmd, hpar, fun v _ => ⟨fun h => absurd h.1 (Nat.not_lt_zero v), fun _ => ⟨rfl, rfl⟩⟩,
      fun x hx => Or.inl hx⟩
    (by
      intro k st hk ⟨hl1, hl2, hQ, hL⟩
      have keep : ¬ RelaxCondWith plus rp md ex u k →
          ∀ v, v < rp.locationList.length →
            (v < k + 1 ∧ RelaxCondWith plus rp md ex u v →
              st.1.getD v INF_VALUE = plus (md.getD u INF_VALUE) (rp.cell u v) ∧
              st.2.1.getD v (-1) = (u : Int)) ∧
            (¬ (v < k + 1 ∧ RelaxCondWith plus rp md ex u v) →
              st.1.getD v INF_VALUE = md.getD v INF_VALUE ∧
              st.2.1.getD v (-1) = par.getD v (-1)) := by
        intro hC v hv
        refine ⟨fun h => ?_, fun h => ?_⟩
        · have hvk : v ≠ k := fun e => hC (e ▸ h.2)
          exact (hQ v hv).1 ⟨by omega, h.2⟩
        · exact (hQ v hv).2 (fun h4 => h ⟨by omega, h4.2⟩)
      have hk1 : k < ex.length := by rw [hex]; exact hk
      have hrowlen : k < (rp.costMatrix.getD u []).length := by rw [hsq.2 u hu]; exact hk
      have hul : u < rp.costMatrix.length := by rw [hsq.1]; exact hu
      have hdu : st.1.getD u INF_VALUE = md.getD u INF_VALUE :=
        ((hQ u hu).2 (fun h => hnu h.2)).1
      have hdk : st.1.getD k INF_VALUE = md.getD k INF_VALUE :=
        ((hQ k hk).2 (fun h => absurd h.1 (Nat.lt_irrefl k))).1
      unfold RoutePlanner.relaxStepWith
      rw [readAt_nat ex k false hk1]
      simp only [bind, Except.bind]
      by_cases hvis : ex.getD k false = true
      · rw [if_pos hvis]
        exact ⟨st, rfl, hl1, hl2,
          keep (fun h => by rw [h.1] at hvis; exact absurd hvis (by decide)), hL⟩
      · rw [if_neg hvis, readAt_nat rp.costMatrix u [] hul]
        simp only []
        rw [readAt_nat _ k INF_VALUE hrowlen]
        simp only []
        have hcell : (rp.costMatrix.getD u []).getD k INF_VALUE = rp.cell u k := rfl
        rw [hcell]
        have hvf : ex.getD k false = false := bool_eq_false_of_ne_true hvis
        by_cases hfin : rp.cell u k < INF_VALUE
        · rw [if_pos hfin, readAt_nat st.1 u INF_VALUE (by rw [hl1]; exact hu)]
          simp only []
          rw [readAt_nat st.1 k INF_VALUE (by rw [hl1]; exact hk)]
          simp only []
          rw [hdu, hdk]
          have hlog : ∀ x, x ∈ st.2.2 ++ [(md.getD u INF_VALUE, rp.cell u k)] →
              x ∈ log ∨ ∃ v, v < rp.locationList.length ∧
                ex.getD v false = false ∧ rp.cell u v < INF_VALUE ∧
                x = (md.getD u INF_VALUE, rp.cell u v) := by
            intro x hx
            rcases List.mem_append.mp hx with h | h
            · exact hL x h
            · exact Or.inr ⟨k, hk, hvf, hfin, List.mem_singleton.mp h⟩
          by_cases hlt : plus (md.getD u INF_VALUE) (rp.cell u k) < md.getD k INF_VALUE
          · rw [if_pos hlt, writeAt_nat st.1 k _ (by rw [hl1]; exact hk)]
            simp only []
            rw [writeAt_nat st.2.1 k _ (by rw [hl2]; exact hk)]
            have hC : RelaxCondWith plus rp md ex u k := ⟨hvf, hfin, hlt⟩
            refine ⟨_, rfl, by simp [hl1], by simp [hl2],
              fun v hv => ⟨fun h => ?_, fun h => ?_⟩, hlog⟩
            · show (st.1.set k _).getD v INF_VALUE = _ ∧ (st.2.1.set k _).getD v (-1) = _
              rw [getD_set_eq, getD_set_eq]
              by_cases hvk : k = v
              · subst hvk
                rw [if_pos ⟨rfl, by rw [hl1]; exact hk⟩, if_pos ⟨rfl, by rw [hl2]; exact hk⟩]
                exact ⟨rfl, rfl⟩
              · rw [if_neg (fun h5 => hvk h5.1), if_neg (fun h5 => hvk h5.1)]
                exact (hQ v hv).1 ⟨by omega, h.2⟩
            · show (st.1.set k _).getD v INF_VALUE = _ ∧ (st.2.1.set k _).getD v (-1) = _
              rw [getD_set_eq, getD_set_eq]
              have hvk : ¬ k = v := fun e => h ⟨by omega, e ▸ hC⟩
              rw [if_neg (fun h5 => hvk h5.1), if_neg (fun h5 => hvk h5.1)]
              exact (hQ v hv).2 (fun h4 => h ⟨by omega, h4.2⟩)
          · rw [if_neg hlt]
            exact ⟨_, rfl, hl1, hl2, keep (fun h => hlt h.2.2), hlog⟩
        · rw [if_neg hfin]
          exact ⟨st, rfl, hl1, hl2, keep (fun h => hfin h.2.1), hL⟩)
  refine ⟨st.1, st.2.1, st.2.2, hst, h1, h2,
    fun v hv => ⟨fun h => (h3 v hv).1 ⟨hv, h⟩, fun h => ?_⟩, h4⟩
  exact (h3 v hv).2 (fun h4 => h h4.2)

/-- Two vectors of the same length with the same entries are equal. -/
theorem list_eq_of_getD {α : Type} (l1 l2 : List α) (d : α) (n : Nat)
    (h1 : l1.length = n) (h2 : l2.length = n)
    (h : ∀ v, v < n → l1.getD v d = l2.getD v d) : l1 = l2 := by
  apply List.ext_getElem (by rw [h1, h2])
  intro i hi1 hi2
  have := h i (by rw [← h1]; exact hi1)
  rw [List.getD_eq_getElem _ _ hi1, List.getD_eq_getElem _ _ hi2] at this
  exact this

/-- The test on the vectors after the current node was marked is the test of
the transition system on the view before. -/
theorem relaxCondWith_iff (rp : RoutePlanner) (md par : List Int) (ex : List Bool) (u v : Nat)
    (hex : ex.length = rp.locationList.length) (hu : u < rp.locationList.length) :
    (RelaxCondWith add32 rp md (ex.set u true) u v ↔
        Relaxes rp.cell (viewOf md par ex) u v) ∧
    ((ex.set u true).getD v false = false ↔ (ex.getD v false = false ∧ v ≠ u)) := by
  have hset : (ex.set u true).getD v false = if u = v then true else ex.getD v false := by
    rw [getD_set_eq]
    by_cases hvu : u = v
    · rw [if_pos ⟨hvu, by rw [hex]; exact hu⟩, if_pos hvu]
    · rw [if_neg (fun h => hvu h.1), if_neg hvu]
  have h2 : (ex.set u true).getD v false = false ↔ (ex.getD v false = false ∧ v ≠ u) := by
    rw [hset]
    by_cases hvu : u = v
    · rw [if_pos hvu]
      constructor
      · intro h; exact absurd h (by decide)
      · intro h; exact absurd hvu.symm h.2
    · rw [if_neg hvu]
      exact ⟨fun h => ⟨h, fun e => hvu e.symm⟩, fun h => h.1⟩
  refine ⟨?_, h2⟩
  unfold RelaxCondWith Relaxes viewOf
  simp only []
  rw [h2]
  constructor
  · intro h; exact ⟨h.1.1, h.1.2, h.2.1, h.2.2⟩
  · intro h; exact ⟨⟨h.1, h.2.1⟩, h.2.2.1, h.2.2.2⟩

/-- With non-negative costs and no simple path reaching `INF_VALUE`, the main
loop run with the 32-bit addition and the main loop run with the unbounded
addition return the same vectors, and every sum logged by the former is good. -/
theorem dijkstraLoopWith_agree (rp : RoutePlanner) (s : Nat)
    (hsq : Square rp.locationList.length rp.costMatrix) (hs : s < rp.locationList.length)
    (hw0 : ∀ a b, a < rp.locationList.length → b < rp.locationList.length → 0 ≤ rp.cell a b)
    (hT : SimpleBound rp.locationList.length (flipW rp.cell)) (k : Nat) :
    ∀ (md par : List Int) (ex : List Bool) (log logZ : List (Int × Int)) (B : Nat → List Nat),
      md.length = rp.locationList.length → par.length = rp.locationList.length →
      ex.length = rp.locationList.length →
      InvS rp.locationList.length rp.cell s B (viewOf md par ex) →
      InvM rp.locationList.length rp.cell B (viewOf md par ex) →
      (∀ x, x ∈ log → GoodSum x) →
      ∃ md2 par2 ex2 log2 logZ2,
        rp.dijkstraLoopWith add32 k md par ex log = Except.ok (md2, par2, ex2, log2) ∧
        rp.dijkstraLoopWith addZ k md par ex logZ = Except.ok (md2, par2, ex2, logZ2) ∧
        ∀ x, x ∈ log2 → GoodSum x := by
  induction k with
  | zero =>
    intro md par ex log logZ B _ _ _ _ _ hL
    exact ⟨md, par, ex, log, logZ, rfl, rfl, hL⟩
  | succ k ih =>
    intro md par ex log logZ B h1 h2 h3 hS hM hL
    obtain ⟨r, hr, hcase⟩ := selectClosestUnvisited_spec rp md par ex h1 h3
    rcases hcase with ⟨hr1, _⟩ | ⟨u, hru, hpick⟩
    · refine ⟨md, par, ex, log, logZ, ?_, ?_, hL⟩
      · unfold RoutePlanner.dijkstraLoopWith
        rw [hr]
        simp only [bind, Except.bind]
        rw [if_pos hr1]
        rfl
      · unfold RoutePlanner.dijkstraLoopWith
        rw [hr]
        simp only [bind, Except.bind]
        rw [if_pos hr1]
        rfl
    · have hu : u < rp.locationList.length := hpick.1
      have hexu : (ex.set u true).getD u false = true := by
        rw [getD_set_eq, if_pos ⟨rfl, by rw [h3]; exact hu⟩]
      have hlen2 : (ex.set u true).length = rp.locationList.length := by
        rw [List.length_set]; exact h3
      obtain ⟨mdA, parA, logA, eA, a1, a2, a3, a4⟩ := relaxNeighborsWith_spec add32 rp md par
        (ex.set u true) log u hsq h1 h2 hlen2 hu hexu
      obtain ⟨mdZ, parZ, logZ2, eZ, z1, z2, z3, _⟩ := relaxNeighborsWith_spec addZ rp md par
        (ex.set u true) logZ u hsq h1 h2 hlen2 hu hexu
      -- the sums formed in this round are exact
      have hexact : ∀ v, v < rp.locationList.length →
          (ex.set u true).getD v false = false → rp.cell u v < INF_VALUE →
          0 ≤ md.getD u INF_VALUE + rp.cell u v ∧
          md.getD u INF_VALUE + rp.cell u v < INF_VALUE ∧
          add32 (md.getD u INF_VALUE) (rp.cell u v) = md.getD u INF_VALUE + rp.cell u v := by
        intro v hv hev hfin
        have hev2 := (relaxCondWith_iff rp md par ex u v h3 hu).2.mp hev
        obtain ⟨k1, k2, k3, _⟩ := relax_sum_exact rp.locationList.length rp.cell s B
          (viewOf md par ex) u v hw0 hT hS hM hu hpick.2.2.1 hv hev2.1 hev2.2 hfin
        exact ⟨k1, k2, k3⟩
      have hcond : ∀ v, v < rp.locationList.length →
          (RelaxCondWith add32 rp md (ex.set u true) u v ↔
            RelaxCondWith addZ rp md (ex.set u true) u v) := by
        intro v hv
        constructor
        · intro h
          refine ⟨h.1, h.2.1, ?_⟩
          have := h.2.2
          rw [(hexact v hv h.1 h.2.1).2.2] at this
          exact this
        · intro h
          refine ⟨h.1, h.2.1, ?_⟩
          rw [(hexact v hv h.1 h.2.1).2.2]
          exact h.2.2
      have hmdeq : mdA = mdZ := by
        apply list_eq_of_getD mdA mdZ INF_VALUE _ a1 z1
        intro v hv
        by_cases hc : RelaxCondWith add32 rp md (ex.set u true) u v
        · rw [((a3 v hv).1 hc).1, ((z3 v hv).1 ((hcond v hv).mp hc)).1,
            (hexact v hv hc.1 hc.2.1).2.2]
          rfl
        · rw [((a3 v hv).2 hc).1, ((z3 v hv).2 (fun h => hc ((hcond v hv).mpr h))).1]
      have hpareq : parA = parZ := by
        apply list_eq_of_getD parA parZ (-1) _ a2 z2
        intro v hv
        by_cases hc : RelaxCondWith add32 rp md (ex.set u true) u v
        · rw [((a3 v hv).1 hc).2, ((z3 v hv).1 ((hcond v hv).mp hc)).2]
        · rw [((a3 v hv).2 hc).2, ((z3 v hv).2 (fun h => hc ((hcond v hv).mpr h))).2]
      -- the round is a step of the transition system
      have hstep : ∀ x, x < rp.locationList.length →
          (viewOf mdA parA (ex.set u true)).e x
            = (if x = u then true else (viewOf md par ex).e x) ∧
          (Relaxes rp.cell (viewOf md par ex) u x →
            (viewOf mdA parA (ex.set u true)).d x
              = add32 ((viewOf md par ex).d u) (rp.cell u x) ∧
            (viewOf mdA parA (ex.set u true)).p x = (u : Int)) ∧
          (¬ Relaxes rp.cell (viewOf md par ex) u x →
            (viewOf mdA parA (ex.set u true)).d x = (viewOf md par ex).d x ∧
            (viewOf mdA parA (ex.set u true)).p x = (viewOf md par ex).p x) := by
        intro x hx
        have hiff := (relaxCondWith_iff rp md par ex u x h3 hu).1
        refine ⟨?_, fun h => (a3 x hx).1 (hiff.mpr h),
          fun h => (a3 x hx).2 (fun h2 => h (hiff.mp h2))⟩
        show (ex.set u true).getD x false = _
        rw [getD_set_eq]
        by_cases hxu : u = x
        · subst hxu
          rw [if_pos ⟨rfl, by rw [h3]; exact hu⟩, if_pos rfl]
        · rw [if_neg (fun h => hxu h.1), if_neg (fun e => hxu e.symm)]
          rfl
      have hS2 := invS_step rp.locationList.length rp.cell s B (viewOf md par ex)
        (viewOf mdA parA (ex.set u true)) u hs hpick hstep hS
      have hM2 := invM_step rp.locationList.length rp.cell s B (viewOf md par ex)
        (viewOf mdA parA (ex.set u true)) u hw0 hT hpick hstep hS hM
      have hLA : ∀ x, x ∈ logA → GoodSum x := by
        intro x hx
        rcases a4 x hx with h | ⟨v, hv, hev, hfin, rfl⟩
        · exact hL x h
        · obtain ⟨k1, k2, _⟩ := hexact v hv hev hfin
          exact ⟨hpick.2.2.1, hfin, k1, k2⟩
      obtain ⟨md3, par3, ex3, log3, logZ3, e1, e2, e3⟩ :=
        ih mdA parA (ex.set u true) logA logZ2 _ a1 a2 hlen2 hS2 hM2 hLA
      refine ⟨md3, par3, ex3, log3, logZ3, ?_, ?_, e3⟩
      · unfold RoutePlanner.dijkstraLoopWith
        rw [hr]
        simp only [bind, Except.bind]
        rw [if_neg (by rw [hru]; omega), hru, writeAt_nat ex u true (by rw [h3]; exact hu)]
        simp only []
        rw [eA]
        exact e1
      · unfold RoutePlanner.dijkstraLoopWith
        rw [hr]
        simp only [bind, Except.bind]
        rw [if_neg (by rw [hru]; omega), hru, writeAt_nat ex u true (by rw [h3]; exact hu)]
        simp only []
        rw [eZ, ← hmdeq, ← hpareq]
        exact e2

theorem sum_map_le_of_nodup_subset {α : Type} (f : α → Int) (l1 l2 : List α)
    (hnd : l1.Nodup) (hsub : l1 ⊆ l2) (hf : ∀ x, x ∈ l2 → 0 ≤ f x) :
    (l1.map f).sum ≤ (l2.map f).sum := by
  obtain ⟨l, hp, hs⟩ := List.subperm_of_subset hnd hsub
  rw [← (hp.map f).sum_eq]
  apply (hs.map f).sum_le_sum
  intro a ha
  obtain ⟨x, hx, rfl⟩ := List.mem_map.mp ha
  exact hf x hx

theorem mem_allPairs (n : Nat) (p : Nat × Nat) : p ∈ allPairs n ↔ p.1 < p.2 ∧ p.2 < n := by
  unfold allPairs
  rw [List.mem_flatMap]
  constructor
  · rintro ⟨j, hj, hp⟩
    obtain ⟨i, hi, rfl⟩ := List.mem_map.mp hp
    exact ⟨List.mem_range.mp hi, List.mem_range.mp hj⟩
  · intro h
    exact ⟨p.2, List.mem_range.mpr h.2, List.mem_map.mpr ⟨p.1, List.mem_range.mpr h.1, rfl⟩⟩

theorem mem_edgesOf (l : List Nat) :
    ∀ p, p ∈ edgesOf l → p.1 ∈ l ∧ p.2 ∈ l := by
  induction l with
  | nil => intro p hp; exact absurd hp (List.not_mem_nil _)
  | cons a rest ih =>
    cases rest with
    | nil => intro p hp; exact absurd hp (List.not_mem_nil _)
    | cons b rest2 =>
      intro p hp
      have hp2 : p ∈ normEdge a b :: edgesOf (b :: rest2) := hp
      rcases List.mem_cons.mp hp2 with h | h
      · rw [h]
        unfold normEdge
        constructor
        · show min a b ∈ a :: b :: rest2
          rcases min_choice a b with e | e <;> rw [e] <;> simp
        · show max a b ∈ a :: b :: rest2
          rcases max_choice a b with e | e <;> rw [e] <;> simp
      · obtain ⟨h1, h2⟩ := ih p h
        exact ⟨List.mem_cons_of_mem _ h1, List.mem_cons_of_mem _ h2⟩

theorem edgesOf_nodup (l : List Nat) (hnd : l.Nodup) : (edgesOf l).Nodup := by
  induction l with
  | nil => exact List.nodup_nil
  | cons a rest ih =>
    cases rest with
    | nil => exact List.nodup_nil
    | cons b rest2 =>
      have h1 := List.nodup_cons.mp hnd
      show (normEdge a b :: edgesOf (b :: rest2)).Nodup
      refine List.nodup_cons.mpr ⟨fun hmem => ?_, ih h1.2⟩
      obtain ⟨m1, m2⟩ := mem_edgesOf _ _ hmem
      unfold normEdge at m1 m2
      have hab : a ≠ b := fun e => h1.1 (e ▸ List.mem_cons_self _ _)
      rcases Nat.lt_or_gt_of_ne hab with hlt | hgt
      · have : min a b = a := min_eq_left (le_of_lt hlt)
        have m3 : min a b ∈ b :: rest2 := m1
        rw [this] at m3
        exact h1.1 m3
      · have : max a b = a := max_eq_left (le_of_lt hgt)
        have m3 : max a b ∈ b :: rest2 := m2
        rw [this] at m3
        exact h1.1 m3

theorem edgesOf_subset (l : List Nat) (n : Nat) (hnd : l.Nodup) (hb : ∀ x, x ∈ l → x < n) :
    edgesOf l ⊆ allPairs n := by
  induction l with
  | nil => intro p hp; exact absurd hp (List.not_mem_nil _)
  | cons a rest ih =>
    cases rest with
    | nil => intro p hp; exact absurd hp (List.not_mem_nil _)
    | cons b rest2 =>
      have h1 := List.nodup_cons.mp hnd
      intro p hp
      have hp2 : p ∈ normEdge a b :: edgesOf (b :: rest2) := hp
      rcases List.mem_cons.mp hp2 with h | h
      · rw [h, mem_allPairs]
        have hab : a ≠ b := fun e => h1.1 (e ▸ List.mem_cons_self _ _)
        have ha := hb a (List.mem_cons_self _ _)
        have hbb := hb b (List.mem_cons_of_mem _ (List.mem_cons_self _ _))
        unfold normEdge
        show min a b < max a b ∧ max a b < n
        omega
      · exact ih h1.2 (fun x hx => hb x (List.mem_cons_of_mem _ hx)) h

theorem pathCost_eq_edges (w : Nat → Nat → Int) (hsym : ∀ i j, w i j = w j i) :
    ∀ l : List Nat,
      pathCost (clipW w) l = ((edgesOf l).map (fun p => clipW w p.1 p.2)).sum := by
  have hclip : ∀ a b, clipW w (min a b) (max a b) = clipW w a b := by
    intro a b
    rcases le_total a b with h | h
    · rw [min_eq_left h, max_eq_right h]
    · rw [min_eq_right h, max_eq_left h]
      unfold clipW
      rw [hsym b a]
  intro l
  induction l with
  | nil => rfl
  | cons a rest ih =>
    cases rest with
    | nil => rfl
    | cons b rest2 =>
      show clipW w a b + pathCost (clipW w) (b :: rest2)
        = ((normEdge a b :: edgesOf (b :: rest2)).map (fun p => clipW w p.1 p.2)).sum
      rw [List.map_cons, List.sum_cons, ih]
      unfold normEdge
      rw [hclip]

/-- In a planner with a symmetric matrix, non-negative finite entries and an
edge sum below `INF_VALUE`, no simple path of finite steps costs `INF_VALUE`
or more. -/
theorem simpleBound_of_edgeSum (rp : RoutePlanner) (hsym : ∀ i j, rp.cell i j = rp.cell j i)
    (hnn : ∀ i, i < rp.locationList.length → ∀ j, j < rp.locationList.length →
      rp.cell i j < INF_VALUE → 0 ≤ rp.cell i j)
    (hsum : rp.edgeSum < INF_VALUE) :
    SimpleBound rp.locationList.length (flipW rp.cell) := by
  rw [flipW_of_symm rp.cell hsym]
  intro l hnd hb hfs
  rw [← pathCost_clip rp.cell l hfs, pathCost_eq_edges rp.cell hsym l]
  refine lt_of_le_of_lt ?_ hsum
  unfold RoutePlanner.edgeSum
  apply sum_map_le_of_nodup_subset _ _ _ (edgesOf_nodup l hnd) (edgesOf_subset l _ hnd hb)
  intro p hp
  obtain ⟨p1, p2⟩ := (mem_allPairs _ p).mp hp
  show 0 ≤ clipW rp.cell p.1 p.2
  unfold clipW
  split
  · exact hnn _ (by omega) _ p2 (by assumption)
  · exact le_refl _

/-- C20: on a built planner whose finite cost-matrix entries are non-negative
and whose finite edge costs (each undirected edge once) sum to less than
`INF_VALUE`, and for every origin and destination of the location list:
the query returns; every sum `minDist[currentNode] + costMatrix[currentNode][neighbor]`
it evaluates (the log) has both operands below `INF_VALUE` and a mathematical
value that is non-negative and below `INF_VALUE`, so that the 32-bit sum is the
mathematical sum; and the query run with unbounded addition returns the same
path and cost, which is also what `shortestPath` returns. -/
theorem shortestPath_no_overflow (names : List String) (calls : List (String × String × Int))
    (rp : RoutePlanner) (origin destination : String) (fuel : Nat)
    (hb : build names calls = Except.ok rp)
    (hnn : ∀ i, i < names.length → ∀ j, j < names.length →
      rp.cell i j < INF_VALUE → 0 ≤ rp.cell i j)
    (hsum : rp.edgeSum < INF_VALUE)
    (ho : origin ∈ names) (hd : destination ∈ names) (hf : names.length ≤ fuel) :
    ∃ r log logZ, rp.shortestPathWith add32 fuel origin destination = Except.ok (r, log) ∧
      (∀ x, x ∈ log → GoodSum x ∧ add32 x.1 x.2 = x.1 + x.2) ∧
      rp.shortestPathWith addZ fuel origin destination = Except.ok (r, logZ) ∧
      rp.shortestPath fuel origin destination = Except.ok r := by
  obtain ⟨hwf, hsym, _⟩ := build_facts names calls rp hb
  have hn := hwf.1
  have hlen : rp.locationList.length = names.length := by rw [hn]
  have hsq : Square rp.locationList.length rp.costMatrix := by rw [hn]; exact hwf.2
  have hnn2 : ∀ i, i < rp.locationList.length → ∀ j, j < rp.locationList.length →
      rp.cell i j < INF_VALUE → 0 ≤ rp.cell i j := by rw [hlen]; exact hnn
  have hw0 : ∀ a b, a < rp.locationList.length → b < rp.locationList.length →
      0 ≤ rp.cell a b := by
    intro a b ha hb2
    by_cases hfin : rp.cell a b < INF_VALUE
    · exact hnn2 a ha b hb2 hfin
    · have := not_lt.mp hfin
      unfold INF_VALUE at this
      omega
  have hT := simpleBound_of_edgeSum rp hsym hnn2 hsum
  have ho2 : origin ∈ rp.locationList := by rw [hn]; exact ho
  have hd2 : destination ∈ rp.locationList := by rw [hn]; exact hd
  obtain ⟨hio, hs⟩ := indexOfLocation_mem rp origin ho2
  obtain ⟨hid, ht⟩ := indexOfLocation_mem rp destination hd2
  -- the main loop agrees for the two additions
  have hS0 : InvS rp.locationList.length rp.cell (rp.pos origin) (fun _ => [rp.pos origin])
      (viewOf ((List.replicate rp.locationList.length INF_VALUE).set (rp.pos origin) 0)
        (List.replicate rp.locationList.length (-1))
        (List.replicate rp.locationList.length false)) := by
    rw [viewOf_init _ _ hs]; exact init_invS _ _ _ hs
  have hM0 : InvM rp.locationList.length rp.cell (fun _ => [rp.pos origin])
      (viewOf ((List.replicate rp.locationList.length INF_VALUE).set (rp.pos origin) 0)
        (List.replicate rp.locationList.length (-1))
        (List.replicate rp.locationList.length false)) := by
    rw [viewOf_init _ _ hs]; exact init_invM _ _ _
  obtain ⟨md2, par2, ex2, log2, logZ2, e1, e2, e3⟩ := dijkstraLoopWith_agree rp (rp.pos origin)
    hsq hs hw0 hT (sizeMinusOne rp.locationList.length) _ _ _ [] []
    (fun _ => [rp.pos origin]) (by simp) (by simp) (by simp) hS0 hM0
    (fun x hx => absurd hx (List.not_mem_nil _))
  -- the plain query returns
  obtain ⟨τ, B, _, r1, r2, _⟩ := shortestPath_any names rp origin destination hwf ho hd
  have hret : ∃ r, rp.shortestPath fuel origin destination = Except.ok r := by
    by_cases hlt : τ.d (rp.pos destination) < INF_VALUE
    · exact ⟨_, r2 hlt fuel (by rw [hlen]; exact hf)⟩
    · exact ⟨_, r1 hlt fuel (by omega)⟩
  obtain ⟨r, hr⟩ := hret
  have hforget := shortestPathWith_forget rp fuel origin destination
  rw [hr] at hforget
  have hA : ∀ (plus : Int → Int → Int) (lg : List (Int × Int)),
      rp.dijkstraLoopWith plus (sizeMinusOne rp.locationList.length)
        ((List.replicate rp.locationList.length INF_VALUE).set (rp.pos origin) 0)
        (List.replicate rp.locationList.length (-1))
        (List.replicate rp.locationList.length false) [] = Except.ok (md2, par2, ex2, lg) →
      rp.shortestPathWith plus fuel origin destination =
        (rp.walkParents par2 fuel (rp.pos destination : Int) [] >>= fun path =>
          readAt md2 (rp.pos destination : Int) >>= fun cost =>
            Except.ok ((path.reverse, cost), lg)) := by
    intro plus lg hloop
    unfold RoutePlanner.shortestPathWith
    simp only []
    rw [hio, hid, writeAt_nat _ _ _ (by rw [List.length_replicate]; exact hs)]
    simp only [bind, Except.bind]
    rw [hloop]
    rfl
  have hA1 := hA add32 log2 e1
  have hA2 := hA addZ logZ2 e2
  rw [hA1] at hforget
  refine ⟨r, log2, logZ2, ?_, ?_, ?_, hr⟩
  · rw [hA1]
    cases hw : rp.walkParents par2 fuel (rp.pos destination : Int) [] with
    | error e => rw [hw] at hforget; cases hforget
    | ok path =>
      rw [hw] at hforget
      cases hc : readAt md2 (rp.pos destination : Int) with
      | error e =>
        simp only [bind, Except.bind] at hforget
        rw [hc] at hforget
        cases hforget
      | ok cost =>
        simp only [bind, Except.bind] at hforget
        rw [hc] at hforget
        simp only [bind, Except.bind]
        have : (path.reverse, cost) = r := Except.ok.inj hforget
        rw [this]
  · intro x hx
    have hg := e3 x hx
    exact ⟨hg, add32_exact _ _ hg.2.2.1 hg.2.2.2⟩
  · rw [hA2]
    cases hw : rp.walkParents par2 fuel (rp.pos destination : Int) [] with
    | error e => rw [hw] at hforget; cases hforget
    | ok path =>
      rw [hw] at hforget
      cases hc : readAt md2 (rp.pos destination : Int) with
      | error e =>
        simp only [bind, Except.bind] at hforget
        rw [hc] at hforget
        cases hforget
      | ok cost =>
        simp only [bind, Except.bind] at hforget
        rw [hc] at hforget
        simp only [bind, Except.bind]
        have : (path.reverse, cost) = r := Except.ok.inj hforget
        rw [this]

theorem shortestPath_no_overflow_witness :
    ∃ r log logZ,
      (RoutePlanner.mk ["a", "b", "c"] [[0, 3, 9], [3, 0, 4], [9, 4, 0]]).shortestPathWith
        add32 3 "a" "c" = Except.ok (r, log) ∧
      (∀ x, x ∈ log → GoodSum x ∧ add32 x.1 x.2 = x.1 + x.2) ∧
      (RoutePlanner.mk ["a", "b", "c"] [[0, 3, 9], [3, 0, 4], [9, 4, 0]]).shortestPathWith
        addZ 3 "a" "c" = Except.ok (r, logZ) ∧
      (RoutePlanner.mk ["a", "b", "c"] [[0, 3, 9], [3, 0, 4], [9, 4, 0]]).shortestPath
        3 "a" "c" = Except.ok r :=
  shortestPath_no_overflow ["a", "b", "c"] [("a", "b", 3), ("b", "c", 4), ("a", "c", 9)]
    (RoutePlanner.mk ["a", "b", "c"] [[0, 3, 9], [3, 0, 4], [9, 4, 0]]) "a" "c" 3
    (by decide) (by decide) (by decide) (by decide) (by decide) (by decide)

end RoutePlannerModel
